import Mathlib

/-!
# Verification of the qvis computer-vision core

Shallow embedding of the qvis crate (`src/qvis/src/inference.rs`,
`src/qvis/src/puzzle_matching/hungarian_algorithm.rs`, `src/qvis/src/lib.rs`)
together with proofs of the specified properties.

Rust slices are modelled as `List`, `f64` as `ℝ` (exact-arithmetic semantics;
`f64::total_cmp` becomes the linear order), machine integers as `ℕ`, hash maps
keyed by interned color strings as association lists in the fixed canonical
color order, and the stateful random generator as an explicitly threaded
stream of naturals.  Fallible operations (Rust panics) return `Option`/sum
types with `none` for the panic.
-/

set_option maxHeartbeats 1000000
set_option linter.unusedSectionVars false
set_option linter.unusedVariables false

namespace Qvis

/-- Total list indexing with the `Inhabited` default, modelling Rust slice
indexing at indices that are proven in bounds wherever the source relies
on them. -/
def getE {α : Type _} [Inhabited α] (l : List α) (i : ℕ) : α :=
  l.getD i default

/-- `slice.swap i j`: both reads happen before the writes, exactly as in
Rust's `<[T]>::swap`. -/
def swapE {α : Type _} [Inhabited α] (l : List α) (i j : ℕ) : List α :=
  (l.set i (getE l j)).set j (getE l i)

section SwapLemmas

variable {α : Type _} [Inhabited α]

@[simp] theorem getE_nil (i : ℕ) : getE ([] : List α) i = default := by
  simp [getE]

theorem getE_cons_zero (a : α) (l : List α) : getE (a :: l) 0 = a := rfl

theorem getE_cons_succ (a : α) (l : List α) (i : ℕ) :
    getE (a :: l) (i + 1) = getE l i := rfl

theorem getE_eq_getElem (l : List α) (i : ℕ) (h : i < l.length) :
    getE l i = l[i] := by
  simp [getE, List.getD_eq_getElem?_getD, List.getElem?_eq_getElem h]

theorem getE_eq_default (l : List α) (i : ℕ) (h : l.length ≤ i) :
    getE l i = default := by
  simp [getE, List.getD_eq_getElem?_getD, List.getElem?_eq_none h]

@[simp] theorem length_swapE (l : List α) (i j : ℕ) :
    (swapE l i j).length = l.length := by
  simp [swapE]

theorem getE_set_eq (l : List α) (i : ℕ) (a : α) (h : i < l.length) :
    getE (l.set i a) i = a := by
  rw [getE_eq_getElem _ _ (by simpa using h)]
  simp

theorem getE_set_ne (l : List α) (i j : ℕ) (a : α) (h : i ≠ j) :
    getE (l.set i a) j = getE l j := by
  by_cases hj : j < l.length
  · rw [getE_eq_getElem _ _ (by simpa using hj), getE_eq_getElem _ _ hj]
    exact List.getElem_set_ne h _
  · rw [getE_eq_default _ _ (by simpa using not_lt.mp hj),
      getE_eq_default _ _ (not_lt.mp hj)]

theorem getE_swapE_left (l : List α) (i j : ℕ) (hi : i < l.length) (hij : i ≠ j) :
    getE (swapE l i j) i = getE l j := by
  rw [swapE, getE_set_ne _ _ _ _ (Ne.symm hij), getE_set_eq _ _ _ hi]

theorem getE_swapE_right (l : List α) (i j : ℕ) (hj : j < l.length) :
    getE (swapE l i j) j = getE l i := by
  rw [swapE, getE_set_eq _ _ _ (by simpa using hj)]

theorem getE_swapE_other (l : List α) (i j k : ℕ) (hik : k ≠ i) (hjk : k ≠ j) :
    getE (swapE l i j) k = getE l k := by
  rw [swapE, getE_set_ne _ _ _ _ (Ne.symm hjk), getE_set_ne _ _ _ _ (Ne.symm hik)]

theorem set_self_of_getE (l : List α) (i : ℕ) (h : i < l.length) :
    l.set i (getE l i) = l := by
  induction l generalizing i with
  | nil => simp at h
  | cons b t ih =>
    cases i with
    | zero => simp [getE_cons_zero]
    | succ i => simp [getE_cons_succ, ih i (by simpa using h)]

/-- Replacing `t[j]` by `a` after pulling `t[j]` to the front is a
permutation of putting `a` in front of `t`. -/
theorem perm_cons_set (t : List α) (j : ℕ) (a : α) (hj : j < t.length) :
    List.Perm (t[j] :: t.set j a) (a :: t) := by
  induction t generalizing j with
  | nil => simp at hj
  | cons b t ih =>
    cases j with
    | zero => simpa using List.Perm.swap a b t
    | succ j =>
      have hj' : j < t.length := by simpa using hj
      simp only [List.getElem_cons_succ, List.set_cons_succ]
      have h1 : List.Perm (t[j] :: b :: t.set j a) (b :: t[j] :: t.set j a) :=
        List.Perm.swap b (t[j]) _
      have h2 : List.Perm (b :: t[j] :: t.set j a) (b :: a :: t) :=
        (ih j hj').cons b
      have h3 : List.Perm (b :: a :: t) (a :: b :: t) := List.Perm.swap a b t
      exact (h1.trans h2).trans h3

theorem swapE_perm (l : List α) (i j : ℕ) (hi : i < l.length) (hj : j < l.length) :
    List.Perm (swapE l i j) l := by
  rcases eq_or_ne i j with rfl | hij
  · rw [swapE, List.set_set, set_self_of_getE l i hi]
  · induction l generalizing i j with
    | nil => simp at hi
    | cons b t ih =>
      cases i with
      | zero =>
        cases j with
        | zero => exact absurd rfl hij
        | succ j =>
          have hj' : j < t.length := by simpa using hj
          have he : swapE (b :: t) 0 (j + 1) = getE t j :: t.set j b := by
            simp [swapE, getE_cons_succ, getE_cons_zero]
          rw [he, getE_eq_getElem _ _ hj']
          exact perm_cons_set t j b hj'
      | succ i =>
        cases j with
        | zero =>
          have hi' : i < t.length := by simpa using hi
          have he : swapE (b :: t) (i + 1) 0 = getE t i :: t.set i b := by
            simp [swapE, getE_cons_succ, getE_cons_zero]
          rw [he, getE_eq_getElem _ _ hi']
          have h1 := perm_cons_set t i b hi'
          -- target is a permutation with the same multiset, composed of two swaps
          exact h1
        | succ j =>
          have hi' : i < t.length := by simpa using hi
          have hj' : j < t.length := by simpa using hj
          have hij' : i ≠ j := fun h => hij (by omega)
          have he : swapE (b :: t) (i + 1) (j + 1) = b :: swapE t i j := by
            simp [swapE, getE_cons_succ]
          rw [he]
          exact (ih i j hi' hj' hij').cons b

end SwapLemmas

/-!
## Quickselect (`src/qvis/src/inference.rs`, `partition` / `quickselect`)

The generic comparator `by : impl Fn(&T, &T) -> Ordering` is instantiated in
the source only with the total order `f64::total_cmp`; we model it by a
`LinearOrder` on the element type, so `matches!(by(a, b), Ordering::Less)`
becomes `a < b`.  The `rand::Rng` is modelled as a stream of naturals:
`rng.random_range(0..len)` reads the head modulo `len` and the stream
advances one step.
-/

/-- The explicit model of the stateful random generator. -/
def Rng : Type := ℕ → ℕ

/-- The next raw random value. -/
def Rng.head (r : Rng) : ℕ := r 0

/-- The generator after one value has been drawn. -/
def Rng.tail (r : Rng) : Rng := fun n => r (n + 1)

section Quickselect

variable {α : Type _} [Inhabited α] [LinearOrder α]

/-- The left scan of `partition`:
`while i < slice.len() && !matches!(by(&slice[i], &slice[0]), Ordering::Less) { i += 1; }` -/
def advI (l : List α) (i : ℕ) : ℕ :=
  if h : i < l.length ∧ ¬getE l i < getE l 0 then advI l (i + 1) else i
termination_by l.length - i
decreasing_by omega

/-- The right scan of `partition`:
`while matches!(by(&slice[j], &slice[0]), Ordering::Less) { j -= 1; }`.
At `j = 0` the guard compares the pivot with itself and is false by
irreflexivity, so the Rust loop exits there and never underflows; the
clause for `0` returns `0` accordingly. -/
def retJ (l : List α) : ℕ → ℕ
  | 0 => 0
  | j + 1 => if getE l (j + 1) < getE l 0 then retJ l j else j + 1

theorem advI_ge (l : List α) (i : ℕ) : i ≤ advI l i := by
  rw [advI]
  split
  · have := advI_ge l (i + 1)
    omega
  · exact le_refl i
termination_by l.length - i
decreasing_by
  rename_i h
  omega

theorem advI_le_length (l : List α) (i : ℕ) (h : i ≤ l.length) :
    advI l i ≤ l.length := by
  rw [advI]
  split
  · exact advI_le_length l (i + 1) (by omega)
  · exact h
termination_by l.length - i
decreasing_by
  rename_i h'
  omega

theorem advI_stop (l : List α) (i : ℕ) :
    l.length ≤ advI l i ∨ getE l (advI l i) < getE l 0 := by
  rw [advI]
  split
  · exact advI_stop l (i + 1)
  · rename_i h
    push_neg at h
    by_cases hi : i < l.length
    · exact Or.inr (h hi)
    · exact Or.inl (by omega)
termination_by l.length - i
decreasing_by
  rename_i h
  omega

theorem advI_stop_lt (l : List α) (i : ℕ) (h : advI l i < l.length) :
    getE l (advI l i) < getE l 0 := by
  rcases advI_stop l i with h' | h'
  · omega
  · exact h'

theorem advI_pass (l : List α) (i m : ℕ) (h1 : i ≤ m) (h2 : m < advI l i) :
    ¬getE l m < getE l 0 := by
  rw [advI] at h2
  split at h2
  · rename_i hc
    rcases eq_or_lt_of_le h1 with rfl | hlt
    · exact hc.2
    · exact advI_pass l (i + 1) m hlt h2
  · omega
termination_by l.length - i
decreasing_by
  rename_i hc
  omega

theorem retJ_le (l : List α) (j : ℕ) : retJ l j ≤ j := by
  induction j with
  | zero => simp [retJ]
  | succ j ih =>
    rw [retJ]
    split
    · omega
    · omega

theorem retJ_stop (l : List α) (j : ℕ) : ¬getE l (retJ l j) < getE l 0 := by
  induction j with
  | zero => simp [retJ]
  | succ j ih =>
    rw [retJ]
    split
    · exact ih
    · assumption

theorem retJ_pass (l : List α) (j m : ℕ) (h1 : retJ l j < m) (h2 : m ≤ j) :
    getE l m < getE l 0 := by
  induction j with
  | zero => omega
  | succ j ih =>
    rw [retJ] at h1
    split at h1
    · rcases eq_or_lt_of_le h2 with rfl | hlt
      · assumption
      · exact ih h1 (by omega)
    · omega

/-- The main loop of `partition`, after the random pivot has been swapped to
position `0`.  Models the `loop { ... }` with the two inner scans; the Rust
locals `i` and `j` after the scans are written out as `advI l i` and
`retJ l j`. -/
def partLoop (l : List α) (i j : ℕ) : List α × ℕ :=
  if retJ l j < advI l i then (swapE l 0 (retJ l j), retJ l j)
  else partLoop (swapE l (advI l i) (retJ l j)) (advI l i + 1) (retJ l j)
termination_by j + 1 - i
decreasing_by
  rename_i hle
  have h1 := advI_ge l i
  have h2 := retJ_le l j
  omega

theorem partLoop_length (l : List α) (i j : ℕ) :
    (partLoop l i j).1.length = l.length := by
  rw [partLoop]
  split
  · simp
  · rw [partLoop_length]
    simp
termination_by j + 1 - i
decreasing_by
  rename_i hle
  have h1 := advI_ge l i
  have h2 := retJ_le l j
  omega

theorem partLoop_snd_le (l : List α) (i j : ℕ) : (partLoop l i j).2 ≤ j := by
  rw [partLoop]
  split
  · exact retJ_le l j
  · exact le_trans (partLoop_snd_le _ _ _) (retJ_le l j)
termination_by j + 1 - i
decreasing_by
  rename_i hle
  have h1 := advI_ge l i
  have h2 := retJ_le l j
  omega

/-- `partition`: pick a random pivot, swap it to the front, and run the
Hoare-style scan loop.  Returns the final slice contents together with the
returned pivot index. -/
def partition (rng : Rng) (l : List α) : List α × ℕ :=
  partLoop (swapE l 0 (rng.head % l.length)) 1 (l.length - 1)

theorem partition_length (rng : Rng) (l : List α) :
    (partition rng l).1.length = l.length := by
  rw [partition]
  rw [partLoop_length]
  simp

theorem partition_snd_lt (rng : Rng) (l : List α) (h : 1 ≤ l.length) :
    (partition rng l).2 < l.length := by
  rw [partition]
  have := partLoop_snd_le (swapE l 0 (rng.head % l.length)) 1 (l.length - 1)
  omega

/-- `quickselect`: iteratively partition and descend into the side holding
`find_spot`.  The Rust loop mutates a shrinking subslice of one array; the
embedding reconstructs the whole array around the recursive result and
threads the generator. -/
def quickselect (rng : Rng) (l : List α) (findSpot : ℕ) : List α × Rng :=
  if l.length < 2 then (l, rng)
  else
    if findSpot < (partition rng l).2 then
      ((quickselect rng.tail ((partition rng l).1.take (partition rng l).2) findSpot).1
          ++ (partition rng l).1.drop (partition rng l).2,
        (quickselect rng.tail ((partition rng l).1.take (partition rng l).2) findSpot).2)
    else if findSpot = (partition rng l).2 then ((partition rng l).1, rng.tail)
    else
      ((partition rng l).1.take ((partition rng l).2 + 1)
          ++ (quickselect rng.tail ((partition rng l).1.drop ((partition rng l).2 + 1))
                (findSpot - (partition rng l).2 - 1)).1,
        (quickselect rng.tail ((partition rng l).1.drop ((partition rng l).2 + 1))
            (findSpot - (partition rng l).2 - 1)).2)
termination_by l.length
decreasing_by
  · rename_i hlen _
    have h1 := partition_snd_lt rng l (by omega)
    have h2 := partition_length rng l
    simp only [List.length_take]
    omega
  · rename_i hlen _ _
    have h2 := partition_length rng l
    simp only [List.length_drop]
    omega

end Quickselect

/-!
## Correctness of `partition` and `quickselect`
-/

section QuickselectSpec

variable {α : Type _} [Inhabited α] [LinearOrder α]

theorem getE_append_left (A B : List α) (m : ℕ) (h : m < A.length) :
    getE (A ++ B) m = getE A m := by
  simp [getE, List.getD_eq_getElem?_getD, List.getElem?_append_left h]

theorem getE_append_right (A B : List α) (m : ℕ) (h : A.length ≤ m) :
    getE (A ++ B) m = getE B (m - A.length) := by
  simp [getE, List.getD_eq_getElem?_getD, List.getElem?_append_right h]

theorem getE_take (l : List α) (n m : ℕ) (h : m < n) :
    getE (l.take n) m = getE l m := by
  simp [getE, List.getD_eq_getElem?_getD, List.getElem?_take_of_lt h]

theorem getE_drop (l : List α) (n m : ℕ) :
    getE (l.drop n) m = getE l (n + m) := by
  simp [getE, List.getD_eq_getElem?_getD, List.getElem?_drop]

/-- Every element of a list is a `getE` value at an in-range index. -/
theorem mem_iff_getE (l : List α) (x : α) :
    x ∈ l ↔ ∃ m, m < l.length ∧ getE l m = x := by
  rw [List.mem_iff_getElem]
  constructor
  · rintro ⟨m, hm, rfl⟩
    exact ⟨m, hm, getE_eq_getElem l m hm⟩
  · rintro ⟨m, hm, rfl⟩
    exact ⟨m, hm, (getE_eq_getElem l m hm).symm⟩

/-- Hoare-partition loop invariant: positions `[1, i)` hold values not less
than the pivot at position `0`, positions `(j, len)` hold values less than
it.  The loop returns the slice with the pivot moved to the returned index,
everything before it not smaller and everything after it strictly
smaller. -/
theorem partLoop_spec (l : List α) (i j : ℕ) (hi1 : 1 ≤ i) (hj : j < l.length)
    (hlow : ∀ m, 1 ≤ m → m < i → ¬getE l m < getE l 0)
    (hhigh : ∀ m, j < m → m < l.length → getE l m < getE l 0) :
    List.Perm (partLoop l i j).1 l ∧ (partLoop l i j).2 < l.length ∧
      getE (partLoop l i j).1 (partLoop l i j).2 = getE l 0 ∧
      (∀ m, m < (partLoop l i j).2 →
        ¬getE (partLoop l i j).1 m < getE (partLoop l i j).1 (partLoop l i j).2) ∧
      (∀ m, (partLoop l i j).2 < m → m < l.length →
        getE (partLoop l i j).1 m < getE (partLoop l i j).1 (partLoop l i j).2) := by
  have hlen0 : 0 < l.length := by omega
  have hige := advI_ge l i
  have hjle := retJ_le l j
  rw [partLoop]
  split
  · -- exit branch: retJ l j < advI l i
    rename_i hcross
    have hjlt : retJ l j < l.length := by omega
    have hpiv : getE (swapE l 0 (retJ l j)) (retJ l j) = getE l 0 :=
      getE_swapE_right l 0 (retJ l j) hjlt
    refine ⟨swapE_perm l 0 (retJ l j) hlen0 hjlt, by simpa using hjlt, hpiv, ?_, ?_⟩
    · intro m hm
      rw [hpiv]
      have hmne : m ≠ retJ l j := by omega
      rcases Nat.eq_zero_or_pos m with rfl | hm1
      · have h0 : getE (swapE l 0 (retJ l j)) 0 = getE l (retJ l j) := by
          rcases eq_or_ne 0 (retJ l j) with h0j | h0j
          · rw [← h0j] at hpiv ⊢
            rw [hpiv, h0j]
          · exact getE_swapE_left l 0 (retJ l j) hlen0 h0j
        rw [h0]
        exact retJ_stop l j
      · have hmo : getE (swapE l 0 (retJ l j)) m = getE l m :=
          getE_swapE_other l 0 (retJ l j) m (by omega) hmne
        rw [hmo]
        by_cases hmi : m < i
        · exact hlow m hm1 hmi
        · exact advI_pass l i m (by omega) (by omega)
    · intro m hm hmlen
      rw [hpiv]
      have hmo : getE (swapE l 0 (retJ l j)) m = getE l m :=
        getE_swapE_other l 0 (retJ l j) m (by omega) (by omega)
      rw [hmo]
      by_cases hmj : m ≤ j
      · exact retJ_pass l j m hm hmj
      · exact hhigh m (by omega) hmlen
  · -- continue branch: advI l i ≤ retJ l j, swap and keep scanning
    rename_i hcross
    have hile : advI l i ≤ retJ l j := by omega
    have hilt : advI l i < l.length := by omega
    have hjlt : retJ l j < l.length := by omega
    have histop : getE l (advI l i) < getE l 0 := advI_stop_lt l i hilt
    have hjstop : ¬getE l (retJ l j) < getE l 0 := retJ_stop l j
    have hine : advI l i ≠ retJ l j := by
      intro h
      rw [h] at histop
      exact hjstop histop
    have histrict : advI l i < retJ l j := by omega
    have hi1' : 1 ≤ advI l i := by omega
    -- the swapped list for the recursive call
    have h0i : (0 : ℕ) ≠ advI l i := by omega
    have h0j : (0 : ℕ) ≠ retJ l j := by omega
    have hpiv2 : getE (swapE l (advI l i) (retJ l j)) 0 = getE l 0 :=
      getE_swapE_other l (advI l i) (retJ l j) 0 h0i h0j
    have hlow2 : ∀ m, 1 ≤ m → m < advI l i + 1 →
        ¬getE (swapE l (advI l i) (retJ l j)) m < getE (swapE l (advI l i) (retJ l j)) 0 := by
      intro m hm1 hm2
      rw [hpiv2]
      rcases eq_or_ne m (advI l i) with rfl | hmne
      · rw [getE_swapE_left l (advI l i) (retJ l j) hilt hine]
        exact hjstop
      · have hmo : getE (swapE l (advI l i) (retJ l j)) m = getE l m :=
          getE_swapE_other l (advI l i) (retJ l j) m hmne (by omega)
        rw [hmo]
        by_cases hmi : m < i
        · exact hlow m hm1 hmi
        · exact advI_pass l i m (by omega) (by omega)
    have hhigh2 : ∀ m, retJ l j < m → m < (swapE l (advI l i) (retJ l j)).length →
        getE (swapE l (advI l i) (retJ l j)) m < getE (swapE l (advI l i) (retJ l j)) 0 := by
      intro m hm hmlen
      rw [length_swapE] at hmlen
      rw [hpiv2]
      have hmo : getE (swapE l (advI l i) (retJ l j)) m = getE l m :=
        getE_swapE_other l (advI l i) (retJ l j) m (by omega) (by omega)
      rw [hmo]
      by_cases hmj : m ≤ j
      · exact retJ_pass l j m hm hmj
      · exact hhigh m (by omega) hmlen
    have ih := partLoop_spec (swapE l (advI l i) (retJ l j)) (advI l i + 1) (retJ l j)
      (by omega) (by simpa using hjlt) hlow2 hhigh2
    obtain ⟨ihperm, ihlt, ihpiv, ihlow, ihhigh⟩ := ih
    have hswap : List.Perm (swapE l (advI l i) (retJ l j)) l :=
      swapE_perm l (advI l i) (retJ l j) hilt hjlt
    refine ⟨ihperm.trans hswap, by simpa using ihlt, by rw [ihpiv, hpiv2], ?_, ?_⟩
    · intro m hm
      exact ihlow m hm
    · intro m hm hmlen
      exact ihhigh m hm (by simpa using hmlen)
termination_by j + 1 - i
decreasing_by
  have h1 := advI_ge l i
  have h2 := retJ_le l j
  omega

/-- `partition` on a non-empty slice returns a permutation of the input,
a pivot position inside the slice, with every earlier position not smaller
and every later position strictly smaller than the pivot value. -/
theorem partition_spec (rng : Rng) (l : List α) (h : 1 ≤ l.length) :
    List.Perm (partition rng l).1 l ∧ (partition rng l).2 < l.length ∧
      (∀ m, m < (partition rng l).2 →
        ¬getE (partition rng l).1 m < getE (partition rng l).1 (partition rng l).2) ∧
      (∀ m, (partition rng l).2 < m → m < l.length →
        getE (partition rng l).1 m < getE (partition rng l).1 (partition rng l).2) := by
  have hmod : rng.head % l.length < l.length := Nat.mod_lt _ (by omega)
  have hswap : List.Perm (swapE l 0 (rng.head % l.length)) l :=
    swapE_perm l 0 (rng.head % l.length) (by omega) hmod
  have hs := partLoop_spec (swapE l 0 (rng.head % l.length)) 1 (l.length - 1)
    (le_refl 1) (by simp; omega) (by omega) (by intro m hm hmlen; simp at hmlen; omega)
  rw [partition]
  obtain ⟨hperm, hlt, _, hlow, hhigh⟩ := hs
  exact ⟨hperm.trans hswap, by simpa using hlt, hlow, fun m hm hmlen =>
    hhigh m hm (by simpa using hmlen)⟩

theorem getE_mem (l : List α) (k : ℕ) (h : k < l.length) : getE l k ∈ l := by
  rw [getE_eq_getElem l k h]
  exact List.getElem_mem h

/-- Sorting in descending order; the reference point for the quickselect
post-condition ("the value at index `find_spot` after a full sort"). -/
def sortDesc (l : List α) : List α :=
  l.insertionSort (· ≥ ·)

theorem sortDesc_perm (l : List α) : List.Perm (sortDesc l) l :=
  List.perm_insertionSort _ l

theorem sortDesc_sorted (l : List α) : (sortDesc l).Sorted (· ≥ ·) :=
  List.sorted_insertionSort _ l

theorem sortDesc_length (l : List α) : (sortDesc l).length = l.length :=
  (sortDesc_perm l).length_eq

theorem sortDesc_eq_of_perm (l₁ l₂ : List α) (h : List.Perm l₁ l₂) :
    sortDesc l₁ = sortDesc l₂ :=
  List.eq_of_perm_of_sorted ((sortDesc_perm l₁).trans (h.trans (sortDesc_perm l₂).symm))
    (sortDesc_sorted l₁) (sortDesc_sorted l₂)

theorem sortDesc_append (A B : List α) (h : ∀ a ∈ A, ∀ b ∈ B, b ≤ a) :
    sortDesc (A ++ B) = sortDesc A ++ sortDesc B := by
  refine List.eq_of_perm_of_sorted (r := (· ≥ ·)) ?_ (sortDesc_sorted _) ?_
  · exact (sortDesc_perm _).trans ((sortDesc_perm A).append (sortDesc_perm B)).symm
  · rw [List.Sorted, List.pairwise_append]
    refine ⟨sortDesc_sorted A, sortDesc_sorted B, ?_⟩
    intro a ha b hb
    exact h a ((sortDesc_perm A).mem_iff.mp ha) b ((sortDesc_perm B).mem_iff.mp hb)

/-- If `s` is a descending-sorted permutation of `l` and position `k` of `l`
already dominates its suffix and is dominated by its prefix, then sorting
does not move the value at position `k`. -/
theorem sorted_rank (l s : List α) (k : ℕ) (hk : k < l.length)
    (hperm : List.Perm s l) (hsort : s.Sorted (· ≥ ·))
    (hlow : ∀ m, m < k → getE l k ≤ getE l m)
    (hhigh : ∀ m, k < m → m < l.length → getE l m ≤ getE l k) :
    getE s k = getE l k := by
  have hslen : s.length = l.length := hperm.length_eq
  have hks : k < s.length := by omega
  set x := getE l k with hx
  -- at most `k` elements of `l` are strictly greater than `l[k]`
  have hcount_lt : l.countP (fun y => decide (x < y)) ≤ k := by
    have hsplit : l.countP (fun y => decide (x < y)) =
        (l.take k).countP (fun y => decide (x < y)) +
          (l.drop k).countP (fun y => decide (x < y)) := by
      conv_lhs => rw [← List.take_append_drop k l]
      rw [List.countP_append]
    have h1 : (l.take k).countP (fun y => decide (x < y)) ≤ k := by
      calc (l.take k).countP (fun y => decide (x < y)) ≤ (l.take k).length :=
            List.countP_le_length _
        _ ≤ k := by simp
    have h2 : (l.drop k).countP (fun y => decide (x < y)) = 0 := by
      rw [List.countP_eq_zero]
      intro a ha
      obtain ⟨m, hm, rfl⟩ := (mem_iff_getE _ a).mp ha
      rw [getE_drop]
      rcases Nat.eq_zero_or_pos m with rfl | hm1
      · simp
      · have hlen : k + m < l.length := by
          have := List.length_drop k l
          omega
        have := hhigh (k + m) (by omega) hlen
        simpa using not_lt.mpr this
    omega
  -- at least `k + 1` elements of `l` are not smaller than `l[k]`
  have hcount_le : k < l.countP (fun y => decide (x ≤ y)) := by
    have hsplit : l.countP (fun y => decide (x ≤ y)) =
        (l.take (k + 1)).countP (fun y => decide (x ≤ y)) +
          (l.drop (k + 1)).countP (fun y => decide (x ≤ y)) := by
      conv_lhs => rw [← List.take_append_drop (k + 1) l]
      rw [List.countP_append]
    have h1 : (l.take (k + 1)).countP (fun y => decide (x ≤ y)) =
        (l.take (k + 1)).length := by
      rw [List.countP_eq_length]
      intro a ha
      obtain ⟨m, hm, rfl⟩ := (mem_iff_getE _ a).mp ha
      have hmk : m < k + 1 := by
        have : (l.take (k + 1)).length ≤ k + 1 := by simp
        omega
      rw [getE_take _ _ _ hmk]
      rcases Nat.lt_or_ge m k with hmlt | hmge
      · simpa using hlow m hmlt
      · have : m = k := by omega
        subst this
        simp [hx]
    have h2 : k + 1 ≤ (l.take (k + 1)).length := by
      simp
      omega
    omega
  have hcs_lt : s.countP (fun y => decide (x < y)) ≤ k := by
    rw [hperm.countP_eq]
    exact hcount_lt
  have hcs_le : k < s.countP (fun y => decide (x ≤ y)) := by
    rw [hperm.countP_eq]
    exact hcount_le
  have hpair := (List.pairwise_iff_getElem (R := (· ≥ ·)) (l := s)).mp hsort
  -- if `s[k]` were greater than `l[k]`, the prefix of length `k + 1` would give
  -- `k + 1` elements strictly above `l[k]`
  have hnot_gt : ¬x < getE s k := by
    intro hlt
    have h1 : (s.take (k + 1)).countP (fun y => decide (x < y)) =
        (s.take (k + 1)).length := by
      rw [List.countP_eq_length]
      intro a ha
      obtain ⟨m, hm, rfl⟩ := (mem_iff_getE _ a).mp ha
      have hmk : m < k + 1 := by
        have : (s.take (k + 1)).length ≤ k + 1 := by simp
        omega
      rw [getE_take _ _ _ hmk]
      rcases Nat.lt_or_ge m k with hmlt | hmge
      · have hge : getE s k ≤ getE s m := by
          rw [getE_eq_getElem _ _ (by omega : m < s.length), getE_eq_getElem _ _ hks]
          exact hpair m k (by omega) hks hmlt
        simpa using lt_of_lt_of_le hlt hge
      · have : m = k := by omega
        subst this
        simpa using hlt
    have h2 : k + 1 ≤ (s.take (k + 1)).length := by
      simp
      omega
    have h3 : s.countP (fun y => decide (x < y)) =
        (s.take (k + 1)).countP (fun y => decide (x < y)) +
          (s.drop (k + 1)).countP (fun y => decide (x < y)) := by
      conv_lhs => rw [← List.take_append_drop (k + 1) s]
      rw [List.countP_append]
    omega
  -- if `s[k]` were smaller than `l[k]`, at most the `k` prefix positions could
  -- carry values not below `l[k]`
  have hnot_lt : ¬getE s k < x := by
    intro hlt
    have h2 : (s.drop k).countP (fun y => decide (x ≤ y)) = 0 := by
      rw [List.countP_eq_zero]
      intro a ha
      obtain ⟨m, hm, rfl⟩ := (mem_iff_getE _ a).mp ha
      rw [getE_drop]
      have hlen : k + m < s.length := by
        have := List.length_drop k s
        omega
      have hle : getE s (k + m) ≤ getE s k := by
        rcases Nat.eq_zero_or_pos m with rfl | hm1
        · simp
        · rw [getE_eq_getElem _ _ hlen, getE_eq_getElem _ _ hks]
          exact hpair k (k + m) hks hlen (by omega)
      have := lt_of_le_of_lt hle hlt
      simpa using not_le.mpr this
    have h3 : s.countP (fun y => decide (x ≤ y)) =
        (s.take k).countP (fun y => decide (x ≤ y)) +
          (s.drop k).countP (fun y => decide (x ≤ y)) := by
      conv_lhs => rw [← List.take_append_drop k s]
      rw [List.countP_append]
    have h4 : (s.take k).countP (fun y => decide (x ≤ y)) ≤ k := by
      calc (s.take k).countP (fun y => decide (x ≤ y)) ≤ (s.take k).length :=
            List.countP_le_length _
        _ ≤ k := by simp
    omega
  exact le_antisymm (not_lt.mp hnot_gt) (not_lt.mp hnot_lt)

/-- Full functional specification of `quickselect`: the resulting slice is a
permutation of the input, the element at `find_spot` dominates everything
after it and is dominated by everything before it, and coincides with the
value of a full descending sort at that position. -/
theorem quickselect_spec (rng : Rng) (l : List α) (k : ℕ) (hk : k < l.length) :
    List.Perm (quickselect rng l k).1 l ∧
      (∀ m, m < k → getE (quickselect rng l k).1 k ≤ getE (quickselect rng l k).1 m) ∧
      (∀ m, k < m → m < l.length →
        getE (quickselect rng l k).1 m ≤ getE (quickselect rng l k).1 k) ∧
      getE (quickselect rng l k).1 k = getE (sortDesc l) k := by
  rw [quickselect]
  split
  · -- slices of length < 2 are returned unchanged
    rename_i hlen
    have hlen1 : l.length = 1 := by omega
    obtain ⟨a, rfl⟩ := List.length_eq_one.mp hlen1
    have hk0 : k = 0 := by omega
    subst hk0
    refine ⟨List.Perm.refl _, ?_, ?_, ?_⟩
    · intro m hm
      omega
    · intro m hm hmlen
      simp at hmlen
      omega
    · rfl
  · rename_i hlen
    obtain ⟨pperm, plt, plow, phigh⟩ := partition_spec rng l (by omega)
    have hl1len : (partition rng l).1.length = l.length := partition_length rng l
    set l1 := (partition rng l).1 with hl1
    set p := (partition rng l).2 with hp
    have hsd : sortDesc l1 = sortDesc l := sortDesc_eq_of_perm l1 l pperm
    -- elements in the kept prefix are at least the pivot value,
    -- elements in the kept suffix at most
    have htake_ge : ∀ a ∈ l1.take p, getE l1 p ≤ a := by
      intro a ha
      obtain ⟨m, hm, rfl⟩ := (mem_iff_getE _ a).mp ha
      have hmp : m < p := by
        have : (l1.take p).length ≤ p := by simp
        omega
      rw [getE_take _ _ _ hmp]
      exact le_of_not_lt (plow m hmp)
    have hdrop_le : ∀ b ∈ l1.drop p, b ≤ getE l1 p := by
      intro b hb
      obtain ⟨m, hm, rfl⟩ := (mem_iff_getE _ b).mp hb
      rw [getE_drop]
      rcases Nat.eq_zero_or_pos m with rfl | hm1
      · simp
      · have hblen : p + m < l.length := by
          have := List.length_drop p l1
          omega
        exact le_of_lt (phigh (p + m) (by omega) hblen)
    have htake1_ge : ∀ a ∈ l1.take (p + 1), getE l1 p ≤ a := by
      intro a ha
      obtain ⟨m, hm, rfl⟩ := (mem_iff_getE _ a).mp ha
      have hmp : m < p + 1 := by
        have : (l1.take (p + 1)).length ≤ p + 1 := by simp
        omega
      rw [getE_take _ _ _ hmp]
      rcases Nat.lt_or_ge m p with hmlt | hmge
      · exact le_of_not_lt (plow m hmlt)
      · have : m = p := by omega
        subst this
        exact le_refl _
    have hdrop1_le : ∀ b ∈ l1.drop (p + 1), b ≤ getE l1 p := by
      intro b hb
      obtain ⟨m, hm, rfl⟩ := (mem_iff_getE _ b).mp hb
      rw [getE_drop]
      have hblen : p + 1 + m < l.length := by
        have := List.length_drop (p + 1) l1
        omega
      exact le_of_lt (phigh (p + 1 + m) (by omega) hblen)
    split
    · -- recurse into the left part, `find_spot < spot_found`
      rename_i hkp
      have htlen : (l1.take p).length = p := by
        simp
        omega
      have ih := quickselect_spec rng.tail (l1.take p) k (by omega)
      obtain ⟨iperm, ilow, ihigh, ival⟩ := ih
      set A := (quickselect rng.tail (l1.take p) k).1 with hA
      have hAlen : A.length = p := by
        rw [iperm.length_eq, htlen]
      have hgetl : ∀ m, m < p → getE (A ++ l1.drop p) m = getE A m := by
        intro m hm
        exact getE_append_left _ _ _ (by omega)
      have hgetr : ∀ m, p ≤ m → getE (A ++ l1.drop p) m = getE l1 m := by
        intro m hm
        rw [getE_append_right _ _ _ (by omega), hAlen, getE_drop]
        congr 1
        omega
      have hAge : ∀ a ∈ A, getE l1 p ≤ a := by
        intro a ha
        exact htake_ge a (iperm.mem_iff.mp ha)
      refine ⟨?_, ?_, ?_, ?_⟩
      · have e : List.Perm (A ++ l1.drop p) l1 := by
          have h := iperm.append_right (l1.drop p)
          rwa [List.take_append_drop] at h
        exact e.trans pperm
      · intro m hm
        rw [hgetl k hkp, hgetl m (by omega)]
        exact ilow m hm
      · intro m hm hmlen
        rw [hgetl k hkp]
        rcases Nat.lt_or_ge m p with hmp | hmp
        · rw [hgetl m hmp]
          exact ihigh m hm (by omega)
        · rw [hgetr m hmp]
          have h1 : getE l1 m ≤ getE l1 p := by
            rcases Nat.eq_or_lt_of_le hmp with rfl | hmp'
            · exact le_refl _
            · exact le_of_lt (phigh m hmp' hmlen)
          have h2 : getE l1 p ≤ getE A k :=
            hAge _ (getE_mem A k (by omega))
          exact le_trans h1 h2
      · rw [hgetl k hkp, ival, ← hsd]
        have hsplit : sortDesc l1 = sortDesc (l1.take p) ++ sortDesc (l1.drop p) := by
          conv_lhs => rw [← List.take_append_drop p l1]
          exact sortDesc_append _ _ (fun a ha b hb =>
            le_trans (hdrop_le b hb) (htake_ge a ha))
        rw [hsplit, getE_append_left]
        rw [sortDesc_length, htlen]
        omega
    · split
      · -- exact hit, `find_spot == spot_found`
        rename_i hne hkp
        subst hkp
        refine ⟨pperm, ?_, ?_, ?_⟩
        · intro m hm
          exact le_of_not_lt (plow m hm)
        · intro m hm hmlen
          exact le_of_lt (phigh m hm hmlen)
        · rw [← hsd]
          exact (sorted_rank l1 (sortDesc l1) p (by omega) (sortDesc_perm l1)
            (sortDesc_sorted l1) (fun m hm => le_of_not_lt (plow m hm))
            (fun m hm hmlen => le_of_lt (phigh m hm (by omega)))).symm
      · -- recurse into the right part, `find_spot > spot_found`
        rename_i hne hkp
        have hkgt : p < k := by omega
        have hdlen : (l1.drop (p + 1)).length = l.length - p - 1 := by
          simp
          omega
        have ih := quickselect_spec rng.tail (l1.drop (p + 1)) (k - p - 1) (by omega)
        obtain ⟨iperm, ilow, ihigh, ival⟩ := ih
        set B := (quickselect rng.tail (l1.drop (p + 1)) (k - p - 1)).1 with hB
        have hBlen : B.length = l.length - p - 1 := by
          rw [iperm.length_eq, hdlen]
        have htlen : (l1.take (p + 1)).length = p + 1 := by
          simp
          omega
        have hgetl : ∀ m, m < p + 1 → getE (l1.take (p + 1) ++ B) m = getE l1 m := by
          intro m hm
          rw [getE_append_left _ _ _ (by omega), getE_take _ _ _ hm]
        have hgetr : ∀ m, p + 1 ≤ m → getE (l1.take (p + 1) ++ B) m = getE B (m - p - 1) := by
          intro m hm
          rw [getE_append_right _ _ _ (by omega), htlen]
          congr 1
        have hBle : ∀ b ∈ B, b ≤ getE l1 p := by
          intro b hb
          exact hdrop1_le b (iperm.mem_iff.mp hb)
        refine ⟨?_, ?_, ?_, ?_⟩
        · have e : List.Perm (l1.take (p + 1) ++ B) l1 := by
            have h := (List.Perm.refl (l1.take (p + 1))).append iperm
            rwa [List.take_append_drop] at h
          exact e.trans pperm
        · intro m hm
          rw [hgetr k (by omega)]
          rcases Nat.lt_or_ge m (p + 1) with hmp | hmp
          · rw [hgetl m hmp]
            have h1 : getE B (k - p - 1) ≤ getE l1 p :=
              hBle _ (getE_mem B (k - p - 1) (by omega))
            have h2 : getE l1 p ≤ getE l1 m := by
              rcases Nat.lt_or_ge m p with hmp' | hmp'
              · exact le_of_not_lt (plow m hmp')
              · have : m = p := by omega
                subst this
                exact le_refl _
            exact le_trans h1 h2
          · rw [hgetr m hmp]
            exact ilow (m - p - 1) (by omega)
        · intro m hm hmlen
          rw [hgetr k (by omega), hgetr m (by omega)]
          exact ihigh (m - p - 1) (by omega) (by omega)
        · rw [hgetr k (by omega), ival, ← hsd]
          have hsplit : sortDesc l1 =
              sortDesc (l1.take (p + 1)) ++ sortDesc (l1.drop (p + 1)) := by
            conv_lhs => rw [← List.take_append_drop (p + 1) l1]
            exact sortDesc_append _ _ (fun a ha b hb =>
              le_trans (hdrop1_le b hb) (htake1_ge a ha))
          rw [hsplit, getE_append_right]
          · congr 1
            rw [sortDesc_length, htlen]
            omega
          · rw [sortDesc_length, htlen]
            omega
termination_by l.length
decreasing_by
  all_goals
    have h1 := partition_snd_lt rng l (by omega)
    have h2 := partition_length rng l
    simp only [List.length_take, List.length_drop]
    omega

end QuickselectSpec

/-!
## Hungarian algorithm
(`src/qvis/src/puzzle_matching/hungarian_algorithm.rs`)

`f64` costs are modelled by a linear ordered field (exact arithmetic;
instantiated at `ℚ` for concrete evaluation), the `n × n` `Array2` as a
function `ℕ → ℕ → Option α` read at indices below `n`, and the boolean
tightness matrix as `ℕ → ℕ → Bool`.  A Rust panic (the `unwrap` on an
all-forbidden matrix, or in `toggle_augmenting_path`) is the result
`MMResult.fault`; the loops carry explicit fuel, proven sufficient below.
-/

/-- One side of an `Element`; `#[derive(Default)]` gives potential `0.0`. -/
structure Node (α : Type _) where
  potential : α
  matchesWith : Option ℕ
  bfsComesFrom : Option ℕ
  visited : Bool
deriving Repr, DecidableEq

instance {α : Type _} [Zero α] : Inhabited (Node α) :=
  ⟨⟨0, none, none, false⟩⟩

/-- Stores the left and right nodes of the bipartite graph in one list. -/
structure Element (α : Type _) where
  left : Node α
  right : Node α
deriving Repr, DecidableEq

instance {α : Type _} [Zero α] : Inhabited (Element α) :=
  ⟨⟨default, default⟩⟩

/-- Result of `maximum_matching`: `found` is Rust's `Some(assignment)`,
`infeasible` is Rust's `None`, and `fault` is a panic. -/
inductive MMResult
  | fault
  | infeasible
  | found (assignment : List ℕ)
deriving Repr, DecidableEq

section Hungarian

variable {α : Type _} [LinearOrderedCommRing α]

/-- Point update of one element of the node list. -/
def updData (data : List (Element α)) (i : ℕ) (f : Element α → Element α) :
    List (Element α) :=
  data.set i (f (getE data i))

@[simp] theorem length_updData (data : List (Element α)) (i : ℕ)
    (f : Element α → Element α) : (updData data i f).length = data.length := by
  simp [updData]

/-- Reset of the BFS bookkeeping at the start of `find_augmenting_path`. -/
def resetBfs (data : List (Element α)) : List (Element α) :=
  data.map fun e =>
    { e with
      left := { e.left with bfsComesFrom := none, visited := false }
      right := { e.right with bfsComesFrom := none, visited := false } }

/-- Mark right node `r` visited with BFS parent `l0`
(`data[right_idx].right.bfs_comes_from = Some(left_idx); ... visited = true`). -/
def visitRight (data : List (Element α)) (l0 r : ℕ) : List (Element α) :=
  updData data r fun e =>
    { e with right := { e.right with bfsComesFrom := some l0, visited := true } }

/-- Mark left node `l` visited with BFS parent `r`
(`data[new_left_idx].left.bfs_comes_from = Some(right_idx); ... visited = true`). -/
def visitLeft (data : List (Element α)) (r l : ℕ) : List (Element α) :=
  updData data l fun e =>
    { e with left := { e.left with bfsComesFrom := some r, visited := true } }

/-- The `for right_idx in 0..n` scan of one left node during the BFS.
`Sum.inr` is the early return of an unmatched right endpoint; `Sum.inl`
returns the updated state and next level after a complete scan. -/
def scanRightsGo (costs : ℕ → ℕ → Option α) (isTight : ℕ → ℕ → Bool) (n : ℕ)
    (leftIdx : ℕ) : ℕ → ℕ → List (Element α) → List ℕ →
    (List (Element α) × List ℕ) ⊕ (List (Element α) × ℕ)
  | 0, _, data, next => Sum.inl (data, next)
  | fuel + 1, r, data, next =>
    if r < n then
      if (costs leftIdx r).isSome && !(getE data r).right.visited && isTight leftIdx r then
        match (getE (visitRight data leftIdx r) r).right.matchesWith with
        | some newLeft =>
          if (getE (visitRight data leftIdx r) newLeft).left.visited then
            scanRightsGo costs isTight n leftIdx fuel (r + 1) (visitRight data leftIdx r) next
          else
            scanRightsGo costs isTight n leftIdx fuel (r + 1)
              (visitLeft (visitRight data leftIdx r) r newLeft) (next ++ [newLeft])
        | none => Sum.inr (visitRight data leftIdx r, r)
      else scanRightsGo costs isTight n leftIdx fuel (r + 1) data next
    else Sum.inl (data, next)

/-- The scan entry point: the remaining-column count `n - r` is the
structural fuel of `scanRightsGo`. -/
def scanRights (costs : ℕ → ℕ → Option α) (isTight : ℕ → ℕ → Bool) (n : ℕ)
    (leftIdx : ℕ) (r : ℕ) (data : List (Element α)) (next : List ℕ) :
    (List (Element α) × List ℕ) ⊕ (List (Element α) × ℕ) :=
  scanRightsGo costs isTight n leftIdx (n - r) r data next

/-- The one-step unfolding of the scan in the form of the Rust loop body. -/
theorem scanRights_eq (costs : ℕ → ℕ → Option α) (isTight : ℕ → ℕ → Bool)
    (n leftIdx r : ℕ) (data : List (Element α)) (next : List ℕ) :
    scanRights costs isTight n leftIdx r data next =
      if _h : r < n then
        if (costs leftIdx r).isSome && !(getE data r).right.visited && isTight leftIdx r then
          match (getE (visitRight data leftIdx r) r).right.matchesWith with
          | some newLeft =>
            if (getE (visitRight data leftIdx r) newLeft).left.visited then
              scanRights costs isTight n leftIdx (r + 1) (visitRight data leftIdx r) next
            else
              scanRights costs isTight n leftIdx (r + 1)
                (visitLeft (visitRight data leftIdx r) r newLeft) (next ++ [newLeft])
          | none => Sum.inr (visitRight data leftIdx r, r)
        else scanRights costs isTight n leftIdx (r + 1) data next
      else Sum.inl (data, next) := by
  by_cases hr : r < n
  · rw [dif_pos hr]
    have hf : n - r = (n - (r + 1)) + 1 := by omega
    rw [scanRights, hf, scanRightsGo, if_pos hr]
    rfl
  · rw [dif_neg hr]
    have hf : n - r = 0 := by omega
    rw [scanRights, hf]
    rfl

/-- Scan of a whole BFS level (the `for left_idx in current_level.drain(..)`). -/
def scanLevel (costs : ℕ → ℕ → Option α) (isTight : ℕ → ℕ → Bool) (n : ℕ)
    (lefts : List ℕ) (data : List (Element α)) (next : List ℕ) :
    (List (Element α) × List ℕ) ⊕ (List (Element α) × ℕ) :=
  match lefts with
  | [] => Sum.inl (data, next)
  | l :: rest =>
    match scanRights costs isTight n l 0 data next with
    | Sum.inr res => Sum.inr res
    | Sum.inl (data1, next1) => scanLevel costs isTight n rest data1 next1

/-- The `while !current_level.is_empty()` loop of the BFS.  The fuel is set
to `n + 1` by the caller; exhaustion is impossible (each processed level
adds its members to the visited set) and is mapped to the no-path result
only after that is proven below. -/
def bfsLoop (costs : ℕ → ℕ → Option α) (isTight : ℕ → ℕ → Bool) (n : ℕ) :
    ℕ → List ℕ → List (Element α) → List (Element α) × Option ℕ
  | _, [], data => (data, none)
  | 0, _ :: _, data => (data, none)
  | fuel + 1, l :: rest, data =>
    match scanLevel costs isTight n (l :: rest) data [] with
    | Sum.inr (data1, endpoint) => (data1, some endpoint)
    | Sum.inl (data1, next) => bfsLoop costs isTight n fuel next data1

/-- `find_augmenting_path`: reset the BFS bookkeeping, mark the start node
visited and breadth-first search the alternating tree over tight edges. -/
def find_augmenting_path (costs : ℕ → ℕ → Option α) (n : ℕ) (start : ℕ)
    (data : List (Element α)) (isTight : ℕ → ℕ → Bool) :
    List (Element α) × Option ℕ :=
  bfsLoop costs isTight n (n + 1) [start]
    (updData (resetBfs data) start fun e =>
      { e with left := { e.left with visited := true } })

/-- `data[endpoint].right.matches_with = Some(left_side)`. -/
def setRightMatch (data : List (Element α)) (j i : ℕ) : List (Element α) :=
  updData data j fun e => { e with right := { e.right with matchesWith := some i } }

/-- `data[left_side].left.matches_with = Some(endpoint)`. -/
def setLeftMatch (data : List (Element α)) (i j : ℕ) : List (Element α) :=
  updData data i fun e => { e with left := { e.left with matchesWith := some j } }

/-- `toggle_augmenting_path`: walk the `bfs_comes_from` pointers from the
endpoint, flipping matched edges.  `none` models the `.unwrap()` panic (and
the impossible fuel exhaustion along a valid finite path). -/
def toggle_augmenting_path : ℕ → ℕ → List (Element α) → Option (List (Element α))
  | 0, _, _ => none
  | fuel + 1, endpoint, data =>
    match (getE data endpoint).right.bfsComesFrom with
    | none => none
    | some leftSide =>
      match (getE (setLeftMatch (setRightMatch data endpoint leftSide) leftSide endpoint)
          leftSide).left.bfsComesFrom with
      | some nextEndpoint =>
        toggle_augmenting_path fuel nextEndpoint
          (setLeftMatch (setRightMatch data endpoint leftSide) leftSide endpoint)
      | none => some (setLeftMatch (setRightMatch data endpoint leftSide) leftSide endpoint)

/-- The boundary edges of `relax_potentials` with their slack, in the
row-major order of `costs.indexed_iter()`: finite cost, left visited, right
unvisited. -/
def relaxCandidates (costs : ℕ → ℕ → Option α) (n : ℕ) (data : List (Element α)) :
    List ((ℕ × ℕ) × α) :=
  ((List.range n).flatMap fun i => (List.range n).map fun j => (i, j)).filterMap
    fun ij =>
      match costs ij.1 ij.2 with
      | some c =>
        if (getE data ij.1).left.visited && !(getE data ij.2).right.visited then
          some (ij, (getE data ij.1).left.potential + (getE data ij.2).right.potential - c)
        else none
      | none => none

/-- Rust `Iterator::min_by` on the slack values: the first of equally
minimal elements is kept. -/
def minBySlack : List ((ℕ × ℕ) × α) → Option ((ℕ × ℕ) × α)
  | [] => none
  | x :: xs => some (xs.foldl (fun acc y => if y.2 < acc.2 then y else acc) x)

/-- The per-element potential shift of `relax_potentials`: visited lefts
lose `d`, visited rights gain `d`. -/
def relaxShift (d : α) (e : Element α) : Element α :=
  let e1 := if e.left.visited then
    { e with left := { e.left with potential := e.left.potential - d } } else e
  if e1.right.visited then
    { e1 with right := { e1.right with potential := e1.right.potential + d } } else e1

/-- `relax_potentials`: find the minimum slack boundary edge, mark it tight,
shift potentials of visited nodes.  `none` models the `return false` (no
boundary edge). -/
def relax_potentials (costs : ℕ → ℕ → Option α) (n : ℕ) (data : List (Element α))
    (isTight : ℕ → ℕ → Bool) : Option ((ℕ → ℕ → Bool) × List (Element α)) :=
  match minBySlack (relaxCandidates costs n data) with
  | none => none
  | some (ij, d) =>
    some (fun a b => if a = ij.1 ∧ b = ij.2 then true else isTight a b,
      data.map (relaxShift d))

/-- `data.iter().enumerate().find(|(_, elt)| elt.left.matches_with.is_none())`. -/
def findUnmatchedLeft (data : List (Element α)) : Option ℕ :=
  (List.range data.length).find? fun i => (getE data i).left.matchesWith.isNone

/-- The `while let Some((i, _)) = ... find ...` loop of `maximum_matching`,
with explicit fuel (proven sufficient below). -/
def mmLoop (costs : ℕ → ℕ → Option α) (n : ℕ) :
    ℕ → (ℕ → ℕ → Bool) → List (Element α) → MMResult
  | 0, _, _ => .fault
  | fuel + 1, isTight, data =>
    match findUnmatchedLeft data with
    | none =>
      match data.mapM (fun e => e.left.matchesWith) with
      | some a => .found a
      | none => .fault
    | some i =>
      match find_augmenting_path costs n i data isTight with
      | (data1, some endpoint) =>
        match toggle_augmenting_path (n + 1) endpoint data1 with
        | none => .fault
        | some data2 => mmLoop costs n fuel isTight data2
      | (data1, none) =>
        match relax_potentials costs n data1 isTight with
        | none => .infeasible
        | some (isTight1, data2) => mmLoop costs n fuel isTight1 data2

/-- `costs.iter().filter_map(|v| *v).max_by(total_cmp)`: the maximum finite
cost (the misnamed `min_cost` local). -/
def maxFiniteCost (n : ℕ) (costs : ℕ → ℕ → Option α) : Option α :=
  (((List.range n).flatMap fun i => (List.range n).map fun j => costs i j).filterMap id).max?

/-- The fuel of the main loop: each iteration either matches one more left
node (at most `n` times) or marks one more edge tight between two
augmentations (at most `n * n` times), see `mmLoop_measure` below. -/
def mmFuel (n : ℕ) : ℕ :=
  n * (n * n + 1) + n * n + 1

/-- `maximum_matching` on an `n × n` matrix of optionally forbidden costs.
The `assert!(costs.is_square())` is implicit in modelling the matrix by its
size `n` and entry function.  An empty matrix returns the empty matching;
otherwise all left potentials start at the maximum finite cost — whose
`unwrap` panics (`.fault`) when every entry is forbidden. -/
def maximum_matching (n : ℕ) (costs : ℕ → ℕ → Option α) : MMResult :=
  if n = 0 then .found []
  else
    match maxFiniteCost n costs with
    | none => .fault
    | some mc =>
      mmLoop costs n (mmFuel n) (fun _ _ => false)
        (List.replicate n
          { left := { (default : Node α) with potential := mc }, right := default })

/-!
### Invariants of the Hungarian algorithm
-/

/-- Left-node matching field. -/
def leftM (data : List (Element α)) (i : ℕ) : Option ℕ :=
  (getE data i).left.matchesWith

/-- Right-node matching field. -/
def rightM (data : List (Element α)) (j : ℕ) : Option ℕ :=
  (getE data j).right.matchesWith

/-- Left-node visited flag. -/
def lVis (data : List (Element α)) (i : ℕ) : Prop :=
  (getE data i).left.visited = true

/-- Right-node visited flag. -/
def rVis (data : List (Element α)) (j : ℕ) : Prop :=
  (getE data j).right.visited = true

/-- Left-node BFS parent pointer. -/
def lCF (data : List (Element α)) (i : ℕ) : Option ℕ :=
  (getE data i).left.bfsComesFrom

/-- Right-node BFS parent pointer. -/
def rCF (data : List (Element α)) (j : ℕ) : Option ℕ :=
  (getE data j).right.bfsComesFrom

/-- The partial matching stored in the node list is a partial bijection
between left and right nodes whose matched edges all carry finite costs. -/
structure MatchInv (n : ℕ) (costs : ℕ → ℕ → Option α) (data : List (Element α)) :
    Prop where
  len : data.length = n
  lm : ∀ i j, leftM data i = some j →
    i < n ∧ j < n ∧ (costs i j).isSome ∧ rightM data j = some i
  rm : ∀ j i, rightM data j = some i → i < n ∧ j < n ∧ leftM data i = some j

/-- A valid alternating `bfs_comes_from` chain from right node `r` back to
the unmatched start node, of length `d`; this is exactly the structure that
`toggle_augmenting_path` walks. -/
inductive RPath (n : ℕ) (costs : ℕ → ℕ → Option α) (data : List (Element α))
    (start : ℕ) : ℕ → ℕ → Prop
  | base (r l : ℕ) : r < n → l < n → rCF data r = some l → (costs l r).isSome →
      lCF data l = none → l = start → RPath n costs data start 0 r
  | step (r l r' : ℕ) (d : ℕ) : r < n → l < n → rCF data r = some l →
      (costs l r).isSome → lCF data l = some r' → rightM data r' = some l →
      RPath n costs data start d r' → RPath n costs data start (d + 1) r

/-- The comes-from pointers are functions, so the chain from a given right
node is unique; in particular its length is determined. -/
theorem RPath_det {n : ℕ} {costs : ℕ → ℕ → Option α} {data : List (Element α)}
    {start : ℕ} {d d' r : ℕ} (h : RPath n costs data start d r)
    (h' : RPath n costs data start d' r) : d = d' := by
  induction h generalizing d' with
  | base r l hr hl hcf hc hlcf hst =>
    cases h' with
    | base => rfl
    | step r₂ l₂ r₂' d₂ hr₂ hl₂ hcf₂ hc₂ hlcf₂ hm₂ hp₂ =>
      rw [hcf] at hcf₂
      cases hcf₂
      rw [hlcf] at hlcf₂
      cases hlcf₂
  | step r l r' d hr hl hcf hc hlcf hm hp ih =>
    cases h' with
    | base r₂ l₂ hr₂ hl₂ hcf₂ hc₂ hlcf₂ hst₂ =>
      rw [hcf] at hcf₂
      cases hcf₂
      rw [hlcf] at hlcf₂
      cases hlcf₂
    | step r₂ l₂ r₂' d₂ hr₂ hl₂ hcf₂ hc₂ hlcf₂ hm₂ hp₂ =>
      rw [hcf] at hcf₂
      cases hcf₂
      rw [hlcf] at hlcf₂
      cases hlcf₂
      rw [ih hp₂]

/-- The rights along a chain are pairwise distinct (their depths differ), so
a chain of length `d` exhibits `d + 1` distinct right nodes below `n`. -/
theorem RPath_card {n : ℕ} {costs : ℕ → ℕ → Option α} {data : List (Element α)}
    {start : ℕ} {d r : ℕ} (h : RPath n costs data start d r) :
    ∃ s : Finset ℕ, s.card = d + 1 ∧ r ∈ s ∧
      ∀ x ∈ s, x < n ∧ ∃ d', d' ≤ d ∧ RPath n costs data start d' x := by
  induction h with
  | base r l hr hl hcf hc hlcf hst =>
    exact ⟨{r}, by simp, by simp, by
      intro x hx
      simp at hx
      subst hx
      exact ⟨hr, 0, le_refl 0, RPath.base _ l hr hl hcf hc hlcf hst⟩⟩
  | step r l r' d hr hl hcf hc hlcf hm hp ih =>
    obtain ⟨s, hcard, hmem, hall⟩ := ih
    have hrs : r ∉ s := by
      intro hrin
      obtain ⟨_, d', hd', hp'⟩ := hall r hrin
      have := RPath_det hp' (RPath.step r l r' d hr hl hcf hc hlcf hm hp)
      omega
    refine ⟨insert r s, ?_, by simp, ?_⟩
    · rw [Finset.card_insert_of_not_mem hrs, hcard]
    · intro x hx
      rcases Finset.mem_insert.mp hx with rfl | hxs
      · exact ⟨hr, d + 1, le_refl _, RPath.step _ l r' d hr hl hcf hc hlcf hm hp⟩
      · obtain ⟨hxn, d', hd', hp'⟩ := hall x hxs
        exact ⟨hxn, d', by omega, hp'⟩

theorem RPath_depth_lt {n : ℕ} {costs : ℕ → ℕ → Option α} {data : List (Element α)}
    {start : ℕ} {d r : ℕ} (h : RPath n costs data start d r) : d < n := by
  obtain ⟨s, hcard, hmem, hall⟩ := RPath_card h
  have hsub : s ⊆ Finset.range n := by
    intro x hx
    exact Finset.mem_range.mpr (hall x hx).1
  have := Finset.card_le_card hsub
  rw [hcard, Finset.card_range] at this
  omega

/-- Chains survive state changes that keep the pointer and matching fields
of every visited node intact, as long as every set pointer sits on a
visited node and the start is visited. -/
theorem RPath_congr {n : ℕ} {costs : ℕ → ℕ → Option α}
    {data data' : List (Element α)} {start : ℕ}
    (hRcf : ∀ x, rVis data x → rCF data' x = rCF data x)
    (hRm : ∀ x, rVis data x → rightM data' x = rightM data x)
    (hLcf : ∀ x, lVis data x → lCF data' x = lCF data x)
    (hcf_r : ∀ x y, rCF data x = some y → rVis data x)
    (hcf_l : ∀ x y, lCF data x = some y → lVis data x)
    (hstart : lVis data start) :
    ∀ {d r}, RPath n costs data start d r → RPath n costs data' start d r := by
  intro d r h
  induction h with
  | base r l hr hl hcf hc hlcf hst =>
    refine RPath.base r l hr hl ?_ hc ?_ hst
    · rw [hRcf r (hcf_r r l hcf)]
      exact hcf
    · subst hst
      rw [hLcf _ hstart]
      exact hlcf
  | step r l r' d hr hl hcf hc hlcf hm hp ih =>
    have hrv : rVis data r := hcf_r r l hcf
    have hlv : lVis data l := hcf_l l r' hlcf
    have hrv' : rVis data r' := by
      cases hp with
      | base _ l'' hr'' hl'' hcf'' _ _ _ => exact hcf_r r' l'' hcf''
      | step _ l'' _ _ hr'' hl'' hcf'' _ _ _ _ => exact hcf_r r' l'' hcf''
    refine RPath.step r l r' d hr hl ?_ hc ?_ ?_ ih
    · rw [hRcf r hrv]
      exact hcf
    · rw [hLcf l hlv]
      exact hlcf
    · rw [hRm r' hrv']
      exact hm

/-- Chains survive changes to the matching fields of rights that do not lie
on them (the pointers themselves are untouched). -/
theorem RPath_congr_matches {n : ℕ} {costs : ℕ → ℕ → Option α}
    {data data' : List (Element α)} {start : ℕ} {D : ℕ}
    (hcf_r : ∀ x, rCF data' x = rCF data x)
    (hcf_l : ∀ x, lCF data' x = lCF data x)
    (hrm : ∀ x d', d' ≤ D → RPath n costs data start d' x →
      rightM data' x = rightM data x) :
    ∀ {d r}, d ≤ D → RPath n costs data start d r →
      RPath n costs data' start d r := by
  intro d r hd h
  induction h with
  | base r l hr hl hcf hc hlcf hst =>
    refine RPath.base r l hr hl ?_ hc ?_ hst
    · rw [hcf_r]
      exact hcf
    · rw [hcf_l]
      exact hlcf
  | step r l r' d hr hl hcf hc hlcf hm hp ih =>
    refine RPath.step r l r' d hr hl ?_ hc ?_ ?_ (ih (by omega))
    · rw [hcf_r]
      exact hcf
    · rw [hcf_l]
      exact hlcf
    · rw [hrm r' d (by omega) hp]
      exact hm

theorem getE_updData_eq (data : List (Element α)) (i : ℕ)
    (f : Element α → Element α) (h : i < data.length) :
    getE (updData data i f) i = f (getE data i) := by
  rw [updData, getE_set_eq _ _ _ h]

theorem getE_updData_ne (data : List (Element α)) (i x : ℕ)
    (f : Element α → Element α) (h : x ≠ i) :
    getE (updData data i f) x = getE data x := by
  rw [updData, getE_set_ne _ _ _ _ (Ne.symm h)]

/-- Number of unmatched left nodes: the loop's progress measure. -/
def unmatchedLeftCount (data : List (Element α)) : ℕ :=
  data.countP fun e => e.left.matchesWith.isNone

/-- Number of tight edges: the relaxation progress measure. -/
def tightCount (n : ℕ) (isTight : ℕ → ℕ → Bool) : ℕ :=
  ((Finset.range n ×ˢ Finset.range n).filter fun ij => isTight ij.1 ij.2).card

theorem tightCount_le (n : ℕ) (isTight : ℕ → ℕ → Bool) :
    tightCount n isTight ≤ n * n := by
  have h := Finset.card_filter_le (Finset.range n ×ˢ Finset.range n)
    (fun ij => isTight ij.1 ij.2 = true)
  simpa [tightCount, Finset.card_product] using h

/-- Setting one previously untight in-range edge tight increments the tight
count. -/
theorem tightCount_update (n : ℕ) (isTight : ℕ → ℕ → Bool) (i j : ℕ)
    (hi : i < n) (hj : j < n) (h : isTight i j = false) :
    tightCount n (fun a b => if a = i ∧ b = j then true else isTight a b) =
      tightCount n isTight + 1 := by
  classical
  have hset : ((Finset.range n ×ˢ Finset.range n).filter
        fun ij => (if ij.1 = i ∧ ij.2 = j then true else isTight ij.1 ij.2) = true) =
      insert (i, j) ((Finset.range n ×ˢ Finset.range n).filter
        fun ij => isTight ij.1 ij.2 = true) := by
    ext ⟨a, b⟩
    simp only [Finset.mem_filter, Finset.mem_insert, Finset.mem_product,
      Finset.mem_range, Prod.mk.injEq]
    constructor
    · rintro ⟨⟨ha, hb⟩, hcond⟩
      by_cases hab : a = i ∧ b = j
      · exact Or.inl hab
      · rw [if_neg hab] at hcond
        exact Or.inr ⟨⟨ha, hb⟩, hcond⟩
    · rintro (⟨rfl, rfl⟩ | ⟨⟨ha, hb⟩, hcond⟩)
      · exact ⟨⟨hi, hj⟩, by simp⟩
      · refine ⟨⟨ha, hb⟩, ?_⟩
        by_cases hab : a = i ∧ b = j
        · obtain ⟨rfl, rfl⟩ := hab
          simp
        · rw [if_neg hab]
          exact hcond
  have hnotmem : (i, j) ∉ ((Finset.range n ×ˢ Finset.range n).filter
      fun ij => isTight ij.1 ij.2 = true) := by
    simp [Finset.mem_filter, h]
  rw [tightCount, hset, Finset.card_insert_of_not_mem hnotmem, tightCount]

/-- `countP` after a point update. -/
theorem countP_set (l : List (Element α)) (i : ℕ) (a : Element α)
    (p : Element α → Bool) (h : i < l.length) :
    (l.set i a).countP p + (if p l[i] then 1 else 0) =
      l.countP p + (if p a then 1 else 0) := by
  induction l generalizing i with
  | nil => simp at h
  | cons b t ih =>
    cases i with
    | zero =>
      simp only [List.set_cons_zero, List.countP_cons, List.getElem_cons_zero]
      by_cases hb : p b <;> by_cases ha : p a <;> simp [hb, ha] <;> omega
    | succ i =>
      have h' : i < t.length := by simpa using h
      simp only [List.set_cons_succ, List.countP_cons, List.getElem_cons_succ]
      have := ih i h'
      by_cases hb : p b <;> simp [hb] <;> omega

/-- Extension relation along the BFS: lengths and matchings are preserved,
visited flags only grow. -/
structure BfsExt (data data' : List (Element α)) : Prop where
  len : data'.length = data.length
  lm : ∀ x, leftM data' x = leftM data x
  rm : ∀ x, rightM data' x = rightM data x
  lv : ∀ x, lVis data x → lVis data' x
  rv : ∀ x, rVis data x → rVis data' x

theorem BfsExt.rfl (data : List (Element α)) : BfsExt data data :=
  ⟨Eq.refl _, fun _ => Eq.refl _, fun _ => Eq.refl _, fun _ h => h, fun _ h => h⟩

theorem BfsExt.trans {d1 d2 d3 : List (Element α)} (h1 : BfsExt d1 d2)
    (h2 : BfsExt d2 d3) : BfsExt d1 d3 :=
  ⟨h2.len.trans h1.len, fun x => (h2.lm x).trans (h1.lm x),
    fun x => (h2.rm x).trans (h1.rm x), fun x h => h2.lv x (h1.lv x h),
    fun x h => h2.rv x (h1.rv x h)⟩

theorem MatchInv_of_ext {n : ℕ} {costs : ℕ → ℕ → Option α}
    {data data' : List (Element α)} (hinv : MatchInv n costs data)
    (hext : BfsExt data data') : MatchInv n costs data' where
  len := hext.len.trans hinv.len
  lm i j h := by
    rw [hext.lm] at h
    obtain ⟨h1, h2, h3, h4⟩ := hinv.lm i j h
    exact ⟨h1, h2, h3, by rw [hext.rm]; exact h4⟩
  rm j i h := by
    rw [hext.rm] at h
    obtain ⟨h1, h2, h3⟩ := hinv.rm j i h
    exact ⟨h1, h2, by rw [hext.lm]; exact h3⟩

/-- BFS state invariant; `exc` names the single freshly visited right node
whose matching status is not yet analysed. -/
structure BfsInvX (n : ℕ) (costs : ℕ → ℕ → Option α) (start : ℕ)
    (exc : Option ℕ) (data : List (Element α)) : Prop where
  minv : MatchInv n costs data
  start_lt : start < n
  start_vis : lVis data start
  start_cf : lCF data start = none
  start_un : leftM data start = none
  cf_r : ∀ x y, rCF data x = some y → rVis data x
  cf_l : ∀ x y, lCF data x = some y → lVis data x
  rvis : ∀ r, rVis data r → r < n ∧ (∃ d, RPath n costs data start d r) ∧
    (some r = exc ∨ ∃ i, rightM data r = some i ∧ lVis data i)
  lvis : ∀ l, lVis data l → l < n ∧ (l = start ∨
    ∃ r, lCF data l = some r ∧ rVis data r ∧ rightM data r = some l)

/-- Facts about a `visitRight` update. -/
theorem visitRight_getE_ne {data : List (Element α)} {l0 r x : ℕ} (h : x ≠ r) :
    getE (visitRight data l0 r) x = getE data x :=
  getE_updData_ne data r x _ h

theorem visitRight_getE_eq {data : List (Element α)} {l0 r : ℕ}
    (h : r < data.length) :
    getE (visitRight data l0 r) r =
      { getE data r with right := { (getE data r).right with
          bfsComesFrom := some l0, visited := true } } :=
  getE_updData_eq data r _ h

@[simp] theorem visitRight_length (data : List (Element α)) (l0 r : ℕ) :
    (visitRight data l0 r).length = data.length := by
  simp [visitRight]

theorem visitLeft_getE_ne {data : List (Element α)} {r l x : ℕ} (h : x ≠ l) :
    getE (visitLeft data r l) x = getE data x :=
  getE_updData_ne data l x _ h

theorem visitLeft_getE_eq {data : List (Element α)} {r l : ℕ}
    (h : l < data.length) :
    getE (visitLeft data r l) l =
      { getE data l with left := { (getE data l).left with
          bfsComesFrom := some r, visited := true } } :=
  getE_updData_eq data l _ h

@[simp] theorem visitLeft_length (data : List (Element α)) (r l : ℕ) :
    (visitLeft data r l).length = data.length := by
  simp [visitLeft]

theorem visitRight_ext {data : List (Element α)} {l0 r : ℕ} :
    BfsExt data (visitRight data l0 r) := by
  by_cases h : r < data.length
  · refine ⟨by simp, ?_, ?_, ?_, ?_⟩
    · intro x
      rcases eq_or_ne x r with rfl | hne
      · rw [leftM, leftM, visitRight_getE_eq h]
      · rw [leftM, leftM, visitRight_getE_ne hne]
    · intro x
      rcases eq_or_ne x r with rfl | hne
      · rw [rightM, rightM, visitRight_getE_eq h]
      · rw [rightM, rightM, visitRight_getE_ne hne]
    · intro x hx
      rcases eq_or_ne x r with rfl | hne
      · rw [lVis, visitRight_getE_eq h]
        exact hx
      · rw [lVis, visitRight_getE_ne hne]
        exact hx
    · intro x hx
      rcases eq_or_ne x r with rfl | hne
      · rw [rVis, visitRight_getE_eq h]
      · rw [rVis, visitRight_getE_ne hne]
        exact hx
  · have : visitRight data l0 r = data := by
      rw [visitRight, updData, List.set_eq_of_length_le (by omega)]
    rw [this]
    exact BfsExt.rfl data

theorem visitLeft_ext {data : List (Element α)} {r l : ℕ} :
    BfsExt data (visitLeft data r l) := by
  by_cases h : l < data.length
  · refine ⟨by simp, ?_, ?_, ?_, ?_⟩
    · intro x
      rcases eq_or_ne x l with rfl | hne
      · rw [leftM, leftM, visitLeft_getE_eq h]
      · rw [leftM, leftM, visitLeft_getE_ne hne]
    · intro x
      rcases eq_or_ne x l with rfl | hne
      · rw [rightM, rightM, visitLeft_getE_eq h]
      · rw [rightM, rightM, visitLeft_getE_ne hne]
    · intro x hx
      rcases eq_or_ne x l with rfl | hne
      · rw [lVis, visitLeft_getE_eq h]
      · rw [lVis, visitLeft_getE_ne hne]
        exact hx
    · intro x hx
      rcases eq_or_ne x l with rfl | hne
      · rw [rVis, visitLeft_getE_eq h]
        exact hx
      · rw [rVis, visitLeft_getE_ne hne]
        exact hx
  · have : visitLeft data r l = data := by
      rw [visitLeft, updData, List.set_eq_of_length_le (by omega)]
    rw [this]
    exact BfsExt.rfl data

theorem visitRight_left (data : List (Element α)) (l0 r x : ℕ) :
    (getE (visitRight data l0 r) x).left = (getE data x).left := by
  rcases eq_or_ne x r with rfl | hne
  · by_cases h : x < data.length
    · rw [visitRight_getE_eq h]
    · have hid : visitRight data l0 x = data := by
        rw [visitRight, updData, List.set_eq_of_length_le (by omega)]
      rw [hid]
  · rw [visitRight_getE_ne hne]

theorem visitLeft_right (data : List (Element α)) (r l x : ℕ) :
    (getE (visitLeft data r l) x).right = (getE data x).right := by
  rcases eq_or_ne x l with rfl | hne
  · by_cases h : x < data.length
    · rw [visitLeft_getE_eq h]
    · have hid : visitLeft data r x = data := by
        rw [visitLeft, updData, List.set_eq_of_length_le (by omega)]
      rw [hid]
  · rw [visitLeft_getE_ne hne]

/-- Visiting an unvisited right node from a visited left node preserves the
BFS invariant, with the fresh node's matching analysis pending. -/
theorem bfs_updRight {n : ℕ} {costs : ℕ → ℕ → Option α} {start : ℕ}
    {data : List (Element α)} (hinv : BfsInvX n costs start none data)
    (l0 r : ℕ) (hl0 : lVis data l0) (hl0n : l0 < n) (hrn : r < n)
    (hnv : ¬rVis data r) (hfin : (costs l0 r).isSome = true) :
    BfsInvX n costs start (some r) (visitRight data l0 r) := by
  have hlen : r < data.length := by
    rw [hinv.minv.len]
    exact hrn
  have hext : BfsExt data (visitRight data l0 r) := visitRight_ext
  have hrcf_eq : rCF (visitRight data l0 r) r = some l0 := by
    rw [rCF, visitRight_getE_eq hlen]
  have hrcf_ne : ∀ x, x ≠ r → rCF (visitRight data l0 r) x = rCF data x := by
    intro x hx
    rw [rCF, rCF, visitRight_getE_ne hx]
  have hlcf_all : ∀ x, lCF (visitRight data l0 r) x = lCF data x := by
    intro x
    rw [lCF, lCF, visitRight_left]
  have hlvis_all : ∀ x, lVis (visitRight data l0 r) x ↔ lVis data x := by
    intro x
    rw [lVis, lVis, visitRight_left]
  have hrvis_new : rVis (visitRight data l0 r) r := by
    rw [rVis, visitRight_getE_eq hlen]
  have hrvis_ne : ∀ x, x ≠ r →
      (rVis (visitRight data l0 r) x ↔ rVis data x) := by
    intro x hx
    rw [rVis, rVis, visitRight_getE_ne hx]
  have htrans : ∀ {d x}, RPath n costs data start d x →
      RPath n costs (visitRight data l0 r) start d x := by
    intro d x h
    refine RPath_congr ?_ ?_ ?_ hinv.cf_r hinv.cf_l hinv.start_vis h
    · intro y hy
      exact hrcf_ne y (fun he => hnv (he ▸ hy))
    · intro y hy
      exact (hext.rm y)
    · intro y hy
      exact hlcf_all y
  have hpath_r : ∃ d, RPath n costs (visitRight data l0 r) start d r := by
    rcases (hinv.lvis l0 hl0).2 with rfl | ⟨r'', hcf'', hv'', hm''⟩
    · exact ⟨0, RPath.base r l0 hrn hl0n hrcf_eq hfin
        (by rw [hlcf_all]; exact hinv.start_cf) rfl⟩
    · obtain ⟨d, hp⟩ := (hinv.rvis r'' hv'').2.1
      exact ⟨d + 1, RPath.step r l0 r'' d hrn hl0n hrcf_eq hfin
        (by rw [hlcf_all]; exact hcf'') (by rw [hext.rm]; exact hm'') (htrans hp)⟩
  refine ⟨MatchInv_of_ext hinv.minv hext, hinv.start_lt, ?_, ?_, ?_, ?_, ?_, ?_, ?_⟩
  · exact (hlvis_all start).mpr hinv.start_vis
  · rw [hlcf_all]
    exact hinv.start_cf
  · rw [hext.lm]
    exact hinv.start_un
  · intro x y hxy
    rcases eq_or_ne x r with rfl | hx
    · exact hrvis_new
    · rw [hrcf_ne x hx] at hxy
      exact (hrvis_ne x hx).mpr (hinv.cf_r x y hxy)
  · intro x y hxy
    rw [hlcf_all] at hxy
    exact (hlvis_all x).mpr (hinv.cf_l x y hxy)
  · intro x hx
    rcases eq_or_ne x r with rfl | hxr
    · exact ⟨hrn, hpath_r, Or.inl rfl⟩
    · have hx' : rVis data x := (hrvis_ne x hxr).mp hx
      obtain ⟨h1, ⟨d, h2⟩, h3⟩ := hinv.rvis x hx'
      refine ⟨h1, ⟨d, htrans h2⟩, ?_⟩
      rcases h3 with h3 | ⟨i, hi1, hi2⟩
      · cases h3
      · exact Or.inr ⟨i, by rw [rightM, visitRight_getE_ne hxr]; exact hi1,
          (hlvis_all i).mpr hi2⟩
  · intro x hx
    have hx' : lVis data x := (hlvis_all x).mp hx
    obtain ⟨h1, h2⟩ := hinv.lvis x hx'
    refine ⟨h1, ?_⟩
    rcases h2 with rfl | ⟨r'', hcf'', hv'', hm''⟩
    · exact Or.inl rfl
    · exact Or.inr ⟨r'', by rw [hlcf_all]; exact hcf'',
        hext.rv r'' hv'', by rw [hext.rm]; exact hm''⟩

/-- Visiting the (previously unvisited) matched left partner of the freshly
visited right node restores the full BFS invariant. -/
theorem bfs_updLeft {n : ℕ} {costs : ℕ → ℕ → Option α} {start : ℕ}
    {data : List (Element α)} {r : ℕ}
    (hinv : BfsInvX n costs start (some r) data)
    (nl : ℕ) (hm : rightM data r = some nl) (hrv : rVis data r)
    (hnl : ¬lVis data nl) :
    BfsInvX n costs start none (visitLeft data r nl) := by
  have hnln : nl < n := (hinv.minv.rm r nl hm).1
  have hlen : nl < data.length := by
    rw [hinv.minv.len]
    exact hnln
  have hext : BfsExt data (visitLeft data r nl) := visitLeft_ext
  have hlcf_eq : lCF (visitLeft data r nl) nl = some r := by
    rw [lCF, visitLeft_getE_eq hlen]
  have hlcf_ne : ∀ x, x ≠ nl → lCF (visitLeft data r nl) x = lCF data x := by
    intro x hx
    rw [lCF, lCF, visitLeft_getE_ne hx]
  have hrcf_all : ∀ x, rCF (visitLeft data r nl) x = rCF data x := by
    intro x
    rw [rCF, rCF, visitLeft_right]
  have hrvis_all : ∀ x, rVis (visitLeft data r nl) x ↔ rVis data x := by
    intro x
    rw [rVis, rVis, visitLeft_right]
  have hlvis_new : lVis (visitLeft data r nl) nl := by
    rw [lVis, visitLeft_getE_eq hlen]
  have hlvis_ne : ∀ x, x ≠ nl →
      (lVis (visitLeft data r nl) x ↔ lVis data x) := by
    intro x hx
    rw [lVis, lVis, visitLeft_getE_ne hx]
  have hstart_ne : start ≠ nl := by
    intro he
    exact hnl (he ▸ hinv.start_vis)
  have htrans : ∀ {d x}, RPath n costs data start d x →
      RPath n costs (visitLeft data r nl) start d x := by
    intro d x h
    refine RPath_congr ?_ ?_ ?_ hinv.cf_r hinv.cf_l hinv.start_vis h
    · intro y hy
      exact hrcf_all y
    · intro y hy
      exact hext.rm y
    · intro y hy
      exact hlcf_ne y (fun he => hnl (he ▸ hy))
  refine ⟨MatchInv_of_ext hinv.minv hext, hinv.start_lt, ?_, ?_, ?_, ?_, ?_, ?_, ?_⟩
  · exact (hlvis_ne start hstart_ne).mpr hinv.start_vis
  · rw [hlcf_ne start hstart_ne]
    exact hinv.start_cf
  · rw [hext.lm]
    exact hinv.start_un
  · intro x y hxy
    rw [hrcf_all] at hxy
    exact (hrvis_all x).mpr (hinv.cf_r x y hxy)
  · intro x y hxy
    rcases eq_or_ne x nl with rfl | hx
    · exact hlvis_new
    · rw [hlcf_ne x hx] at hxy
      exact (hlvis_ne x hx).mpr (hinv.cf_l x y hxy)
  · intro x hx
    have hx' : rVis data x := (hrvis_all x).mp hx
    obtain ⟨h1, ⟨d, h2⟩, h3⟩ := hinv.rvis x hx'
    refine ⟨h1, ⟨d, htrans h2⟩, Or.inr ?_⟩
    rcases h3 with h3 | ⟨i, hi1, hi2⟩
    · cases h3
      exact ⟨nl, by rw [hext.rm]; exact hm, hlvis_new⟩
    · refine ⟨i, by rw [hext.rm]; exact hi1, ?_⟩
      rcases eq_or_ne i nl with rfl | hi
      · exact hlvis_new
      · exact (hlvis_ne i hi).mpr hi2
  · intro x hx
    rcases eq_or_ne x nl with rfl | hxnl
    · exact ⟨hnln, Or.inr ⟨r, hlcf_eq, (hrvis_all r).mpr hrv,
        by rw [hext.rm]; exact hm⟩⟩
    · have hx' : lVis data x := (hlvis_ne x hxnl).mp hx
      obtain ⟨h1, h2⟩ := hinv.lvis x hx'
      refine ⟨h1, ?_⟩
      rcases h2 with rfl | ⟨r'', hcf'', hv'', hm''⟩
      · exact Or.inl rfl
      · exact Or.inr ⟨r'', by rw [hlcf_ne x hxnl]; exact hcf'',
          (hrvis_all r'').mpr hv'', by rw [hext.rm]; exact hm''⟩

/-- If the freshly visited right node's matched partner is already visited,
the invariant holds without further updates. -/
theorem bfs_complete {n : ℕ} {costs : ℕ → ℕ → Option α} {start : ℕ}
    {data : List (Element α)} {r : ℕ}
    (hinv : BfsInvX n costs start (some r) data)
    (nl : ℕ) (hm : rightM data r = some nl) (hnl : lVis data nl) :
    BfsInvX n costs start none data := by
  refine ⟨hinv.minv, hinv.start_lt, hinv.start_vis, hinv.start_cf, hinv.start_un,
    hinv.cf_r, hinv.cf_l, ?_, hinv.lvis⟩
  intro x hx
  obtain ⟨h1, h2, h3⟩ := hinv.rvis x hx
  refine ⟨h1, h2, ?_⟩
  rcases h3 with h3 | h3
  · cases h3
    exact Or.inr ⟨nl, hm, hnl⟩
  · exact Or.inr h3

section CountPos

variable {β : Type _} [Inhabited β]

theorem countP_le_pos (l l' : List β) (p : β → Bool) (hlen : l'.length = l.length)
    (h : ∀ k, k < l.length → p (getE l' k) = true → p (getE l k) = true) :
    l'.countP p ≤ l.countP p := by
  induction l generalizing l' with
  | nil =>
    have : l' = [] := List.length_eq_zero.mp (by simpa using hlen)
    subst this
    simp
  | cons b t ih =>
    cases l' with
    | nil => simp at hlen
    | cons b' t' =>
      have hlen' : t'.length = t.length := by simpa using hlen
      have hh : ∀ k, k < t.length → p (getE t' k) = true → p (getE t k) = true := by
        intro k hk hp
        have := h (k + 1) (by simpa using hk)
        rw [getE_cons_succ, getE_cons_succ] at this
        exact this hp
      have hhead := h 0 (by simp)
      rw [getE_cons_zero, getE_cons_zero] at hhead
      rw [List.countP_cons, List.countP_cons]
      by_cases hb' : p b' = true
      · rw [hhead hb', hb']
        have := ih t' hlen' hh
        omega
      · have hb'0 : (if p b' = true then 1 else 0) = 0 := by simp [hb']
        rw [hb'0]
        have := ih t' hlen' hh
        by_cases hb : p b = true <;> simp [hb] <;> omega

theorem countP_lt_pos (l l' : List β) (p : β → Bool) (hlen : l'.length = l.length)
    (h : ∀ k, k < l.length → p (getE l' k) = true → p (getE l k) = true)
    (k0 : ℕ) (hk0 : k0 < l.length) (h1 : p (getE l k0) = true)
    (h2 : p (getE l' k0) = false) :
    l'.countP p < l.countP p := by
  induction l generalizing l' k0 with
  | nil => simp at hk0
  | cons b t ih =>
    cases l' with
    | nil => simp at hlen
    | cons b' t' =>
      have hlen' : t'.length = t.length := by simpa using hlen
      have hh : ∀ k, k < t.length → p (getE t' k) = true → p (getE t k) = true := by
        intro k hk hp
        have := h (k + 1) (by simpa using hk)
        rw [getE_cons_succ, getE_cons_succ] at this
        exact this hp
      rw [List.countP_cons, List.countP_cons]
      cases k0 with
      | zero =>
        rw [getE_cons_zero] at h1 h2
        rw [h1, h2]
        have := countP_le_pos t t' p hlen' hh
        simp
        omega
      | succ k0 =>
        have hk0' : k0 < t.length := by simpa using hk0
        rw [getE_cons_succ] at h1 h2
        have := ih t' hlen' hh k0 hk0' h1 h2
        have hhead := h 0 (by simp)
        rw [getE_cons_zero, getE_cons_zero] at hhead
        by_cases hb' : p b' = true
        · rw [hhead hb', hb']
          omega
        · have hb'0 : (if p b' = true then 1 else 0) = 0 := by simp [hb']
          rw [hb'0]
          by_cases hb : p b = true <;> simp [hb] <;> omega

theorem countP_eq_pos (l l' : List β) (p : β → Bool) (hlen : l'.length = l.length)
    (h : ∀ k, k < l.length → p (getE l' k) = p (getE l k)) :
    l'.countP p = l.countP p := by
  refine le_antisymm (countP_le_pos l l' p hlen ?_) (countP_le_pos l' l p (by omega) ?_)
  · intro k hk hp
    rw [← h k hk]
    exact hp
  · intro k hk hp
    rw [h k (by omega)]
    exact hp

end CountPos

/-- The number of unvisited left nodes, the BFS fuel measure. -/
def unvisitedLeftCount (data : List (Element α)) : ℕ :=
  data.countP fun e => !e.left.visited

theorem unmatchedLeftCount_of_ext {data data' : List (Element α)}
    (hext : BfsExt data data') :
    unmatchedLeftCount data' = unmatchedLeftCount data := by
  refine countP_eq_pos data data' _ hext.len ?_
  intro k hk
  have := hext.lm k
  rw [leftM, leftM] at this
  rw [this]

theorem unvisitedLeftCount_le_of_ext {data data' : List (Element α)}
    (hext : BfsExt data data') :
    unvisitedLeftCount data' ≤ unvisitedLeftCount data := by
  refine countP_le_pos data data' _ hext.len ?_
  intro k hk hp
  simp only [Bool.not_eq_true'] at hp ⊢
  by_contra hv
  have : lVis data k := by
    rw [lVis]
    revert hv
    cases h : (getE data k).left.visited <;> simp
  have := hext.lv k this
  rw [lVis] at this
  rw [this] at hp
  cases hp

theorem unvisitedLeftCount_lt_of_ext {data data' : List (Element α)}
    (hext : BfsExt data data') (x : ℕ) (hx : x < data.length)
    (h1 : ¬lVis data x) (h2 : lVis data' x) :
    unvisitedLeftCount data' < unvisitedLeftCount data := by
  refine countP_lt_pos data data' _ hext.len ?_ x hx ?_ ?_
  · intro k hk hp
    simp only [Bool.not_eq_true'] at hp ⊢
    by_contra hv
    have hvk : lVis data k := by
      rw [lVis]
      revert hv
      cases h : (getE data k).left.visited <;> simp
    have := hext.lv k hvk
    rw [lVis] at this
    rw [this] at hp
    cases hp
  · rw [lVis] at h1
    simp only [Bool.not_eq_true'] at h1 ⊢
    revert h1
    cases h : (getE data x).left.visited <;> simp
  · rw [lVis] at h2
    simp [h2]

/-- Complete specification of the inner right-scan of the BFS.  On a
completed scan (`Sum.inl`) the invariant is maintained, `next` grows only
by newly visited left nodes, and every tight finite edge from `l0` at an
index not below `r` now leads to a visited right node.  On an early return
(`Sum.inr`) the returned endpoint is an unmatched right node carrying a
valid alternating chain. -/
theorem scanRights_spec {n : ℕ} {costs : ℕ → ℕ → Option α} {start : ℕ}
    (isTight : ℕ → ℕ → Bool) (l0 r : ℕ) (data : List (Element α)) (next : List ℕ)
    (hinv : BfsInvX n costs start none data) (hl0 : lVis data l0) (hl0n : l0 < n)
    (hnext : ∀ x ∈ next, lVis data x ∧ x < n) :
    (∀ data' next', scanRights costs isTight n l0 r data next = Sum.inl (data', next') →
      BfsInvX n costs start none data' ∧ BfsExt data data' ∧
      (∀ x ∈ next, x ∈ next') ∧
      (∀ x ∈ next', lVis data' x ∧ x < n) ∧
      (∀ x ∈ next', x ∈ next ∨ ¬lVis data x) ∧
      (∀ x, lVis data' x → lVis data x ∨ x ∈ next') ∧
      (∀ j, r ≤ j → j < n → (costs l0 j).isSome = true → isTight l0 j = true →
        rVis data' j)) ∧
    (∀ data' ep, scanRights costs isTight n l0 r data next = Sum.inr (data', ep) →
      BfsExt data data' ∧ ep < n ∧ rightM data' ep = none ∧
      ∃ d, RPath n costs data' start d ep) := by
  rw [scanRights_eq]
  split
  · rename_i hrn
    split
    · rename_i hcond
      simp only [Bool.and_eq_true, Bool.not_eq_true'] at hcond
      obtain ⟨⟨hfin, hnvb⟩, htight⟩ := hcond
      have hnv : ¬rVis data r := by
        rw [rVis, hnvb]
        simp
      have hrlen : r < data.length := by
        rw [hinv.minv.len]
        exact hrn
      have hinv1 : BfsInvX n costs start (some r) (visitRight data l0 r) :=
        bfs_updRight hinv l0 r hl0 hl0n hrn hnv hfin
      have hext1 : BfsExt data (visitRight data l0 r) := visitRight_ext
      have hrv1 : rVis (visitRight data l0 r) r := by
        rw [rVis, visitRight_getE_eq hrlen]
      split
      · -- matched right: maybe enqueue the partner
        rename_i nl hm
        have hm' : rightM (visitRight data l0 r) r = some nl := hm
        split
        · -- partner already visited
          rename_i hnlvis
          have hnlv : lVis (visitRight data l0 r) nl := hnlvis
          have hinv1' : BfsInvX n costs start none (visitRight data l0 r) :=
            bfs_complete hinv1 nl hm' hnlv
          have ih := scanRights_spec isTight l0 (r + 1) (visitRight data l0 r) next
            hinv1' (hext1.lv l0 hl0) hl0n
            (fun x hx => ⟨hext1.lv x (hnext x hx).1, (hnext x hx).2⟩)
          constructor
          · intro data' next' heq
            obtain ⟨hi1, hi2, hi3, hi4, hi5, hi6, hi7⟩ := (ih.1 data' next' heq)
            refine ⟨hi1, hext1.trans hi2, hi3, hi4, ?_, ?_, ?_⟩
            · intro x hx
              rcases hi5 x hx with hx' | hx'
              · exact Or.inl hx'
              · refine Or.inr (fun hv => hx' ?_)
                exact hext1.lv x hv
            · intro x hx
              rcases hi6 x hx with hx' | hx'
              · left
                rw [lVis, visitRight_left] at hx'
                exact hx'
              · exact Or.inr hx'
            · intro j hj hjn hjf hjt
              rcases Nat.eq_or_lt_of_le hj with rfl | hj'
              · exact hi2.rv r hrv1
              · exact hi7 j (by omega) hjn hjf hjt
          · intro data' ep heq
            obtain ⟨hi1, hi2, hi3, hi4⟩ := (ih.2 data' ep heq)
            exact ⟨hext1.trans hi1, hi2, hi3, hi4⟩
        · -- partner not visited: mark it and enqueue
          rename_i hnlvis
          have hnlv : ¬lVis (visitRight data l0 r) nl := by
            rw [lVis]
            simpa using hnlvis
          have hinv2 : BfsInvX n costs start none
              (visitLeft (visitRight data l0 r) r nl) :=
            bfs_updLeft hinv1 nl hm' hrv1 hnlv
          have hnln : nl < n := (hinv1.minv.rm r nl hm').1
          have hnextlen : nl < (visitRight data l0 r).length := by
            rw [visitRight_length, hinv.minv.len]
            exact hnln
          have hext2 : BfsExt (visitRight data l0 r)
              (visitLeft (visitRight data l0 r) r nl) := visitLeft_ext
          have hextc : BfsExt data (visitLeft (visitRight data l0 r) r nl) :=
            hext1.trans hext2
          have hnlvis2 : lVis (visitLeft (visitRight data l0 r) r nl) nl := by
            rw [lVis, visitLeft_getE_eq hnextlen]
          have ih := scanRights_spec isTight l0 (r + 1)
            (visitLeft (visitRight data l0 r) r nl) (next ++ [nl])
            hinv2 (hextc.lv l0 hl0) hl0n ?_
          · constructor
            · intro data' next' heq
              obtain ⟨hi1, hi2, hi3, hi4, hi5, hi6, hi7⟩ := (ih.1 data' next' heq)
              have hrv2 : rVis (visitLeft (visitRight data l0 r) r nl) r :=
                hext2.rv r hrv1
              refine ⟨hi1, hextc.trans hi2, ?_, hi4, ?_, ?_, ?_⟩
              · intro x hx
                exact hi3 x (by simp [hx])
              · intro x hx
                rcases hi5 x hx with hx' | hx'
                · rcases List.mem_append.mp hx' with hx'' | hx''
                  · exact Or.inl hx''
                  · simp at hx''
                    subst hx''
                    refine Or.inr (fun hv => hnlv ?_)
                    exact hext1.lv x hv
                · refine Or.inr (fun hv => hx' ?_)
                  exact hextc.lv x hv
              · intro x hx
                rcases hi6 x hx with hx' | hx'
                · rcases eq_or_ne x nl with rfl | hxnl
                  · exact Or.inr (hi3 x (by simp))
                  · left
                    rw [lVis, visitLeft_getE_ne hxnl, visitRight_left] at hx'
                    exact hx'
                · exact Or.inr hx'
              · intro j hj hjn hjf hjt
                rcases Nat.eq_or_lt_of_le hj with rfl | hj'
                · exact hi2.rv r hrv2
                · exact hi7 j (by omega) hjn hjf hjt
            · intro data' ep heq
              obtain ⟨hi1, hi2, hi3, hi4⟩ := (ih.2 data' ep heq)
              exact ⟨hextc.trans hi1, hi2, hi3, hi4⟩
          · intro x hx
            rcases List.mem_append.mp hx with hx' | hx'
            · exact ⟨hextc.lv x (hnext x hx').1, (hnext x hx').2⟩
            · simp at hx'
              subst hx'
              exact ⟨hnlvis2, hnln⟩
      · -- unmatched right: early return
        rename_i hm
        constructor
        · intro data' next' heq
          cases heq
        · intro data' ep heq
          simp only [Sum.inr.injEq, Prod.mk.injEq] at heq
          obtain ⟨h1, h2⟩ := heq
          subst h1
          subst h2
          exact ⟨hext1, hrn, hm, (hinv1.rvis _ hrv1).2.1⟩
    · -- edge not searchable from l0: skip it
      rename_i hcond
      have ih := scanRights_spec isTight l0 (r + 1) data next hinv hl0 hl0n hnext
      constructor
      · intro data' next' heq
        obtain ⟨hi1, hi2, hi3, hi4, hi5, hi6, hi7⟩ := (ih.1 data' next' heq)
        refine ⟨hi1, hi2, hi3, hi4, hi5, hi6, ?_⟩
        intro j hj hjn hjf hjt
        rcases Nat.eq_or_lt_of_le hj with rfl | hj'
        · have hv : rVis data r := by
            by_contra hv
            apply hcond
            simp only [Bool.and_eq_true, Bool.not_eq_true']
            refine ⟨⟨hjf, ?_⟩, hjt⟩
            rw [rVis] at hv
            cases h : (getE data r).right.visited
            · rfl
            · exact absurd h hv
          exact hi2.rv r hv
        · exact hi7 j (by omega) hjn hjf hjt
      · intro data' ep heq
        exact ih.2 data' ep heq
  · -- r ≥ n: scan complete
    rename_i hrn
    constructor
    · intro data' next' heq
      simp only [Sum.inl.injEq, Prod.mk.injEq] at heq
      obtain ⟨h1, h2⟩ := heq
      subst h1
      subst h2
      refine ⟨hinv, BfsExt.rfl data, fun x hx => hx, hnext, fun x hx => Or.inl hx,
        fun x hx => Or.inl hx, ?_⟩
      intro j hj hjn hjf hjt
      omega
    · intro data' ep heq
      cases heq
termination_by n - r

/-- All tight finite edges out of left node `x` lead to visited rights. -/
def TightDone (costs : ℕ → ℕ → Option α) (isTight : ℕ → ℕ → Bool) (n x : ℕ)
    (data : List (Element α)) : Prop :=
  ∀ j, j < n → (costs x j).isSome = true → isTight x j = true → rVis data j

theorem scanLevel_spec {n : ℕ} {costs : ℕ → ℕ → Option α} {start : ℕ}
    (isTight : ℕ → ℕ → Bool) (lefts : List ℕ) (data : List (Element α))
    (next : List ℕ) (hinv : BfsInvX n costs start none data)
    (hlefts : ∀ x ∈ lefts, lVis data x ∧ x < n)
    (hnext : ∀ x ∈ next, lVis data x ∧ x < n) :
    (∀ data' next', scanLevel costs isTight n lefts data next = Sum.inl (data', next') →
      BfsInvX n costs start none data' ∧ BfsExt data data' ∧
      (∀ x ∈ next, x ∈ next') ∧
      (∀ x ∈ next', lVis data' x ∧ x < n) ∧
      (∀ x ∈ next', x ∈ next ∨ ¬lVis data x) ∧
      (∀ x, lVis data' x → lVis data x ∨ x ∈ next') ∧
      (∀ x ∈ lefts, TightDone costs isTight n x data')) ∧
    (∀ data' ep, scanLevel costs isTight n lefts data next = Sum.inr (data', ep) →
      BfsExt data data' ∧ ep < n ∧ rightM data' ep = none ∧
      ∃ d, RPath n costs data' start d ep) := by
  induction lefts generalizing data next with
  | nil =>
    constructor
    · intro data' next' heq
      rw [scanLevel] at heq
      simp only [Sum.inl.injEq, Prod.mk.injEq] at heq
      obtain ⟨h1, h2⟩ := heq
      subst h1
      subst h2
      exact ⟨hinv, BfsExt.rfl data, fun x hx => hx, hnext, fun x hx => Or.inl hx,
        fun x hx => Or.inl hx, fun x hx => absurd hx (List.not_mem_nil x)⟩
    · intro data' ep heq
      rw [scanLevel] at heq
      cases heq
  | cons l rest ih =>
    have hsr := scanRights_spec isTight l 0 data next hinv
      (hlefts l (by simp)).1 (hlefts l (by simp)).2 hnext
    constructor
    · intro data' next' heq
      rw [scanLevel] at heq
      split at heq
      · cases heq
      · rename_i data1 next1 hsr_eq
        obtain ⟨hs1, hs2, hs3, hs4, hs5, hs6, hs7⟩ := hsr.1 data1 next1 hsr_eq
        obtain ⟨hi1, hi2, hi3, hi4, hi5, hi6, hi7⟩ := (ih data1 next1 hs1
          (fun x hx => ⟨hs2.lv x (hlefts x (by simp [hx])).1,
            (hlefts x (by simp [hx])).2⟩) hs4).1 data' next' heq
        refine ⟨hi1, hs2.trans hi2, ?_, hi4, ?_, ?_, ?_⟩
        · intro x hx
          exact hi3 x (hs3 x hx)
        · intro x hx
          rcases hi5 x hx with hx' | hx'
          · rcases hs5 x hx' with hx'' | hx''
            · exact Or.inl hx''
            · exact Or.inr hx''
          · exact Or.inr (fun hv => hx' (hs2.lv x hv))
        · intro x hx
          rcases hi6 x hx with hx' | hx'
          · rcases hs6 x hx' with hx'' | hx''
            · exact Or.inl hx''
            · exact Or.inr (hi3 x hx'')
          · exact Or.inr hx'
        · intro x hx
          rcases List.mem_cons.mp hx with rfl | hx'
          · intro j hj hjf hjt
            exact hi2.rv j (hs7 j (by omega) hj hjf hjt)
          · exact hi7 x hx'
    · intro data' ep heq
      rw [scanLevel] at heq
      split at heq
      · rename_i res hsr_eq
        obtain ⟨data1, ep1⟩ := res
        simp only [Sum.inr.injEq, Prod.mk.injEq] at heq
        obtain ⟨h1, h2⟩ := heq
        subst h1
        subst h2
        exact hsr.2 data1 ep1 hsr_eq
      · rename_i data1 next1 hsr_eq
        obtain ⟨hs1, hs2, hs3, hs4, hs5, hs6, hs7⟩ := hsr.1 data1 next1 hsr_eq
        obtain ⟨hi1, hi2, hi3, hi4⟩ := (ih data1 next1 hs1
          (fun x hx => ⟨hs2.lv x (hlefts x (by simp [hx])).1,
            (hlefts x (by simp [hx])).2⟩) hs4).2 data' ep heq
        exact ⟨hs2.trans hi1, hi2, hi3, hi4⟩

theorem bfsLoop_spec {n : ℕ} {costs : ℕ → ℕ → Option α} {start : ℕ}
    (isTight : ℕ → ℕ → Bool) (fuel : ℕ) (level : List ℕ) (data : List (Element α))
    (hinv : BfsInvX n costs start none data)
    (hlev : ∀ x ∈ level, lVis data x ∧ x < n)
    (hproc : ∀ x, lVis data x → x ∈ level ∨ TightDone costs isTight n x data)
    (hfuel : level ≠ [] → unvisitedLeftCount data < fuel) :
    (∀ data', bfsLoop costs isTight n fuel level data = (data', none) →
      BfsInvX n costs start none data' ∧ BfsExt data data' ∧
      (∀ x, lVis data' x → TightDone costs isTight n x data')) ∧
    (∀ data' ep, bfsLoop costs isTight n fuel level data = (data', some ep) →
      BfsExt data data' ∧ ep < n ∧ rightM data' ep = none ∧
      ∃ d, RPath n costs data' start d ep) := by
  induction fuel generalizing level data with
  | zero =>
    cases level with
    | nil =>
      constructor
      · intro data' heq
        rw [bfsLoop] at heq
        obtain ⟨rfl, -⟩ := Prod.mk.injEq .. ▸ And.intro (congrArg Prod.fst heq)
          (congrArg Prod.snd heq)
        refine ⟨hinv, BfsExt.rfl _, ?_⟩
        intro x hx
        rcases hproc x hx with hx' | hx'
        · cases hx'
        · exact hx'
      · intro data' ep heq
        rw [bfsLoop] at heq
        have := congrArg Prod.snd heq
        simp at this
    | cons l rest =>
      exfalso
      have := hfuel (by simp)
      omega
  | succ fuel ihf =>
    cases level with
    | nil =>
      constructor
      · intro data' heq
        rw [bfsLoop] at heq
        obtain ⟨rfl, -⟩ := Prod.mk.injEq .. ▸ And.intro (congrArg Prod.fst heq)
          (congrArg Prod.snd heq)
        refine ⟨hinv, BfsExt.rfl _, ?_⟩
        intro x hx
        rcases hproc x hx with hx' | hx'
        · cases hx'
        · exact hx'
      · intro data' ep heq
        rw [bfsLoop] at heq
        have := congrArg Prod.snd heq
        simp at this
    | cons l rest =>
      have hsl := scanLevel_spec isTight (l :: rest) data []
        hinv hlev (fun x hx => absurd hx (List.not_mem_nil x))
      constructor
      · intro data' heq
        rw [bfsLoop] at heq
        split at heq
        · rename_i res data1 ep1 hsl_eq
          cases heq
        · rename_i res data1 next1 hsl_eq
          obtain ⟨hs1, hs2, hs3, hs4, hs5, hs6, hs7⟩ := hsl.1 data1 next1 hsl_eq
          have hproc1 : ∀ x, lVis data1 x → x ∈ next1 ∨
              TightDone costs isTight n x data1 := by
            intro x hx
            rcases hs6 x hx with hx' | hx'
            · rcases hproc x hx' with hx'' | hx''
              · exact Or.inr (hs7 x hx'')
              · refine Or.inr (fun j hj hjf hjt => hs2.rv j (hx'' j hj hjf hjt))
            · exact Or.inl hx'
          have hfuel1 : next1 ≠ [] → unvisitedLeftCount data1 < fuel := by
            intro hne
            obtain ⟨x, hx⟩ := List.exists_mem_of_ne_nil next1 hne
            have hnew : ¬lVis data x := by
              rcases hs5 x hx with hx' | hx'
              · cases hx'
              · exact hx'
            have hxlen : x < data.length := by
              rw [hinv.minv.len]
              exact (hs4 x hx).2
            have hlt := unvisitedLeftCount_lt_of_ext hs2 x hxlen hnew (hs4 x hx).1
            have := hfuel (by simp)
            omega
          obtain ⟨hi1, hi2, hi3⟩ := (ihf next1 data1 hs1 hs4 hproc1 hfuel1).1 data' heq
          exact ⟨hi1, hs2.trans hi2, hi3⟩
      · intro data' ep heq
        rw [bfsLoop] at heq
        split at heq
        · rename_i res data1 ep1 hsl_eq
          simp only [Prod.mk.injEq, Option.some.injEq] at heq
          obtain ⟨h1, h2⟩ := heq
          subst h1
          subst h2
          exact hsl.2 _ _ hsl_eq
        · rename_i res data1 next1 hsl_eq
          obtain ⟨hs1, hs2, hs3, hs4, hs5, hs6, hs7⟩ := hsl.1 data1 next1 hsl_eq
          have hproc1 : ∀ x, lVis data1 x → x ∈ next1 ∨
              TightDone costs isTight n x data1 := by
            intro x hx
            rcases hs6 x hx with hx' | hx'
            · rcases hproc x hx' with hx'' | hx''
              · exact Or.inr (hs7 x hx'')
              · refine Or.inr (fun j hj hjf hjt => hs2.rv j (hx'' j hj hjf hjt))
            · exact Or.inl hx'
          have hfuel1 : next1 ≠ [] → unvisitedLeftCount data1 < fuel := by
            intro hne
            obtain ⟨x, hx⟩ := List.exists_mem_of_ne_nil next1 hne
            have hnew : ¬lVis data x := by
              rcases hs5 x hx with hx' | hx'
              · cases hx'
              · exact hx'
            have hxlen : x < data.length := by
              rw [hinv.minv.len]
              exact (hs4 x hx).2
            have hlt := unvisitedLeftCount_lt_of_ext hs2 x hxlen hnew (hs4 x hx).1
            have := hfuel (by simp)
            omega
          obtain ⟨hi1, hi2, hi3, hi4⟩ := (ihf next1 data1 hs1 hs4 hproc1 hfuel1).2
            data' ep heq
          exact ⟨hs2.trans hi1, hi2, hi3, hi4⟩

@[simp] theorem resetBfs_length (data : List (Element α)) :
    (resetBfs data).length = data.length := by
  simp [resetBfs]

theorem resetBfs_getE (data : List (Element α)) (x : ℕ) (h : x < data.length) :
    getE (resetBfs data) x =
      { left := { (getE data x).left with bfsComesFrom := none, visited := false }
        right := { (getE data x).right with bfsComesFrom := none, visited := false } } := by
  rw [getE_eq_getElem _ _ (by simpa using h), getE_eq_getElem _ _ h]
  simp [resetBfs]

theorem resetBfs_getE_oob (data : List (Element α)) (x : ℕ) (h : data.length ≤ x) :
    getE (resetBfs data) x = default := by
  rw [getE_eq_default _ _ (by simpa using h)]

/-- The state after `find_augmenting_path`'s reset and marking of the start
node. -/
def bfsStart (data : List (Element α)) (start : ℕ) : List (Element α) :=
  updData (resetBfs data) start fun e =>
    { e with left := { e.left with visited := true } }

theorem find_augmenting_path_eq (costs : ℕ → ℕ → Option α) (n start : ℕ)
    (data : List (Element α)) (isTight : ℕ → ℕ → Bool) :
    find_augmenting_path costs n start data isTight =
      bfsLoop costs isTight n (n + 1) [start] (bfsStart data start) := rfl

theorem bfsStart_matches (data : List (Element α)) (start : ℕ) :
    (∀ x, leftM (bfsStart data start) x = leftM data x) ∧
    (∀ x, rightM (bfsStart data start) x = rightM data x) ∧
    (bfsStart data start).length = data.length := by
  have hm : ∀ x, getE (bfsStart data start) x = getE (resetBfs data) x ∨
      (x = start ∧ x < data.length ∧ getE (bfsStart data start) x =
        { getE (resetBfs data) x with left :=
            { (getE (resetBfs data) x).left with visited := true } }) := by
    intro x
    rcases eq_or_ne x start with rfl | hne
    · by_cases h : x < data.length
      · exact Or.inr ⟨rfl, h, getE_updData_eq _ _ _ (by simpa using h)⟩
      · left
        rw [bfsStart, updData, List.set_eq_of_length_le (by simp; omega)]
    · exact Or.inl (getE_updData_ne _ _ _ _ hne)
  refine ⟨?_, ?_, by simp [bfsStart]⟩
  · intro x
    rcases hm x with h | ⟨-, hlt, h⟩
    · rw [leftM, leftM, h]
      by_cases hx : x < data.length
      · rw [resetBfs_getE _ _ hx]
      · rw [resetBfs_getE_oob _ _ (by omega), getE_eq_default _ _ (by omega)]
    · rw [leftM, leftM, h]
      rw [resetBfs_getE _ _ hlt]
  · intro x
    rcases hm x with h | ⟨-, hlt, h⟩
    · rw [rightM, rightM, h]
      by_cases hx : x < data.length
      · rw [resetBfs_getE _ _ hx]
      · rw [resetBfs_getE_oob _ _ (by omega), getE_eq_default _ _ (by omega)]
    · rw [rightM, rightM, h]
      rw [resetBfs_getE _ _ hlt]

theorem bfsStart_inv {n : ℕ} {costs : ℕ → ℕ → Option α}
    {data : List (Element α)} (start : ℕ) (hminv : MatchInv n costs data)
    (hsn : start < n) (hsu : leftM data start = none) :
    BfsInvX n costs start none (bfsStart data start) ∧
      ∀ x, lVis (bfsStart data start) x → x = start := by
  obtain ⟨hlm, hrm, hlen⟩ := bfsStart_matches data start
  have hslen : start < data.length := by
    rw [hminv.len]
    exact hsn
  have hs_getE : getE (bfsStart data start) start =
      { getE (resetBfs data) start with left :=
          { (getE (resetBfs data) start).left with visited := true } } :=
    getE_updData_eq _ _ _ (by simpa using hslen)
  have hother : ∀ x, x ≠ start →
      getE (bfsStart data start) x = getE (resetBfs data) x := by
    intro x hx
    exact getE_updData_ne _ _ _ _ hx
  have hlv : ∀ x, lVis (bfsStart data start) x → x = start := by
    intro x hx
    by_contra hne
    rw [lVis, hother x hne] at hx
    by_cases hxl : x < data.length
    · rw [resetBfs_getE _ _ hxl] at hx
      cases hx
    · rw [resetBfs_getE_oob _ _ (by omega)] at hx
      cases hx
  have hrv : ∀ x, ¬rVis (bfsStart data start) x := by
    intro x hx
    rcases eq_or_ne x start with rfl | hne
    · rw [rVis, hs_getE, resetBfs_getE _ _ hslen] at hx
      cases hx
    · rw [rVis, hother x hne] at hx
      by_cases hxl : x < data.length
      · rw [resetBfs_getE _ _ hxl] at hx
        cases hx
      · rw [resetBfs_getE_oob _ _ (by omega)] at hx
        cases hx
  have hlcf : ∀ x, lCF (bfsStart data start) x = none := by
    intro x
    rcases eq_or_ne x start with rfl | hne
    · rw [lCF, hs_getE, resetBfs_getE _ _ hslen]
    · rw [lCF, hother x hne]
      by_cases hxl : x < data.length
      · rw [resetBfs_getE _ _ hxl]
      · rw [resetBfs_getE_oob _ _ (by omega)]
        rfl
  have hminv' : MatchInv n costs (bfsStart data start) := by
    refine ⟨hlen.trans hminv.len, ?_, ?_⟩
    · intro i j h
      rw [hlm] at h
      obtain ⟨h1, h2, h3, h4⟩ := hminv.lm i j h
      exact ⟨h1, h2, h3, by rw [hrm]; exact h4⟩
    · intro j i h
      rw [hrm] at h
      obtain ⟨h1, h2, h3⟩ := hminv.rm j i h
      exact ⟨h1, h2, by rw [hlm]; exact h3⟩
  have hrcf : ∀ x, rCF (bfsStart data start) x = none := by
    intro x
    rcases eq_or_ne x start with rfl | hne
    · rw [rCF, hs_getE, resetBfs_getE _ _ hslen]
    · rw [rCF, hother x hne]
      by_cases hxl : x < data.length
      · rw [resetBfs_getE _ _ hxl]
      · rw [resetBfs_getE_oob _ _ (by omega)]
        rfl
  refine ⟨⟨hminv', hsn, ?_, hlcf start, by rw [hlm]; exact hsu, ?_, ?_, ?_, ?_⟩, hlv⟩
  · rw [lVis, hs_getE]
  · intro x y hxy
    rw [hrcf x] at hxy
    cases hxy
  · intro x y hxy
    rw [hlcf x] at hxy
    cases hxy
  · intro x hx
    exact absurd hx (hrv x)
  · intro x hx
    have hxs := hlv x hx
    subst hxs
    exact ⟨hsn, Or.inl rfl⟩

/-- Full specification of `find_augmenting_path`: it leaves matchings
untouched; if no augmenting path is found, every tight finite edge from a
visited left node leads to a visited right node and the BFS invariant
holds; if one is found, the endpoint is an unmatched right node below `n`
carrying a valid alternating chain to the unmatched start node. -/
theorem find_aug_spec {n : ℕ} {costs : ℕ → ℕ → Option α}
    (data : List (Element α)) (isTight : ℕ → ℕ → Bool) (i : ℕ)
    (hminv : MatchInv n costs data) (hin : i < n) (hun : leftM data i = none) :
    (∀ data1, find_augmenting_path costs n i data isTight = (data1, none) →
      (∀ x, leftM data1 x = leftM data x) ∧ (∀ x, rightM data1 x = rightM data x) ∧
      data1.length = n ∧ BfsInvX n costs i none data1 ∧
      (∀ x, lVis data1 x → TightDone costs isTight n x data1)) ∧
    (∀ data1 ep, find_augmenting_path costs n i data isTight = (data1, some ep) →
      (∀ x, leftM data1 x = leftM data x) ∧ (∀ x, rightM data1 x = rightM data x) ∧
      data1.length = n ∧ MatchInv n costs data1 ∧ ep < n ∧
      rightM data1 ep = none ∧ ∃ d, RPath n costs data1 i d ep) := by
  obtain ⟨hlm, hrm, hlen⟩ := bfsStart_matches data i
  obtain ⟨hinv0, honly⟩ := bfsStart_inv i hminv hin hun
  have hlev : ∀ x ∈ [i], lVis (bfsStart data i) x ∧ x < n := by
    intro x hx
    simp at hx
    subst hx
    exact ⟨hinv0.start_vis, hin⟩
  have hproc : ∀ x, lVis (bfsStart data i) x →
      x ∈ [i] ∨ TightDone costs isTight n x (bfsStart data i) := by
    intro x hx
    exact Or.inl (by simp [honly x hx])
  have hfuel : ([i] : List ℕ) ≠ [] → unvisitedLeftCount (bfsStart data i) < n + 1 := by
    intro hne
    have h1 : unvisitedLeftCount (bfsStart data i) ≤ (bfsStart data i).length :=
      List.countP_le_length _
    rw [hlen, hminv.len] at h1
    omega
  have hspec := bfsLoop_spec isTight (n + 1) [i] (bfsStart data i)
    hinv0 hlev hproc hfuel
  have hlen0 : (bfsStart data i).length = n := by
    rw [hlen, hminv.len]
  constructor
  · intro data1 heq
    rw [find_augmenting_path_eq] at heq
    obtain ⟨hi1, hi2, hi3⟩ := hspec.1 data1 heq
    refine ⟨fun x => (hi2.lm x).trans (hlm x), fun x => (hi2.rm x).trans (hrm x),
      hi2.len.trans hlen0, hi1, hi3⟩
  · intro data1 ep heq
    rw [find_augmenting_path_eq] at heq
    obtain ⟨hi1, hi2, hi3, hi4⟩ := hspec.2 data1 ep heq
    refine ⟨fun x => (hi1.lm x).trans (hlm x), fun x => (hi1.rm x).trans (hrm x),
      hi1.len.trans hlen0, MatchInv_of_ext hinv0.minv hi1, hi2, hi3, hi4⟩

theorem leftM_lt_length {data : List (Element α)} {i j : ℕ}
    (h : leftM data i = some j) : i < data.length := by
  by_contra hc
  rw [leftM, getE_eq_default _ _ (by omega)] at h
  cases h

theorem rightM_lt_length {data : List (Element α)} {j i : ℕ}
    (h : rightM data j = some i) : j < data.length := by
  by_contra hc
  rw [rightM, getE_eq_default _ _ (by omega)] at h
  cases h

@[simp] theorem setRightMatch_length (data : List (Element α)) (j i : ℕ) :
    (setRightMatch data j i).length = data.length := by
  simp [setRightMatch]

@[simp] theorem setLeftMatch_length (data : List (Element α)) (i j : ℕ) :
    (setLeftMatch data i j).length = data.length := by
  simp [setLeftMatch]

theorem setRightMatch_left (data : List (Element α)) (j i x : ℕ) :
    (getE (setRightMatch data j i) x).left = (getE data x).left := by
  rcases eq_or_ne x j with rfl | hne
  · by_cases h : x < data.length
    · rw [setRightMatch, getE_updData_eq _ _ _ h]
    · rw [setRightMatch, updData, List.set_eq_of_length_le (by omega)]
  · rw [setRightMatch, getE_updData_ne _ _ _ _ hne]

theorem setLeftMatch_right (data : List (Element α)) (i j x : ℕ) :
    (getE (setLeftMatch data i j) x).right = (getE data x).right := by
  rcases eq_or_ne x i with rfl | hne
  · by_cases h : x < data.length
    · rw [setLeftMatch, getE_updData_eq _ _ _ h]
    · rw [setLeftMatch, updData, List.set_eq_of_length_le (by omega)]
  · rw [setLeftMatch, getE_updData_ne _ _ _ _ hne]

theorem rightM_setRightMatch_eq (data : List (Element α)) (j i : ℕ)
    (h : j < data.length) : rightM (setRightMatch data j i) j = some i := by
  rw [rightM, setRightMatch, getE_updData_eq _ _ _ h]

theorem rightM_setRightMatch_ne (data : List (Element α)) (j i x : ℕ) (h : x ≠ j) :
    rightM (setRightMatch data j i) x = rightM data x := by
  rw [rightM, rightM, setRightMatch, getE_updData_ne _ _ _ _ h]

theorem leftM_setLeftMatch_eq (data : List (Element α)) (i j : ℕ)
    (h : i < data.length) : leftM (setLeftMatch data i j) i = some j := by
  rw [leftM, setLeftMatch, getE_updData_eq _ _ _ h]

theorem leftM_setLeftMatch_ne (data : List (Element α)) (i j x : ℕ) (h : x ≠ i) :
    leftM (setLeftMatch data i j) x = leftM data x := by
  rw [leftM, leftM, setLeftMatch, getE_updData_ne _ _ _ _ h]

theorem leftM_setRightMatch (data : List (Element α)) (j i x : ℕ) :
    leftM (setRightMatch data j i) x = leftM data x := by
  rw [leftM, leftM, setRightMatch_left]

theorem rightM_setLeftMatch (data : List (Element α)) (i j x : ℕ) :
    rightM (setLeftMatch data i j) x = rightM data x := by
  rw [rightM, rightM, setLeftMatch_right]

theorem rCF_setRightMatch (data : List (Element α)) (j i x : ℕ) :
    rCF (setRightMatch data j i) x = rCF data x := by
  rcases eq_or_ne x j with rfl | hne
  · by_cases h : x < data.length
    · rw [rCF, rCF, setRightMatch, getE_updData_eq _ _ _ h]
    · rw [rCF, rCF, setRightMatch, updData, List.set_eq_of_length_le (by omega)]
  · rw [rCF, rCF, setRightMatch, getE_updData_ne _ _ _ _ hne]

theorem lCF_setRightMatch (data : List (Element α)) (j i x : ℕ) :
    lCF (setRightMatch data j i) x = lCF data x := by
  rw [lCF, lCF, setRightMatch_left]

theorem rCF_setLeftMatch (data : List (Element α)) (i j x : ℕ) :
    rCF (setLeftMatch data i j) x = rCF data x := by
  rw [rCF, rCF, setLeftMatch_right]

theorem lCF_setLeftMatch (data : List (Element α)) (i j x : ℕ) :
    lCF (setLeftMatch data i j) x = lCF data x := by
  rcases eq_or_ne x i with rfl | hne
  · by_cases h : x < data.length
    · rw [lCF, lCF, setLeftMatch, getE_updData_eq _ _ _ h]
    · rw [lCF, lCF, setLeftMatch, updData, List.set_eq_of_length_le (by omega)]
  · rw [lCF, lCF, setLeftMatch, getE_updData_ne _ _ _ _ hne]

theorem unmatchedLeftCount_setRightMatch (data : List (Element α)) (j i : ℕ) :
    unmatchedLeftCount (setRightMatch data j i) = unmatchedLeftCount data := by
  refine countP_eq_pos _ _ _ (by simp) ?_
  intro k hk
  rw [setRightMatch_left]

theorem countP_updData (data : List (Element α)) (i : ℕ)
    (f : Element α → Element α) (p : Element α → Bool) (h : i < data.length) :
    (updData data i f).countP p + (if p (getE data i) then 1 else 0) =
      data.countP p + (if p (f (getE data i)) then 1 else 0) := by
  have hc := countP_set data i (f (getE data i)) p h
  rw [← getE_eq_getElem _ _ h] at hc
  rw [updData]
  exact hc

theorem unmatchedLeftCount_setLeftMatch_unmatched (data : List (Element α))
    (i j : ℕ) (h : i < data.length) (hun : leftM data i = none) :
    unmatchedLeftCount (setLeftMatch data i j) + 1 = unmatchedLeftCount data := by
  have hc := countP_updData data i
    (fun e => { e with left := { e.left with matchesWith := some j } })
    (fun e => e.left.matchesWith.isNone) h
  have h1 : (fun (e : Element α) => e.left.matchesWith.isNone) (getE data i) = true := by
    show (getE data i).left.matchesWith.isNone = true
    rw [leftM] at hun
    rw [hun]
    rfl
  have h2 : (fun (e : Element α) => e.left.matchesWith.isNone)
      ((fun (e : Element α) => { e with left := { e.left with matchesWith := some j } })
        (getE data i)) = false := rfl
  rw [h1, h2] at hc
  have ht : (if (true : Bool) = true then 1 else 0) = 1 := rfl
  have hf : (if (false : Bool) = true then 1 else 0) = 0 := rfl
  rw [ht, hf] at hc
  unfold unmatchedLeftCount
  rw [show setLeftMatch data i j = updData data i
    (fun (e : Element α) => { e with left := { e.left with matchesWith := some j } }) from rfl]
  omega

theorem unmatchedLeftCount_setLeftMatch_matched (data : List (Element α))
    (i j j' : ℕ) (h : i < data.length) (hm : leftM data i = some j') :
    unmatchedLeftCount (setLeftMatch data i j) = unmatchedLeftCount data := by
  have hc := countP_updData data i
    (fun e => { e with left := { e.left with matchesWith := some j } })
    (fun e => e.left.matchesWith.isNone) h
  have h1 : (fun (e : Element α) => e.left.matchesWith.isNone) (getE data i) = false := by
    show (getE data i).left.matchesWith.isNone = false
    rw [leftM] at hm
    rw [hm]
    rfl
  have h2 : (fun (e : Element α) => e.left.matchesWith.isNone)
      ((fun (e : Element α) => { e with left := { e.left with matchesWith := some j } })
        (getE data i)) = false := rfl
  rw [h1, h2] at hc
  have hf : (if (false : Bool) = true then 1 else 0) = 0 := rfl
  rw [hf] at hc
  unfold unmatchedLeftCount
  rw [show setLeftMatch data i j = updData data i
    (fun (e : Element α) => { e with left := { e.left with matchesWith := some j } }) from rfl]
  omega

/-- Unfolding of one `toggle_augmenting_path` step when the endpoint's
parent pointer is set. -/
theorem toggle_step_eq (fuel ep : ℕ) (data : List (Element α)) (l : ℕ)
    (hcf : (getE data ep).right.bfsComesFrom = some l) :
    toggle_augmenting_path (fuel + 1) ep data =
      match (getE (setLeftMatch (setRightMatch data ep l) l ep) l).left.bfsComesFrom with
      | some nextEp => toggle_augmenting_path fuel nextEp
          (setLeftMatch (setRightMatch data ep l) l ep)
      | none => some (setLeftMatch (setRightMatch data ep l) l ep) := by
  rw [toggle_augmenting_path, hcf]

/-- Correctness of the augmenting-path toggle: along a valid alternating
chain it terminates within the chain length, restores the matching
invariant, keeps every matched edge on a finite cost, and matches exactly
one more left node (the start of the chain). -/
theorem toggle_correct {n : ℕ} {costs : ℕ → ℕ → Option α} {start : ℕ}
    (hsn : start < n) :
    ∀ d ep data, RPath n costs data start d ep →
      data.length = n →
      (∀ i j, leftM data i = some j →
        i < n ∧ j < n ∧ (costs i j).isSome = true ∧ rightM data j = some i) →
      (∀ j i, rightM data j = some i → i < n ∧ (leftM data i = some j ∨ j = ep)) →
      (∀ i, leftM data i ≠ some ep) →
      leftM data start = none →
      ∀ fuel, d < fuel →
      ∃ data2, toggle_augmenting_path fuel ep data = some data2 ∧
        MatchInv n costs data2 ∧
        unmatchedLeftCount data2 + 1 = unmatchedLeftCount data := by
  intro d
  induction d using Nat.strong_induction_on with
  | _ d ihd =>
    intro ep data hp hlen h2 h3 h4 hstun fuel hfuel
    obtain ⟨fuel, rfl⟩ : ∃ f, fuel = f + 1 := ⟨fuel - 1, by omega⟩
    cases hp with
    | base _ l hr hl hcf hc hlcf hst =>
      subst hst
      have hllen : l < data.length := by omega
      have hrlen : ep < data.length := by omega
      rw [toggle_step_eq fuel ep data l hcf]
      have hlcf2 : (getE (setLeftMatch (setRightMatch data ep l) l ep) l).left.bfsComesFrom
          = none := by
        have h1 := lCF_setLeftMatch (setRightMatch data ep l) l ep l
        rw [lCF, lCF] at h1
        rw [h1]
        have hA := lCF_setRightMatch data ep l l
        rw [lCF, lCF] at hA
        rw [hA]
        exact hlcf
      rw [hlcf2]
      refine ⟨_, rfl, ?_, ?_⟩
      · have hlm_eq : leftM (setLeftMatch (setRightMatch data ep l) l ep) l = some ep :=
          leftM_setLeftMatch_eq _ _ _ (by simpa using hllen)
        have hrm_eq : rightM (setLeftMatch (setRightMatch data ep l) l ep) ep = some l := by
          rw [rightM_setLeftMatch, rightM_setRightMatch_eq _ _ _ hrlen]
        refine ⟨by simpa using hlen, ?_, ?_⟩
        · intro x y hxy
          rcases eq_or_ne x l with rfl | hxl
          · rw [hlm_eq] at hxy
            cases hxy
            exact ⟨hl, hr, hc, hrm_eq⟩
          · rw [leftM_setLeftMatch_ne _ _ _ _ hxl, leftM_setRightMatch] at hxy
            obtain ⟨hb1, hb2, hb3, hb4⟩ := h2 x y hxy
            refine ⟨hb1, hb2, hb3, ?_⟩
            rcases eq_or_ne y ep with rfl | hyr
            · exact absurd hxy (h4 x)
            · rw [rightM_setLeftMatch, rightM_setRightMatch_ne _ _ _ _ hyr]
              exact hb4
        · intro y x hxy
          rcases eq_or_ne y ep with rfl | hyr
          · rw [hrm_eq] at hxy
            cases hxy
            exact ⟨hl, hr, hlm_eq⟩
          · rw [rightM_setLeftMatch, rightM_setRightMatch_ne _ _ _ _ hyr] at hxy
            obtain ⟨hb1, hb2⟩ := h3 y x hxy
            have hyn : y < n := by
              have := rightM_lt_length hxy
              omega
            rcases hb2 with hb2 | hb2
            · have hxl : x ≠ l := by
                intro he
                subst he
                rw [hstun] at hb2
                cases hb2
              refine ⟨hb1, hyn, ?_⟩
              rw [leftM_setLeftMatch_ne _ _ _ _ hxl, leftM_setRightMatch]
              exact hb2
            · exact absurd hb2 hyr
      · have hC1 := unmatchedLeftCount_setRightMatch data ep l
        have hC2 := unmatchedLeftCount_setLeftMatch_unmatched (setRightMatch data ep l)
          l ep (by simpa using hllen)
          (by rw [leftM_setRightMatch]; exact hstun)
        omega
    | step _ l r' d' hr hl hcf hc hlcf hm hp' =>
      have hllen : l < data.length := by omega
      have hrlen : ep < data.length := by omega
      have hfull : RPath n costs data start (d' + 1) ep :=
        RPath.step ep l r' d' hr hl hcf hc hlcf hm hp'
      have hrr' : ep ≠ r' := by
        intro he
        rw [he] at hfull
        have := RPath_det hp' hfull
        omega
      have hlmatch : leftM data l = some r' := by
        obtain ⟨hb1, hb2⟩ := h3 r' l hm
        rcases hb2 with hb | hb
        · exact hb
        · exact absurd hb.symm hrr'
      have hlstart : l ≠ start := by
        intro he
        rw [he, hstun] at hlmatch
        cases hlmatch
      rw [toggle_step_eq fuel ep data l hcf]
      have hlcf2 : (getE (setLeftMatch (setRightMatch data ep l) l ep) l).left.bfsComesFrom
          = some r' := by
        have h1 := lCF_setLeftMatch (setRightMatch data ep l) l ep l
        rw [lCF, lCF] at h1
        rw [h1]
        have hA := lCF_setRightMatch data ep l l
        rw [lCF, lCF] at hA
        rw [hA]
        exact hlcf
      rw [hlcf2]
      have hlen2 : (setLeftMatch (setRightMatch data ep l) l ep).length = n := by
        rw [setLeftMatch_length, setRightMatch_length]
        exact hlen
      have hlm2_l : leftM (setLeftMatch (setRightMatch data ep l) l ep) l = some ep :=
        leftM_setLeftMatch_eq _ _ _ (by simpa using hllen)
      have hrm2_r : rightM (setLeftMatch (setRightMatch data ep l) l ep) ep = some l := by
        rw [rightM_setLeftMatch, rightM_setRightMatch_eq _ _ _ hrlen]
      have hlm2_ne : ∀ x, x ≠ l →
          leftM (setLeftMatch (setRightMatch data ep l) l ep) x = leftM data x := by
        intro x hx
        rw [leftM_setLeftMatch_ne _ _ _ _ hx, leftM_setRightMatch]
      have hrm2_ne : ∀ y, y ≠ ep →
          rightM (setLeftMatch (setRightMatch data ep l) l ep) y = rightM data y := by
        intro y hy
        rw [rightM_setLeftMatch, rightM_setRightMatch_ne _ _ _ _ hy]
      have hp2 : RPath n costs (setLeftMatch (setRightMatch data ep l) l ep) start d' r' := by
        refine RPath_congr_matches (D := d') ?_ ?_ ?_ (le_refl d') hp'
        · intro x
          rw [rCF_setLeftMatch, rCF_setRightMatch]
        · intro x
          rw [lCF_setLeftMatch, lCF_setRightMatch]
        · intro x dx hdx hpx
          refine hrm2_ne x ?_
          intro he
          subst he
          have := RPath_det hpx hfull
          omega
      have h2' : ∀ i j, leftM (setLeftMatch (setRightMatch data ep l) l ep) i = some j →
          i < n ∧ j < n ∧ (costs i j).isSome = true ∧
            rightM (setLeftMatch (setRightMatch data ep l) l ep) j = some i := by
        intro x y hxy
        rcases eq_or_ne x l with rfl | hxl
        · rw [hlm2_l] at hxy
          cases hxy
          exact ⟨hl, hr, hc, hrm2_r⟩
        · rw [hlm2_ne x hxl] at hxy
          obtain ⟨hb1, hb2, hb3, hb4⟩ := h2 x y hxy
          refine ⟨hb1, hb2, hb3, ?_⟩
          rcases eq_or_ne y ep with rfl | hyr
          · exact absurd hxy (h4 x)
          · rw [hrm2_ne y hyr]
            exact hb4
      have h3' : ∀ j i, rightM (setLeftMatch (setRightMatch data ep l) l ep) j = some i →
          i < n ∧ (leftM (setLeftMatch (setRightMatch data ep l) l ep) i = some j ∨ j = r') := by
        intro y x hxy
        rcases eq_or_ne y ep with rfl | hyr
        · rw [hrm2_r] at hxy
          cases hxy
          exact ⟨hl, Or.inl hlm2_l⟩
        · rw [hrm2_ne y hyr] at hxy
          obtain ⟨hb1, hb2⟩ := h3 y x hxy
          rcases hb2 with hb | hb
          · rcases eq_or_ne x l with rfl | hxl
            · rw [hlmatch] at hb
              cases hb
              exact ⟨hb1, Or.inr rfl⟩
            · exact ⟨hb1, Or.inl (by rw [hlm2_ne x hxl]; exact hb)⟩
          · exact absurd hb hyr
      have h4' : ∀ i, leftM (setLeftMatch (setRightMatch data ep l) l ep) i ≠ some r' := by
        intro x hx
        rcases eq_or_ne x l with rfl | hxl
        · rw [hlm2_l] at hx
          exact hrr' (Option.some.inj hx)
        · rw [hlm2_ne x hxl] at hx
          obtain ⟨-, -, -, hb4⟩ := h2 x r' hx
          rw [hm] at hb4
          exact hxl (Option.some.inj hb4).symm
      have hstun2 : leftM (setLeftMatch (setRightMatch data ep l) l ep) start = none := by
        rw [hlm2_ne start (Ne.symm hlstart)]
        exact hstun
      obtain ⟨data3, heq3, hminv3, hcount3⟩ := ihd d' (by omega) r'
        (setLeftMatch (setRightMatch data ep l) l ep) hp2 hlen2 h2' h3' h4' hstun2
        fuel (by omega)
      refine ⟨data3, heq3, hminv3, ?_⟩
      have hC1 := unmatchedLeftCount_setRightMatch data ep l
      have hC2 := unmatchedLeftCount_setLeftMatch_matched (setRightMatch data ep l)
        l ep r' (by simpa using hllen)
        (by rw [leftM_setRightMatch]; exact hlmatch)
      omega

/-- A perfect matching over the allowed (finite-cost) edges: an assignment
of pairwise distinct rights to all `n` lefts using only `some` costs. -/
def IsPM (n : ℕ) (costs : ℕ → ℕ → Option α) (a : List ℕ) : Prop :=
  a.length = n ∧ a.Nodup ∧
    ∀ i, i < n → getE a i < n ∧ (costs i (getE a i)).isSome = true

theorem unmatchedLeftCount_eq_of_lm {data data' : List (Element α)}
    (hlen : data'.length = data.length)
    (hlm : ∀ x, leftM data' x = leftM data x) :
    unmatchedLeftCount data' = unmatchedLeftCount data := by
  refine countP_eq_pos data data' _ hlen ?_
  intro k hk
  have h := hlm k
  rw [leftM, leftM] at h
  rw [h]

theorem MatchInv_of_pointwise {n : ℕ} {costs : ℕ → ℕ → Option α}
    {data data' : List (Element α)} (hinv : MatchInv n costs data)
    (hlen : data'.length = n)
    (hlm : ∀ x, leftM data' x = leftM data x)
    (hrm : ∀ x, rightM data' x = rightM data x) : MatchInv n costs data' where
  len := hlen
  lm i j h := by
    rw [hlm] at h
    obtain ⟨h1, h2, h3, h4⟩ := hinv.lm i j h
    exact ⟨h1, h2, h3, by rw [hrm]; exact h4⟩
  rm j i h := by
    rw [hrm] at h
    obtain ⟨h1, h2, h3⟩ := hinv.rm j i h
    exact ⟨h1, h2, by rw [hlm]; exact h3⟩

theorem findUnmatchedLeft_none {data : List (Element α)}
    (h : findUnmatchedLeft data = none) :
    ∀ i, i < data.length → (getE data i).left.matchesWith.isNone = false := by
  intro i hi
  have hm := List.find?_eq_none.mp h i (List.mem_range.mpr hi)
  cases hv : (getE data i).left.matchesWith.isNone
  · rfl
  · exact absurd hv hm

theorem findUnmatchedLeft_some {data : List (Element α)} {i : ℕ}
    (h : findUnmatchedLeft data = some i) :
    i < data.length ∧ leftM data i = none := by
  have hmem := List.mem_range.mp (List.mem_of_find?_eq_some h)
  have hp := List.find?_some h
  exact ⟨hmem, Option.isNone_iff_eq_none.mp hp⟩

theorem mapM_matchesWith (l : List (Element α)) : ∀ (a : List ℕ),
    l.mapM (fun e => e.left.matchesWith) = some a →
    a.length = l.length ∧ ∀ i, i < l.length →
      (getE l i).left.matchesWith = some (getE a i) := by
  induction l with
  | nil =>
    intro a h
    rw [List.mapM_nil] at h
    cases h
    exact ⟨rfl, fun i hi => absurd hi (by simp)⟩
  | cons e rest ih =>
    intro a h
    rw [List.mapM_cons] at h
    cases hm : e.left.matchesWith with
    | none => rw [hm] at h; cases h
    | some j =>
      rw [hm] at h
      cases hr : rest.mapM (fun e => e.left.matchesWith) with
      | none =>
        rw [show (some j >>= fun b =>
            rest.mapM (fun e => e.left.matchesWith) >>= fun bs => pure (b :: bs)) =
            (rest.mapM (fun e => e.left.matchesWith) >>= fun bs =>
              pure (j :: bs)) from rfl, hr] at h
        cases h
      | some bs =>
        rw [show (some j >>= fun b =>
            rest.mapM (fun e => e.left.matchesWith) >>= fun bs => pure (b :: bs)) =
            (rest.mapM (fun e => e.left.matchesWith) >>= fun bs =>
              pure (j :: bs)) from rfl, hr] at h
        cases h
        obtain ⟨hlen, hval⟩ := ih bs hr
        refine ⟨by simp [hlen], ?_⟩
        intro i hi
        cases i with
        | zero => rw [getE_cons_zero, getE_cons_zero]; exact hm
        | succ k =>
          rw [getE_cons_succ, getE_cons_succ]
          exact hval k (by simpa using hi)

theorem mapM_matchesWith_total (l : List (Element α))
    (h : ∀ i, i < l.length → (getE l i).left.matchesWith.isNone = false) :
    ∃ a, l.mapM (fun e => e.left.matchesWith) = some a := by
  induction l with
  | nil => exact ⟨[], by rw [List.mapM_nil]; rfl⟩
  | cons e rest ih =>
    have h0 := h 0 (by simp)
    rw [getE_cons_zero] at h0
    cases hm : e.left.matchesWith with
    | none => rw [hm] at h0; cases h0
    | some j =>
      obtain ⟨bs, hbs⟩ := ih fun i hi => by
        have := h (i + 1) (by simpa using hi)
        rwa [getE_cons_succ] at this
      refine ⟨j :: bs, ?_⟩
      rw [List.mapM_cons, hm]
      rw [show (some j >>= fun b =>
          rest.mapM (fun e => e.left.matchesWith) >>= fun bs => pure (b :: bs)) =
          (rest.mapM (fun e => e.left.matchesWith) >>= fun bs =>
            pure (j :: bs)) from rfl, hbs]
      rfl

theorem getE_map_elt (f : Element α → Element α) (data : List (Element α))
    (x : ℕ) (hx : x < data.length) : getE (data.map f) x = f (getE data x) := by
  rw [getE_eq_getElem _ _ (by simpa using hx), getE_eq_getElem _ _ hx,
    List.getElem_map]

theorem relaxShift_left_matches (d : α) (e : Element α) :
    (relaxShift d e).left.matchesWith = e.left.matchesWith := by
  rw [relaxShift]
  by_cases h1 : e.left.visited = true <;> by_cases h2 : e.right.visited = true <;>
    simp [h1, h2]

theorem relaxShift_right_matches (d : α) (e : Element α) :
    (relaxShift d e).right.matchesWith = e.right.matchesWith := by
  rw [relaxShift]
  by_cases h1 : e.left.visited = true <;> by_cases h2 : e.right.visited = true <;>
    simp [h1, h2]

theorem foldl_min_mem (x : (ℕ × ℕ) × α) (xs : List ((ℕ × ℕ) × α)) :
    xs.foldl (fun acc y => if y.2 < acc.2 then y else acc) x ∈ x :: xs := by
  induction xs generalizing x with
  | nil => simp [List.foldl_nil]
  | cons y ys ih =>
    rw [List.foldl_cons]
    have hmem := ih (if y.2 < x.2 then y else x)
    rcases List.mem_cons.mp hmem with h | h
    · rw [h]
      by_cases hlt : y.2 < x.2
      · rw [if_pos hlt]
        exact List.mem_cons.mpr (Or.inr (List.mem_cons.mpr (Or.inl rfl)))
      · rw [if_neg hlt]
        exact List.mem_cons.mpr (Or.inl rfl)
    · exact List.mem_cons.mpr (Or.inr (List.mem_cons.mpr (Or.inr h)))

theorem minBySlack_mem {l : List ((ℕ × ℕ) × α)} {x : (ℕ × ℕ) × α}
    (h : minBySlack l = some x) : x ∈ l := by
  cases l with
  | nil => cases h
  | cons y ys =>
    rw [minBySlack] at h
    cases h
    exact foldl_min_mem y ys

theorem minBySlack_eq_none {l : List ((ℕ × ℕ) × α)}
    (h : minBySlack l = none) : l = [] := by
  cases l with
  | nil => rfl
  | cons y ys => rw [minBySlack] at h; cases h

theorem relaxCandidates_mem {costs : ℕ → ℕ → Option α} {n : ℕ}
    {data : List (Element α)} {ij : ℕ × ℕ} {s : α}
    (h : (ij, s) ∈ relaxCandidates costs n data) :
    ij.1 < n ∧ ij.2 < n ∧ (costs ij.1 ij.2).isSome = true ∧
      lVis data ij.1 ∧ ¬ rVis data ij.2 := by
  rw [relaxCandidates] at h
  obtain ⟨p, hp, hf⟩ := List.mem_filterMap.mp h
  obtain ⟨hp1, hp2⟩ : p.1 < n ∧ p.2 < n := by
    obtain ⟨i, hi, hmem⟩ := List.mem_flatMap.mp hp
    obtain ⟨j, hj, hpe⟩ := List.mem_map.mp hmem
    rw [← hpe]
    exact ⟨List.mem_range.mp hi, List.mem_range.mp hj⟩
  cases hc : costs p.1 p.2 with
  | none => rw [hc] at hf; cases hf
  | some c =>
    rw [hc] at hf
    replace hf : (if ((getE data p.1).left.visited &&
        !(getE data p.2).right.visited) = true then
          some (p, (getE data p.1).left.potential +
            (getE data p.2).right.potential - c)
        else none) = some (ij, s) := hf
    by_cases hcond :
        ((getE data p.1).left.visited && !(getE data p.2).right.visited) = true
    · rw [if_pos hcond] at hf
      obtain ⟨hv1, hv2⟩ := Bool.and_eq_true_iff.mp hcond
      cases hf
      refine ⟨hp1, hp2, by rw [hc]; rfl, hv1, ?_⟩
      rw [rVis]
      intro hr
      rw [hr] at hv2
      cases hv2
    · rw [if_neg hcond] at hf
      cases hf

theorem relaxCandidates_empty {costs : ℕ → ℕ → Option α} {n : ℕ}
    {data : List (Element α)} (h : relaxCandidates costs n data = []) :
    ∀ i j, i < n → j < n → lVis data i → (costs i j).isSome = true →
      rVis data j := by
  intro i j hi hj hlv hc
  by_contra hrv
  cases hcost : costs i j with
  | none => rw [hcost] at hc; cases hc
  | some c =>
    have hmem : (((i, j),
        (getE data i).left.potential + (getE data j).right.potential - c) :
        (ℕ × ℕ) × α) ∈ relaxCandidates costs n data := by
      rw [relaxCandidates]
      refine List.mem_filterMap.mpr ⟨(i, j), ?_, ?_⟩
      · exact List.mem_flatMap.mpr ⟨i, List.mem_range.mpr hi,
          List.mem_map.mpr ⟨j, List.mem_range.mpr hj, rfl⟩⟩
      · have hv2 : (getE data j).right.visited = false := by
          rw [rVis] at hrv
          cases hv : (getE data j).right.visited
          · rfl
          · exact absurd hv hrv
        have hlv' : (getE data i).left.visited = true := hlv
        simp [hcost, hlv', hv2]
    rw [h] at hmem
    cases hmem

theorem relax_potentials_spec {costs : ℕ → ℕ → Option α} {n : ℕ}
    {data : List (Element α)} {isTight isTight1 : ℕ → ℕ → Bool}
    {data2 : List (Element α)}
    (h : relax_potentials costs n data isTight = some (isTight1, data2)) :
    data2.length = data.length ∧ (∀ x, leftM data2 x = leftM data x) ∧
      (∀ x, rightM data2 x = rightM data x) ∧
      ∃ i j, i < n ∧ j < n ∧ (costs i j).isSome = true ∧ lVis data i ∧
        ¬ rVis data j ∧
        isTight1 = fun a b => if a = i ∧ b = j then true else isTight a b := by
  rw [relax_potentials] at h
  cases hmin : minBySlack (relaxCandidates costs n data) with
  | none => rw [hmin] at h; cases h
  | some cand =>
    rw [hmin] at h
    simp only [Option.some.injEq, Prod.mk.injEq] at h
    obtain ⟨h1, h2⟩ := h
    have hmem := minBySlack_mem hmin
    obtain ⟨hc1, hc2, hc3, hc4, hc5⟩ := relaxCandidates_mem hmem
    have hlm : ∀ x, leftM data2 x = leftM data x := by
      intro x
      rw [← h2]
      by_cases hx : x < data.length
      · rw [leftM, leftM, getE_map_elt _ _ _ hx, relaxShift_left_matches]
      · rw [leftM, leftM, getE_eq_default _ _ (by simpa using not_lt.mp hx),
          getE_eq_default _ _ (not_lt.mp hx)]
    have hrm : ∀ x, rightM data2 x = rightM data x := by
      intro x
      rw [← h2]
      by_cases hx : x < data.length
      · rw [rightM, rightM, getE_map_elt _ _ _ hx, relaxShift_right_matches]
      · rw [rightM, rightM, getE_eq_default _ _ (by simpa using not_lt.mp hx),
          getE_eq_default _ _ (not_lt.mp hx)]
    exact ⟨by rw [← h2]; simp, hlm, hrm, cand.1.1, cand.1.2, hc1, hc2, hc3, hc4,
      hc5, h1.symm⟩

/-- Hall-type infeasibility certificate: when the BFS from an unmatched
start node has closed up (every finite edge from a visited left leads to a
visited right) the visited lefts outnumber the visited rights by one, so no
perfect matching over the finite edges can exist. -/
theorem hall_no_pm {n : ℕ} {costs : ℕ → ℕ → Option α} {start : ℕ}
    {data : List (Element α)} (hinv : BfsInvX n costs start none data)
    (hclosed : ∀ i j, i < n → j < n → lVis data i → (costs i j).isSome = true →
      rVis data j) :
    ¬ ∃ a, IsPM n costs a := by
  classical
  rintro ⟨a, halen, hand, haval⟩
  let VL : Finset ℕ := (Finset.range n).filter fun i => (getE data i).left.visited = true
  let VR : Finset ℕ := (Finset.range n).filter fun j => (getE data j).right.visited = true
  have hstartVL : start ∈ VL := by
    refine Finset.mem_filter.mpr ⟨Finset.mem_range.mpr hinv.start_lt, ?_⟩
    exact hinv.start_vis
  have hAB : VL.card ≤ VR.card := by
    refine Finset.card_le_card_of_injOn (fun i => getE a i) ?_ ?_
    · intro i hi
      obtain ⟨hir, hiv⟩ := Finset.mem_filter.mp hi
      have hin := Finset.mem_range.mp hir
      obtain ⟨hai, hci⟩ := haval i hin
      refine Finset.mem_filter.mpr ⟨Finset.mem_range.mpr hai, ?_⟩
      exact hclosed i (getE a i) hin hai hiv hci
    · intro i1 h1 i2 h2 heq
      replace heq : getE a i1 = getE a i2 := heq
      have hlt1 : i1 < a.length := by
        rw [halen]; exact Finset.mem_range.mp (Finset.mem_filter.mp h1).1
      have hlt2 : i2 < a.length := by
        rw [halen]; exact Finset.mem_range.mp (Finset.mem_filter.mp h2).1
      rw [getE_eq_getElem _ _ hlt1, getE_eq_getElem _ _ hlt2] at heq
      exact (List.Nodup.getElem_inj_iff hand).mp heq
  have hBA : VR.card ≤ (VL.erase start).card := by
    refine Finset.card_le_card_of_injOn
      (fun r => ((getE data r).right.matchesWith).getD 0) ?_ ?_
    · intro r hr
      obtain ⟨hrr, hrv⟩ := Finset.mem_filter.mp hr
      obtain ⟨hrn, -, hmat⟩ := hinv.rvis r hrv
      rcases hmat with hex | ⟨i, hri, hlvi⟩
      · cases hex
      · have hgd : ((getE data r).right.matchesWith).getD 0 = i := by
          rw [show (getE data r).right.matchesWith = rightM data r from rfl, hri]
          rfl
        show ((getE data r).right.matchesWith).getD 0 ∈ VL.erase start
        rw [hgd]
        obtain ⟨hiln, -, hilm⟩ := hinv.minv.rm r i hri
        refine Finset.mem_erase.mpr ⟨?_, Finset.mem_filter.mpr
          ⟨Finset.mem_range.mpr hiln, hlvi⟩⟩
        intro his
        rw [his, hinv.start_un] at hilm
        cases hilm
    · intro r1 h1 r2 h2 heq
      replace heq : ((getE data r1).right.matchesWith).getD 0 =
        ((getE data r2).right.matchesWith).getD 0 := heq
      obtain ⟨-, hrv1⟩ := Finset.mem_filter.mp h1
      obtain ⟨-, hrv2⟩ := Finset.mem_filter.mp h2
      obtain ⟨-, -, hmat1⟩ := hinv.rvis r1 hrv1
      obtain ⟨-, -, hmat2⟩ := hinv.rvis r2 hrv2
      rcases hmat1 with hex | ⟨i1, hri1, -⟩
      · cases hex
      rcases hmat2 with hex | ⟨i2, hri2, -⟩
      · cases hex
      have hg1 : ((getE data r1).right.matchesWith).getD 0 = i1 := by
        rw [show (getE data r1).right.matchesWith = rightM data r1 from rfl, hri1]
        rfl
      have hg2 : ((getE data r2).right.matchesWith).getD 0 = i2 := by
        rw [show (getE data r2).right.matchesWith = rightM data r2 from rfl, hri2]
        rfl
      rw [hg1, hg2] at heq
      subst heq
      obtain ⟨-, -, hm1⟩ := hinv.minv.rm r1 i1 hri1
      obtain ⟨-, -, hm2⟩ := hinv.minv.rm r2 i1 hri2
      rw [hm1] at hm2
      exact Option.some.inj hm2
  have hcarde : (VL.erase start).card = VL.card - 1 :=
    Finset.card_erase_of_mem hstartVL
  have hpos : 1 ≤ VL.card := Finset.card_pos.mpr ⟨start, hstartVL⟩
  omega

/-- Full correctness of the main matching loop, by induction on the fuel
with the measure `unmatched·(n²+1) + (n² − tight)`:  the loop never faults,
a `found` assignment is a perfect matching over the finite edges, and an
`infeasible` return certifies that no such matching exists. -/
theorem mmLoop_spec {n : ℕ} {costs : ℕ → ℕ → Option α} :
    ∀ (fuel : ℕ) (isTight : ℕ → ℕ → Bool) (data : List (Element α)),
      MatchInv n costs data →
      unmatchedLeftCount data * (n * n + 1) + (n * n - tightCount n isTight) <
        fuel →
      (mmLoop costs n fuel isTight data ≠ .fault) ∧
      (∀ a, mmLoop costs n fuel isTight data = .found a → IsPM n costs a) ∧
      (mmLoop costs n fuel isTight data = .infeasible → ¬ ∃ a, IsPM n costs a) := by
  intro fuel
  induction fuel with
  | zero =>
    intro isTight data hminv hmeas
    exact absurd hmeas (by omega)
  | succ fuel ih =>
    intro isTight data hminv hmeas
    cases hfind : findUnmatchedLeft data with
    | none =>
      have htotal := findUnmatchedLeft_none hfind
      obtain ⟨a, hmap⟩ := mapM_matchesWith_total data htotal
      have hstep : mmLoop costs n (fuel + 1) isTight data = .found a := by
        simp only [mmLoop, hfind, hmap]
      obtain ⟨halen, hvals⟩ := mapM_matchesWith data a hmap
      have hIsPM : IsPM n costs a := by
        refine ⟨halen.trans hminv.len, ?_, ?_⟩
        · rw [List.nodup_iff_injective_getElem]
          rintro ⟨x, hx⟩ ⟨y, hy⟩ hxy
          replace hxy : getE a x = getE a y := by
            rw [getE_eq_getElem a x hx, getE_eq_getElem a y hy]
            exact hxy
          have hx' : x < data.length := by rw [← halen]; exact hx
          have hy' : y < data.length := by rw [← halen]; exact hy
          have h1 : leftM data x = some (getE a x) := hvals x hx'
          have h2 : leftM data y = some (getE a y) := hvals y hy'
          rw [hxy] at h1
          have hb1 := (hminv.lm x (getE a y) h1).2.2.2
          have hb2 := (hminv.lm y (getE a y) h2).2.2.2
          rw [hb1] at hb2
          exact Fin.ext (Option.some.inj hb2)
        · intro i hi
          have hi' : i < data.length := by rw [hminv.len]; exact hi
          have h1 : leftM data i = some (getE a i) := hvals i hi'
          have h2 := hminv.lm i (getE a i) h1
          exact ⟨h2.2.1, h2.2.2.1⟩
      refine ⟨(by rw [hstep]; intro hc; cases hc), ?_, ?_⟩
      · intro a' ha'
        rw [hstep] at ha'
        cases ha'
        exact hIsPM
      · intro hinf
        rw [hstep] at hinf
        cases hinf
    | some i =>
      obtain ⟨hilen, hiun⟩ := findUnmatchedLeft_some hfind
      have hin : i < n := by rw [hminv.len] at hilen; exact hilen
      have hfa := find_aug_spec data isTight i hminv hin hiun
      cases hpath : find_augmenting_path costs n i data isTight with
      | mk data1 res =>
        cases res with
        | some ep =>
          obtain ⟨hlm1, hrm1, hlen1, hminv1, hepn, hepun, hd⟩ :=
            hfa.2 data1 ep hpath
          obtain ⟨d, hrp⟩ := hd
          have h3 : ∀ j i0, rightM data1 j = some i0 → i0 < n ∧
              (leftM data1 i0 = some j ∨ j = ep) := by
            intro j i0 hj
            obtain ⟨ha, hb, hc⟩ := hminv1.rm j i0 hj
            exact ⟨ha, Or.inl hc⟩
          have h4 : ∀ x, leftM data1 x ≠ some ep := by
            intro x hx
            have hc := (hminv1.lm x ep hx).2.2.2
            rw [hepun] at hc
            cases hc
          have hstun : leftM data1 i = none := by rw [hlm1]; exact hiun
          obtain ⟨data2, htoge, hminv2, hcount2⟩ := toggle_correct hin d ep data1
            hrp hlen1 hminv1.lm h3 h4 hstun (n + 1)
            (by have := RPath_depth_lt hrp; omega)
          have heq : mmLoop costs n (fuel + 1) isTight data =
              mmLoop costs n fuel isTight data2 := by
            simp only [mmLoop, hfind, hpath, htoge]
          have hu1 : unmatchedLeftCount data1 = unmatchedLeftCount data :=
            unmatchedLeftCount_eq_of_lm (by rw [hlen1, hminv.len]) hlm1
          have hmeas2 : unmatchedLeftCount data2 * (n * n + 1) +
              (n * n - tightCount n isTight) < fuel := by
            have he : unmatchedLeftCount data * (n * n + 1) =
                unmatchedLeftCount data2 * (n * n + 1) + (n * n + 1) := by
              rw [← hu1, ← hcount2]
              ring
            omega
          rw [heq]
          exact ih isTight data2 hminv2 hmeas2
        | none =>
          obtain ⟨hlm1, hrm1, hlen1, hbinv1, htd⟩ := hfa.1 data1 hpath
          cases hrel : relax_potentials costs n data1 isTight with
          | none =>
            have hcand : relaxCandidates costs n data1 = [] := by
              rw [relax_potentials] at hrel
              cases hmin : minBySlack (relaxCandidates costs n data1) with
              | none => exact minBySlack_eq_none hmin
              | some c => rw [hmin] at hrel; cases hrel
            have heq : mmLoop costs n (fuel + 1) isTight data = .infeasible := by
              simp only [mmLoop, hfind, hpath, hrel]
            rw [heq]
            exact ⟨(by intro hc; cases hc), (by intro a ha; cases ha),
              fun _ => hall_no_pm hbinv1 (relaxCandidates_empty hcand)⟩
          | some p =>
            obtain ⟨isTight1, data2⟩ := p
            obtain ⟨hlen2, hlm2, hrm2, i0, j0, hi0, hj0, hc0, hlv0, hrv0, hT⟩ :=
              relax_potentials_spec hrel
            have huntight : isTight i0 j0 = false := by
              cases ht : isTight i0 j0
              · rfl
              · exact absurd (htd i0 hlv0 j0 hj0 hc0 ht) hrv0
            have htc1 : tightCount n isTight1 = tightCount n isTight + 1 := by
              rw [hT]
              exact tightCount_update n isTight i0 j0 hi0 hj0 huntight
            have hminv2 : MatchInv n costs data2 := by
              refine MatchInv_of_pointwise hminv (by rw [hlen2, hlen1]) ?_ ?_
              · intro x; rw [hlm2 x, hlm1 x]
              · intro x; rw [hrm2 x, hrm1 x]
            have hu2 : unmatchedLeftCount data2 = unmatchedLeftCount data := by
              have ha : unmatchedLeftCount data1 = unmatchedLeftCount data :=
                unmatchedLeftCount_eq_of_lm (by rw [hlen1, hminv.len]) hlm1
              have hb : unmatchedLeftCount data2 = unmatchedLeftCount data1 :=
                unmatchedLeftCount_eq_of_lm hlen2 hlm2
              rw [hb, ha]
            have hle1 : tightCount n isTight1 ≤ n * n := tightCount_le n isTight1
            have hmeas2 : unmatchedLeftCount data2 * (n * n + 1) +
                (n * n - tightCount n isTight1) < fuel := by
              rw [hu2, htc1]
              rw [htc1] at hle1
              omega
            have heq : mmLoop costs n (fuel + 1) isTight data =
                mmLoop costs n fuel isTight1 data2 := by
              simp only [mmLoop, hfind, hpath, hrel]
            rw [heq]
            exact ih isTight1 data2 hminv2 hmeas2

theorem tightCount_false (n : ℕ) : tightCount n (fun _ _ => false) = 0 := by
  rw [tightCount]
  simp

theorem leftM_replicate_init (n : ℕ) (mc : α) (i : ℕ) :
    leftM (List.replicate n
      { left := { (default : Node α) with potential := mc },
        right := (default : Node α) }) i = none := by
  by_cases hi : i < n
  · rw [leftM, getE_eq_getElem _ _ (by simpa using hi), List.getElem_replicate]
    rfl
  · rw [leftM, getE_eq_default _ _ (by simpa using not_lt.mp hi)]
    rfl

theorem rightM_replicate_init (n : ℕ) (mc : α) (j : ℕ) :
    rightM (List.replicate n
      { left := { (default : Node α) with potential := mc },
        right := (default : Node α) }) j = none := by
  by_cases hj : j < n
  · rw [rightM, getE_eq_getElem _ _ (by simpa using hj), List.getElem_replicate]
    rfl
  · rw [rightM, getE_eq_default _ _ (by simpa using not_lt.mp hj)]
    rfl

theorem MatchInv_init (n : ℕ) (costs : ℕ → ℕ → Option α) (mc : α) :
    MatchInv n costs (List.replicate n
      { left := { (default : Node α) with potential := mc },
        right := (default : Node α) }) where
  len := by simp
  lm i j h := by rw [leftM_replicate_init] at h; cases h
  rm j i h := by rw [rightM_replicate_init] at h; cases h

theorem unmatchedLeftCount_init (n : ℕ) (mc : α) :
    unmatchedLeftCount (List.replicate n
      { left := { (default : Node α) with potential := mc },
        right := (default : Node α) }) = n := by
  rw [unmatchedLeftCount]
  induction n with
  | zero => rfl
  | succ k ih =>
    rw [List.replicate_succ, List.countP_cons, ih]
    simp
    rfl

theorem maxFiniteCost_some {n : ℕ} {costs : ℕ → ℕ → Option α} {i j : ℕ}
    (hi : i < n) (hj : j < n) {c : α} (hc : costs i j = some c) :
    ∃ mc, maxFiniteCost n costs = some mc := by
  have hmem : c ∈ (((List.range n).flatMap fun i =>
      (List.range n).map fun j => costs i j).filterMap id) := by
    refine List.mem_filterMap.mpr ⟨costs i j, ?_, by rw [hc]; rfl⟩
    exact List.mem_flatMap.mpr ⟨i, List.mem_range.mpr hi,
      List.mem_map.mpr ⟨j, List.mem_range.mpr hj, rfl⟩⟩
  rw [maxFiniteCost]
  cases hmax : (((List.range n).flatMap fun i =>
      (List.range n).map fun j => costs i j).filterMap id).max? with
  | none =>
    rw [List.max?_eq_none_iff] at hmax
    rw [hmax] at hmem
    cases hmem
  | some mc => exact ⟨mc, rfl⟩

/-- A `found` result of `maximum_matching` is a perfect matching over the
finite-cost edges. -/
theorem maximum_matching_found_IsPM {n : ℕ} {costs : ℕ → ℕ → Option α}
    {a : List ℕ} (h : maximum_matching n costs = .found a) : IsPM n costs a := by
  rw [maximum_matching] at h
  by_cases hn : n = 0
  · subst hn
    rw [if_pos rfl] at h
    cases h
    exact ⟨rfl, List.nodup_nil, fun i hi => absurd hi (by omega)⟩
  · rw [if_neg hn] at h
    cases hmc : maxFiniteCost n costs with
    | none => rw [hmc] at h; cases h
    | some mc =>
      rw [hmc] at h
      replace h : mmLoop costs n (mmFuel n) (fun _ _ => false)
          (List.replicate n
            { left := { (default : Node α) with potential := mc },
              right := (default : Node α) }) = .found a := h
      have hmeas0 : unmatchedLeftCount (List.replicate n
          { left := { (default : Node α) with potential := mc },
            right := (default : Node α) }) * (n * n + 1) +
          (n * n - tightCount n (fun _ _ => false)) < mmFuel n := by
        rw [unmatchedLeftCount_init, tightCount_false, mmFuel]
        omega
      exact (mmLoop_spec (mmFuel n) _ _ (MatchInv_init n costs mc) hmeas0).2.1 a h

/-- On a matrix with at least one allowed entry (or an empty matrix),
`maximum_matching` reports `infeasible` exactly when no perfect matching
over the allowed entries exists. -/
theorem maximum_matching_infeasible_iff {n : ℕ} {costs : ℕ → ℕ → Option α}
    (hne : n = 0 ∨ ∃ i j, i < n ∧ j < n ∧ (costs i j).isSome = true) :
    (maximum_matching n costs = .infeasible ↔ ¬ ∃ a, IsPM n costs a) := by
  rcases hne with rfl | ⟨i, j, hi, hj, hc⟩
  · constructor
    · intro h
      rw [maximum_matching, if_pos rfl] at h
      cases h
    · intro hno
      exact absurd ⟨[], rfl, List.nodup_nil, fun i hi => absurd hi (by omega)⟩ hno
  · cases hco : costs i j with
    | none => rw [hco] at hc; cases hc
    | some c =>
      obtain ⟨mc, hmc⟩ := maxFiniteCost_some hi hj hco
      have hn : n ≠ 0 := by omega
      have hrep : maximum_matching n costs = mmLoop costs n (mmFuel n)
          (fun _ _ => false) (List.replicate n
            { left := { (default : Node α) with potential := mc },
              right := (default : Node α) }) := by
        rw [maximum_matching, if_neg hn, hmc]
      have hmeas0 : unmatchedLeftCount (List.replicate n
          { left := { (default : Node α) with potential := mc },
            right := (default : Node α) }) * (n * n + 1) +
          (n * n - tightCount n (fun _ _ => false)) < mmFuel n := by
        rw [unmatchedLeftCount_init, tightCount_false, mmFuel]
        omega
      have hspec := mmLoop_spec (mmFuel n) (fun _ _ => false)
        (List.replicate n
          { left := { (default : Node α) with potential := mc },
            right := (default : Node α) }) (MatchInv_init n costs mc) hmeas0
      constructor
      · intro h
        rw [hrep] at h
        exact hspec.2.2 h
      · intro hno
        rw [hrep]
        cases hres : mmLoop costs n (mmFuel n) (fun _ _ => false)
            (List.replicate n
              { left := { (default : Node α) with potential := mc },
                right := (default : Node α) }) with
        | fault => exact absurd hres hspec.1
        | infeasible => rfl
        | found a => exact absurd ⟨a, hspec.2.1 a hres⟩ hno

/-- With at least one allowed entry (or an empty matrix) the `unwrap` on
the maximum finite cost cannot panic and the fuelled loop cannot be
exhausted: the function never faults. -/
theorem maximum_matching_no_fault {n : ℕ} {costs : ℕ → ℕ → Option α}
    (hne : n = 0 ∨ ∃ i j, i < n ∧ j < n ∧ (costs i j).isSome = true) :
    maximum_matching n costs ≠ .fault := by
  rcases hne with rfl | ⟨i, j, hi, hj, hc⟩
  · intro h
    rw [maximum_matching, if_pos rfl] at h
    cases h
  · cases hco : costs i j with
    | none => rw [hco] at hc; cases hc
    | some c =>
      obtain ⟨mc, hmc⟩ := maxFiniteCost_some hi hj hco
      have hn : n ≠ 0 := by omega
      have hrep : maximum_matching n costs = mmLoop costs n (mmFuel n)
          (fun _ _ => false) (List.replicate n
            { left := { (default : Node α) with potential := mc },
              right := (default : Node α) }) := by
        rw [maximum_matching, if_neg hn, hmc]
      have hmeas0 : unmatchedLeftCount (List.replicate n
          { left := { (default : Node α) with potential := mc },
            right := (default : Node α) }) * (n * n + 1) +
          (n * n - tightCount n (fun _ _ => false)) < mmFuel n := by
        rw [unmatchedLeftCount_init, tightCount_false, mmFuel]
        omega
      rw [hrep]
      exact (mmLoop_spec (mmFuel n) (fun _ _ => false) _
        (MatchInv_init n costs mc) hmeas0).1

end Hungarian

/-!
### The inference engine (`src/qvis/src/inference.rs`)

`f64` values are modelled by an arbitrary linear ordered field `α` (`ℝ` in
the claim statements), with the square root and `π` passed as explicit
parameters `sqrtF`/`piC` so that every definition stays executable;
interned color strings are an arbitrary decidable-equality type `C`; the
`KdTree` is its multiset of points in insertion order; a `HashMap` is an
association list whose keys are the color set in its canonical order
(every per-key value below is independent of iteration order, see the
comments at `InferenceS.infer`).  Rust slice indexing panics and `unwrap`s
are modelled by `Option`.
-/

section Inference

variable {α : Type _} [Inhabited α] [LinearOrderedField α]
variable {C : Type _} [DecidableEq C] [Inhabited C]

/-- `CONFIDENCE_PERCENTILE`: the `f64` literal `0.2`, idealised as the
exact rational. -/
def CONFIDENCE_PERCENTILE : ℚ := 1 / 5

/-- `MAX_NEAREST_N`. -/
def MAX_NEAREST_N : ℕ := 10

/-- `MAX_FRACTION`. -/
def MAX_FRACTION : ℕ := 8

/-- The free function `white_balance`: component-wise division by the
neutral reference color. -/
def white_balance (color neutral : α × α × α) : α × α × α :=
  (color.1 / neutral.1, color.2.1 / neutral.2.1, color.2.2 / neutral.2.2)

/-- `SquaredEuclidean` distance of two 3-D points. -/
def sqDist (p q : α × α × α) : α :=
  (p.1 - q.1) ^ 2 + (p.2.1 - q.2.1) ^ 2 + (p.2.2 - q.2.2) ^ 2

/-- Ascending sort, the reference for the k-nearest-neighbour distances of
the `KdTree` query. -/
def sortAsc (l : List α) : List α :=
  l.insertionSort (· ≤ ·)

/-- The neighbour count of `Pixel::density`:
`MAX_NEAREST_N.min(kdtree.size() / MAX_FRACTION).max(1)`. -/
def densityN (size : ℕ) : ℕ :=
  max (min MAX_NEAREST_N (size / MAX_FRACTION)) 1

/-- `Pixel::density`: `n`-nearest-neighbour density estimate
`n / size * (dist.sqrt().powi(3) * (4/3 * π)).recip()`, where `dist` is the
squared distance of the `n`-th nearest neighbour (the `last` of the
`nearest_n` result); `None` when the tree is empty. -/
def density (sqrtF : α → α) (piC : α) (tree : List (α × α × α))
    (q : α × α × α) : Option α :=
  match ((sortAsc (tree.map fun p => sqDist q p)).take (densityN tree.length)).getLast? with
  | none => none
  | some last =>
    some ((densityN tree.length : α) / (tree.length : α) *
      (sqrtF last ^ 3 * (4 / 3 * piC))⁻¹)

/-- The inference-side `Pixel`: its image index and one point store per
color (`kdtrees`), keyed by the puzzle's color set. -/
structure PixelI (α C : Type _) where
  idx : ℕ
  kdtrees : List (C × List (α × α × α))

/-- `HashMap` lookup on an association list. -/
def lookupC {β : Type _} (l : List (C × β)) (c : C) : Option β :=
  (l.find? fun kv => kv.1 = c).map fun kv => kv.2

/-- `Pixel::densities`: the white-balanced query evaluated against every
color's store, colors with empty stores (`density` = `None`) are skipped by
the `filter_map`. -/
def PixelI.densities (sqrtF : α → α) (piC : α) (px : PixelI α C)
    (q wb : α × α × α) : List (C × α) :=
  px.kdtrees.filterMap fun ck =>
    (density sqrtF piC ck.2 (white_balance q wb)).map fun d => (ck.1, d)

/-- The `Inference` state: pixels grouped by sticker, white-balance
reference indices per face color, and the color set.  (The
`max_confidence : OnceLock<f64>` cache is unused by the embedded
operations and omitted.) -/
structure InferenceS (α C : Type _) where
  pixels_by_sticker : List (List (PixelI α C))
  white_balance_by_face : List (C × List ℕ)
  colors : List C

/-- Component-wise sum of triples. -/
def sumTriple (a b : α × α × α) : α × α × α :=
  (a.1 + b.1, a.2.1 + b.2.1, a.2.2 + b.2.2)

/-- `Inference::white_balance`: per face color the mean of the reference
pixels (`tree_reduce` of `+` agrees with the left fold in the exact
arithmetic of the model), `(1,1,1)` when there are none; `none` models the
`picture[*idx]` panic on an out-of-range reference index. -/
def InferenceS.white_balance (inf : InferenceS α C)
    (picture : List (α × α × α)) : Option (List (C × (α × α × α))) :=
  inf.white_balance_by_face.mapM fun kv =>
    match kv.2 with
    | [] => some (kv.1, (1, 1, 1))
    | idxs =>
      match idxs.mapM fun idx => picture[idx]? with
      | none => none
      | some pts =>
        let s := pts.foldl sumTriple (0, 0, 0)
        some (kv.1, (s.1 / (idxs.length : α), s.2.1 / (idxs.length : α),
          s.2.2 / (idxs.length : α)))

/-- The target rank of `representative_confidence`:
`(CONFIDENCE_PERCENTILE * len as f64).floor() as usize`. -/
def percentileIndex (len : ℕ) : ℕ :=
  (⌊CONFIDENCE_PERCENTILE * (len : ℚ)⌋).toNat

/-- `representative_confidence`: `None` on an empty sample list, otherwise
the element left at the percentile rank after `quickselect`, together with
the advanced generator. -/
def representative_confidence [LinearOrder α] (rng : Rng) (confidences : List α) :
    Option α × Rng :=
  if confidences.length = 0 then (none, rng)
  else
    ((some (getE (quickselect rng confidences (percentileIndex confidences.length)).1
        (percentileIndex confidences.length)),
      (quickselect rng confidences (percentileIndex confidences.length)).2))

/-- One call of `representative_confidence` per color, threading the
generator in the canonical color order (the values are independent of the
generator, hence of the `HashMap` iteration order, see
`representative_confidence_fst`). -/
def confList (rng : Rng) : List (C × List α) → List (C × Option α) × Rng
  | [] => ([], rng)
  | kv :: rest =>
    ((kv.1, (representative_confidence rng kv.2).1) ::
        (confList (representative_confidence rng kv.2).2 rest).1,
      (confList (representative_confidence rng kv.2).2 rest).2)

/-- The per-slot normalisation of `Inference::infer`: the summed finite
confidences are scaled by the color count, divided by the number of colors
with data, scaled by the facelet count; colors without data receive the
`no_data` constant. -/
def aggregateSlot (rng : Rng) (samples : List (C × List α))
    (facelet_adjust no_data : α) : List (C × α) × Rng :=
  ((confList rng samples).1.map fun kv =>
    (kv.1, match kv.2 with
      | some v => v / (((confList rng samples).1.filterMap fun w => w.2).foldl (· + ·) 0 *
          (((confList rng samples).1.length : α)) /
          ((((confList rng samples).1.filter fun w => w.2.isSome).length : α)) *
          facelet_adjust)
      | none => no_data),
    (confList rng samples).2)

/-- The density samples of one sticker, grouped by color in the canonical
color order, each color's list in pixel order; `none` models the
`picture[pixel.idx]` panic. -/
def sticker_confidences (sqrtF : α → α) (piC : α) (pixels : List (PixelI α C))
    (colors : List C) (picture : List (α × α × α)) (wb : α × α × α) :
    Option (List (C × List α)) :=
  match pixels.mapM fun px =>
      (picture[px.idx]?).map fun pt => px.densities sqrtF piC pt wb with
  | none => none
  | some denss => some (colors.map fun c => (c, denss.filterMap fun ds => lookupC ds c))

/-- The per-sticker loop of `Inference::infer`; `none` models the
`wb.get(..).unwrap()` panic and the picture-indexing panics. -/
def inferSlots (sqrtF : α → α) (piC : α) (colors : List C)
    (facelet_colors : ℕ → C) (wbm : List (C × (α × α × α)))
    (picture : List (α × α × α)) (facelet_adjust no_data : α) :
    ℕ → Rng → List (List (PixelI α C)) → Option (List (List (C × α)))
  | _, _, [] => some []
  | idx, rng, v :: rest =>
    match lookupC wbm (facelet_colors idx) with
    | none => none
    | some wb =>
      match sticker_confidences sqrtF piC v colors picture wb with
      | none => none
      | some samples =>
        match inferSlots sqrtF piC colors facelet_colors wbm picture
            facelet_adjust no_data (idx + 1)
            (aggregateSlot rng samples facelet_adjust no_data).2 rest with
        | none => none
        | some out => some ((aggregateSlot rng samples facelet_adjust no_data).1 :: out)

/-- `Inference::infer`.  The hidden thread-local generator of the Rust code
(`rand::rng()`, `src/qvis/src/inference.rs:158`) is made explicit as the
`rng` argument; per-key results are independent of both the generator and
the `HashMap` iteration orders. -/
def InferenceS.infer (sqrtF : α → α) (piC : α) (inf : InferenceS α C)
    (rng : Rng) (picture : List (α × α × α)) (facelet_colors : ℕ → C) :
    Option (List (List (C × α))) :=
  match inf.white_balance picture with
  | none => none
  | some wbm =>
    inferSlots sqrtF piC inf.colors facelet_colors wbm picture
      ((inf.pixels_by_sticker.length : α))
      (((inf.colors.length : α) * (inf.pixels_by_sticker.length : α))⁻¹)
      0 rng inf.pixels_by_sticker

/-- Appending one observation to the store of color `c` (the
`kdtrees.get_mut(color).unwrap().add(..)`; the key set is the color set by
construction). -/
def PixelI.addPoint (px : PixelI α C) (c : C) (pt : α × α × α) : PixelI α C :=
  { px with kdtrees := px.kdtrees.map fun ck =>
      if ck.1 = c then (ck.1, ck.2 ++ [pt]) else ck }

/-- The per-sticker loop of `Inference::calibrate`. -/
def calibSlots (facelet_colors : ℕ → C) (state : ℕ → ℕ)
    (wbm : List (C × (α × α × α))) (image : List (α × α × α)) :
    ℕ → List (List (PixelI α C)) → Option (List (List (PixelI α C)))
  | _, [] => some []
  | idx, v :: rest =>
    match lookupC wbm (facelet_colors idx) with
    | none => none
    | some wb =>
      match v.mapM fun px => (image[px.idx]?).map fun pt =>
          px.addPoint (facelet_colors (state idx)) (white_balance pt wb) with
      | none => none
      | some v' =>
        match calibSlots facelet_colors state wbm image (idx + 1) rest with
        | none => none
        | some out => some (v' :: out)

/-- `Inference::calibrate`: record the white-balanced pixel observations
under the ground-truth color of each sticker (`state` is the permutation's
state mapping). -/
def InferenceS.calibrate (inf : InferenceS α C) (image : List (α × α × α))
    (state : ℕ → ℕ) (facelet_colors : ℕ → C) : Option (InferenceS α C) :=
  match inf.white_balance image with
  | none => none
  | some wbm =>
    match calibSlots facelet_colors state wbm image 0 inf.pixels_by_sticker with
    | none => none
    | some pbs => some { inf with pixels_by_sticker := pbs }

/-- Modelled from the spec: `Matcher::most_likely` (§4.5; the function is
absent from `src/`, only its callers and the spec contract are available).
The puzzle group is its member list (the identity is always a member), the
per-member aggregate confidence derived from the confidence vectors is the
abstract `score`, and the result is the best-scoring member with its
aggregate confidence clamped into `[0,1]` as the spec's §4.5 guarantees. -/
def mostLikelyModel {σ : Type _} (identity : σ) (others : List σ)
    (score : σ → α) : σ × α :=
  ((others.foldl (fun acc g => if score acc < score g then g else acc) identity),
    max 0 (min 1 (score (others.foldl
      (fun acc g => if score acc < score g then g else acc) identity))))

/-- The `CVProcessor` state: the configured pixel count, the inference
state, and the puzzle's facelet-color mapping (standing for the
`puzzle`/`matcher` fields used by the embedded operations). -/
structure CVProcessorS (α C : Type _) where
  image_size : ℕ
  inference : InferenceS α C
  facelet_colors : ℕ → C

/-- `CVProcessor::calibrate`: the `assert_eq!(self.image_size, image.len())`
is the outer guard; on equal lengths the inference state is
calibrated. -/
def CVProcessorS.calibrate (p : CVProcessorS α C) (image : List (α × α × α))
    (state : ℕ → ℕ) : Option (CVProcessorS α C) :=
  if p.image_size = image.length then
    match p.inference.calibrate image state p.facelet_colors with
    | none => none
    | some inf => some { p with inference := inf }
  else none

/-- `CVProcessor::process_image`: infer then match; there is no image
length check (contrast `CVProcessorS.calibrate`). -/
def CVProcessorS.process_image {σ : Type _} (sqrtF : α → α) (piC : α)
    (p : CVProcessorS α C) (rng : Rng) (image : List (α × α × α))
    (identity : σ) (others : List σ)
    (score : List (List (C × α)) → σ → α) : Option (σ × α) :=
  match p.inference.infer sqrtF piC rng image p.facelet_colors with
  | none => none
  | some cvs => some (mostLikelyModel identity others (score cvs))

end Inference

section InferenceSpec

variable {α : Type _} [Inhabited α] [LinearOrderedField α]
variable {C : Type _} [DecidableEq C] [Inhabited C]

/-- The percentile rank is a valid index of a non-empty sample list. -/
theorem percentileIndex_lt (len : ℕ) (h : 1 ≤ len) : percentileIndex len < len := by
  rw [percentileIndex, CONFIDENCE_PERCENTILE]
  have h1 : (1 / 5 : ℚ) * len < len := by
    have hp : (0 : ℚ) < len := by exact_mod_cast h
    nlinarith
  have h2 := Int.floor_le ((1 / 5 : ℚ) * len)
  have h3 : (⌊(1 / 5 : ℚ) * (len : ℚ)⌋ : ℚ) < (len : ℚ) := lt_of_le_of_lt h2 h1
  have h4 : ⌊(1 / 5 : ℚ) * (len : ℚ)⌋ < (len : ℤ) := by exact_mod_cast h3
  omega

/-- The selected representative confidence is the descending-sort order
statistic at the percentile rank: in particular it does not depend on the
random generator driving the pivot choices. -/
theorem representative_confidence_fst (rng : Rng) (l : List α) :
    (representative_confidence rng l).1 =
      if l.length = 0 then none
      else some (getE (sortDesc l) (percentileIndex l.length)) := by
  rw [representative_confidence]
  by_cases h : l.length = 0
  · rw [if_pos h, if_pos h]
  · rw [if_neg h, if_neg h]
    have hk : percentileIndex l.length < l.length :=
      percentileIndex_lt _ (by omega)
    have hq := (quickselect_spec rng l (percentileIndex l.length) hk).2.2.2
    rw [show ((some (getE (quickselect rng l (percentileIndex l.length)).1
        (percentileIndex l.length)), (quickselect rng l
        (percentileIndex l.length)).2) : Option α × Rng).1 =
      some (getE (quickselect rng l (percentileIndex l.length)).1
        (percentileIndex l.length)) from rfl, hq]

theorem confList_fst (rng₁ rng₂ : Rng) (samples : List (C × List α)) :
    (confList rng₁ samples).1 = (confList rng₂ samples).1 := by
  induction samples generalizing rng₁ rng₂ with
  | nil => rfl
  | cons kv rest ih =>
    simp only [confList]
    rw [representative_confidence_fst rng₁, ← representative_confidence_fst rng₂,
      ih ((representative_confidence rng₁ kv.2).2)
        ((representative_confidence rng₂ kv.2).2)]

theorem aggregateSlot_fst (rng₁ rng₂ : Rng) (samples : List (C × List α))
    (fa nd : α) :
    (aggregateSlot rng₁ samples fa nd).1 = (aggregateSlot rng₂ samples fa nd).1 := by
  simp only [aggregateSlot]
  rw [confList_fst rng₁ rng₂ samples]

theorem inferSlots_rng (sqrtF : α → α) (piC : α) (colors : List C)
    (facelet_colors : ℕ → C) (wbm : List (C × (α × α × α)))
    (picture : List (α × α × α)) (fa nd : α) :
    ∀ (pbs : List (List (PixelI α C))) (idx : ℕ) (rng₁ rng₂ : Rng),
      inferSlots sqrtF piC colors facelet_colors wbm picture fa nd idx rng₁ pbs =
      inferSlots sqrtF piC colors facelet_colors wbm picture fa nd idx rng₂ pbs := by
  intro pbs
  induction pbs with
  | nil => intro idx rng₁ rng₂; rfl
  | cons v rest ih =>
    intro idx rng₁ rng₂
    cases hl : lookupC wbm (facelet_colors idx) with
    | none => simp only [inferSlots, hl]
    | some wb =>
      cases hs : sticker_confidences sqrtF piC v colors picture wb with
      | none => simp only [inferSlots, hl, hs]
      | some samples =>
        simp only [inferSlots, hl, hs]
        rw [ih (idx + 1) (aggregateSlot rng₁ samples fa nd).2
            (aggregateSlot rng₂ samples fa nd).2,
          aggregateSlot_fst rng₁ rng₂ samples fa nd]

/-- The best-scoring fold stays inside the candidate list. -/
theorem foldl_best_mem {σ : Type _} (score : σ → α) (x : σ) (xs : List σ) :
    xs.foldl (fun acc g => if score acc < score g then g else acc) x ∈ x :: xs := by
  induction xs generalizing x with
  | nil => simp [List.foldl_nil]
  | cons y ys ih =>
    rw [List.foldl_cons]
    have hmem := ih (if score x < score y then y else x)
    rcases List.mem_cons.mp hmem with h | h
    · rw [h]
      by_cases hlt : score x < score y
      · rw [if_pos hlt]
        exact List.mem_cons.mpr (Or.inr (List.mem_cons.mpr (Or.inl rfl)))
      · rw [if_neg hlt]
        exact List.mem_cons.mpr (Or.inl rfl)
    · exact List.mem_cons.mpr (Or.inr (List.mem_cons.mpr (Or.inr h)))

theorem getLast?_of_ne_nil {β : Type _} [Inhabited β] (l : List β) (h : l ≠ []) :
    l.getLast? = some (getE l (l.length - 1)) := by
  rw [List.getLast?_eq_getElem?, getE, List.getD_eq_getElem?_getD]
  cases hg : l[l.length - 1]? with
  | none =>
    rw [List.getElem?_eq_none_iff] at hg
    have := List.length_pos.mpr h
    omega
  | some x => rfl

end InferenceSpec

/-!
### The claims

The concrete matrices of `hungarian_algorithm.rs::tests::example` and a
tiny concrete processor state; the `f64` test values are integers whose
arithmetic in the run is exact, embedded in the ordered ring `ℤ` so that
the runs evaluate inside the kernel.
-/

/-- The all-finite 3×3 test matrix `[[-8,-4,-7],[-6,-2,-3],[-9,-4,-8]]`. -/
def exampleCosts : ℕ → ℕ → Option ℤ
  | 0, 0 => some (-8) | 0, 1 => some (-4) | 0, 2 => some (-7)
  | 1, 0 => some (-6) | 1, 1 => some (-2) | 1, 2 => some (-3)
  | 2, 0 => some (-9) | 2, 1 => some (-4) | 2, 2 => some (-8)
  | _, _ => none

/-- The same matrix with entry `[0][0]` forbidden. -/
def exampleCostsForbidden : ℕ → ℕ → Option ℤ
  | 0, 1 => some (-4) | 0, 2 => some (-7)
  | 1, 0 => some (-6) | 1, 1 => some (-2) | 1, 2 => some (-3)
  | 2, 0 => some (-9) | 2, 1 => some (-4) | 2, 2 => some (-8)
  | _, _ => none

/-- The matrix whose entire first column is forbidden (no perfect
matching). -/
def exampleCostsColumn : ℕ → ℕ → Option ℤ
  | 0, 1 => some (-4) | 0, 2 => some (-7)
  | 1, 1 => some (-2) | 1, 2 => some (-3)
  | 2, 1 => some (-4) | 2, 2 => some (-8)
  | _, _ => none

/-- A processor configured for 1 pixel whose single sticker slot has no
assigned pixels (`assignment = [Unassigned]`), over one color. -/
def procC3 : CVProcessorS ℚ ℕ where
  image_size := 1
  inference :=
    { pixels_by_sticker := [[]]
      white_balance_by_face := [(0, [])]
      colors := [0] }
  facelet_colors := fun _ => 0

/-- An image of the wrong length (2 pixels instead of the configured 1). -/
def imgC3 : List (ℚ × ℚ × ℚ) := [(0, 0, 0), (0, 0, 0)]

/-- C1: `Matcher::most_likely` (spec §4.5, modelled from the spec — the
function's code is absent from `src/`) returns a pair whose permutation is
a member of the puzzle's group (the model's member list) and whose
confidence lies in the closed interval `[0, 1]`. -/
theorem C1_most_likely_valid_and_bounded {σ : Type _} (identity : σ)
    (others : List σ) (score : σ → ℝ) :
    (mostLikelyModel identity others score).1 ∈ identity :: others ∧
    0 ≤ (mostLikelyModel identity others score).2 ∧
    (mostLikelyModel identity others score).2 ≤ 1 := by
  refine ⟨foldl_best_mem score identity others, le_max_left 0 _, ?_⟩
  rw [mostLikelyModel]
  exact max_le (by norm_num) (min_le_left 1 _)

/-- C2 (supporting theorem for the code bug): the value selected by the
percentile reduction is a pure order statistic — it does not depend on the
random generator at all, so the hidden `rand::rng()` thread-local that
`Inference::infer` draws it from (instead of the explicitly supplied
generator the spec requires) influences nothing but is still global state
in the signature's contract. -/
theorem C2_selection_rng_independent (rng₁ rng₂ : Rng) (l : List ℝ) :
    (representative_confidence rng₁ l).1 = (representative_confidence rng₂ l).1 := by
  rw [representative_confidence_fst, representative_confidence_fst]

/-- C3 counterexample: `CVProcessor::process_image` performs no image
length check — on a 2-pixel image against a processor configured for 1
pixel it processes normally and returns a result instead of rejecting. -/
theorem C3_process_image_no_check :
    imgC3.length ≠ procC3.image_size ∧
    ∃ out, procC3.process_image (fun x => x) 0 (fun _ => 0) imgC3 0 []
      (fun _ _ => (0 : ℚ)) = some out := by
  exact ⟨by decide, ⟨_, rfl⟩⟩

/-- C3 amended: `CVProcessor::calibrate` rejects (asserts on) every image
whose length differs from the configured `image_size`, while
`CVProcessor::process_image` performs no such check at all — its result is
entirely independent of the configured `image_size`. -/
theorem C3_length_check_amended {α : Type _} [Inhabited α]
    [LinearOrderedField α] {C : Type _} [DecidableEq C] [Inhabited C]
    (p : CVProcessorS α C) (image : List (α × α × α)) :
    (∀ state, image.length ≠ p.image_size →
      p.calibrate image state = none) ∧
    (∀ (σ : Type) (sqrtF : α → α) (piC : α) (rng : Rng) (identity : σ)
      (others : List σ) (score : List (List (C × α)) → σ → α) (k : ℕ),
      CVProcessorS.process_image sqrtF piC { p with image_size := k } rng
          image identity others score =
        CVProcessorS.process_image sqrtF piC p rng image identity others
          score) := by
  constructor
  · intro state h
    rw [CVProcessorS.calibrate, if_neg fun hc => h hc.symm]
  · intro σ sqrtF piC rng identity others score k
    rfl

/-- C3 witness. -/
theorem C3_length_check_witness :
    imgC3.length ≠ procC3.image_size ∧
    procC3.calibrate imgC3 (fun i => i) = none ∧
    CVProcessorS.process_image (fun x => x) 0 { procC3 with image_size := 5 }
        (fun _ => 0) imgC3 0 [] (fun _ _ => (0 : ℚ)) =
      CVProcessorS.process_image (fun x => x) 0 procC3 (fun _ => 0) imgC3 0 []
        (fun _ _ => (0 : ℚ)) :=
  ⟨by decide,
    (C3_length_check_amended procC3 imgC3).1 (fun i => i) (by decide),
    (C3_length_check_amended procC3 imgC3).2 ℕ (fun x => x) 0 (fun _ => 0) 0 []
      (fun _ _ => (0 : ℚ)) 5⟩

/-- C4 counterexample: on the non-empty all-forbidden matrix `[[None]]` no
perfect matching over allowed edges exists, yet `maximum_matching` does not
return the infeasible result `None`: it panics on the
`max_by(..).unwrap()` of the empty finite-cost iterator (`MMResult.fault`). -/
theorem C4_all_forbidden_faults :
    maximum_matching 1 (fun _ _ => (none : Option ℤ)) = .fault ∧
    ¬ ∃ a, IsPM 1 (fun _ _ => (none : Option ℤ)) a := by
  refine ⟨by decide, ?_⟩
  rintro ⟨a, -, -, hval⟩
  have h := (hval 0 (by decide)).2
  cases h

/-- C4 (amended): on a square matrix that is empty or has at least one
allowed entry, `maximum_matching` returns the infeasible result exactly
when no perfect matching over the allowed (`Some`) entries exists; the 0×0
matrix yields the empty assignment (success). -/
theorem C4_infeasible_iff_no_matching {α : Type _} [LinearOrderedCommRing α]
    {n : ℕ} (costs : ℕ → ℕ → Option α)
    (hne : n = 0 ∨ ∃ i j, i < n ∧ j < n ∧ (costs i j).isSome = true) :
    (maximum_matching n costs = .infeasible ↔ ¬ ∃ a, IsPM n costs a) ∧
    (n = 0 → maximum_matching n costs = .found []) := by
  refine ⟨maximum_matching_infeasible_iff hne, ?_⟩
  intro h
  subst h
  rw [maximum_matching, if_pos rfl]

/-- C4 witness. -/
theorem C4_matching_witness :
    (3 = 0 ∨ ∃ i j, i < 3 ∧ j < 3 ∧ (exampleCosts i j).isSome = true) ∧
    ((maximum_matching 3 exampleCosts = .infeasible ↔
        ¬ ∃ a, IsPM 3 exampleCosts a) ∧
      (3 = 0 → maximum_matching 3 exampleCosts = .found [])) :=
  ⟨Or.inr ⟨0, 0, by decide, by decide, by decide⟩,
    C4_infeasible_iff_no_matching exampleCosts
      (Or.inr ⟨0, 0, by decide, by decide, by decide⟩)⟩

/-- C5: whenever `maximum_matching` returns an assignment, it is a
permutation of the row indices (`n` pairwise distinct rights below `n`)
whose every matched edge carries a finite (`Some`) cost; and the slack
minimisation of `relax_potentials` only ever ranges over finite-cost
boundary edges (`relaxCandidates` contains no forbidden entry; the BFS
likewise guards every visit by `costs[..].is_some()`, see `scanRights`). -/
theorem C5_found_is_perfect_matching {α : Type _} [LinearOrderedCommRing α]
    {n : ℕ} (costs : ℕ → ℕ → Option α) (a : List ℕ)
    (h : maximum_matching n costs = .found a) :
    IsPM n costs a ∧
    (∀ (data : List (Element α)) (c : (ℕ × ℕ) × α),
      c ∈ relaxCandidates costs n data → (costs c.1.1 c.1.2).isSome = true) := by
  refine ⟨maximum_matching_found_IsPM h, ?_⟩
  intro data c hc
  have hc' : (c.1, c.2) ∈ relaxCandidates costs n data := by simpa using hc
  obtain ⟨h1, h2, h3, h4, h5⟩ := relaxCandidates_mem hc'
  exact h3

/-- C5 witness. -/
theorem C5_matching_witness :
    maximum_matching 3 exampleCosts = .found [0, 2, 1] ∧
    (IsPM 3 exampleCosts [0, 2, 1] ∧
      (∀ (data : List (Element ℤ)) (c : (ℕ × ℕ) × ℤ),
        c ∈ relaxCandidates exampleCosts 3 data →
          (exampleCosts c.1.1 c.1.2).isSome = true)) :=
  ⟨by decide, C5_found_is_perfect_matching exampleCosts [0, 2, 1] (by decide)⟩

/-- C6: `Inference::infer` applied twice to the same image against the
same calibrated state yields identical confidence vectors — the result does
not depend on the state of the (hidden) random generator, which is the only
thing that differs between the two calls. -/
theorem C6_infer_idempotent {C : Type _} [DecidableEq C] [Inhabited C]
    (inf : InferenceS ℝ C) (picture : List (ℝ × ℝ × ℝ))
    (facelet_colors : ℕ → C) (rng₁ rng₂ : Rng) :
    inf.infer Real.sqrt Real.pi rng₁ picture facelet_colors =
      inf.infer Real.sqrt Real.pi rng₂ picture facelet_colors := by
  cases h : inf.white_balance picture with
  | none => simp only [InferenceS.infer, h]
  | some wbm =>
    simp only [InferenceS.infer, h]
    exact inferSlots_rng Real.sqrt Real.pi inf.colors facelet_colors wbm
      picture _ _ inf.pixels_by_sticker 0 rng₁ rng₂

/-- C7: the three test matrices of `tests::example`: the all-finite base
matrix yields `[0,2,1]`, the matrix with `[0][0]` forbidden yields
`[1,2,0]`, and the matrix with its whole first column forbidden yields the
infeasible result. -/
theorem C7_test_matrices :
    maximum_matching 3 exampleCosts = .found [0, 2, 1] ∧
    maximum_matching 3 exampleCostsForbidden = .found [1, 2, 0] ∧
    maximum_matching 3 exampleCostsColumn = .infeasible :=
  ⟨by decide, by decide, by decide⟩

/-- C8: after `quickselect` returns, the element at `find_spot` is ≥ every
element after it and ≤ every element before it (descending order), and
equals the element at `find_spot` of the fully descending-sorted slice. -/
theorem C8_quickselect_order_statistic {α : Type _} [Inhabited α]
    [LinearOrder α] (rng : Rng) (l : List α) (k : ℕ) (hk : k < l.length) :
    (∀ m, k < m → m < l.length →
      getE (quickselect rng l k).1 m ≤ getE (quickselect rng l k).1 k) ∧
    (∀ m, m < k → getE (quickselect rng l k).1 k ≤ getE (quickselect rng l k).1 m) ∧
    getE (quickselect rng l k).1 k = getE (sortDesc l) k := by
  obtain ⟨-, h2, h3, h4⟩ := quickselect_spec rng l k hk
  exact ⟨h3, h2, h4⟩

/-- C8 witness. -/
theorem C8_quickselect_witness :
    2 < ([5, 4, 3, 2, 1] : List ℕ).length ∧
    ((∀ m, 2 < m → m < ([5, 4, 3, 2, 1] : List ℕ).length →
      getE (quickselect (fun _ => 0) [5, 4, 3, 2, 1] 2).1 m ≤
        getE (quickselect (fun _ => 0) [5, 4, 3, 2, 1] 2).1 2) ∧
    (∀ m, m < 2 → getE (quickselect (fun _ => 0) [5, 4, 3, 2, 1] 2).1 2 ≤
        getE (quickselect (fun _ => 0) [5, 4, 3, 2, 1] 2).1 m) ∧
    getE (quickselect (fun _ => 0) [5, 4, 3, 2, 1] 2).1 2 =
      getE (sortDesc [5, 4, 3, 2, 1]) 2) :=
  ⟨by decide, C8_quickselect_order_statistic (fun _ => 0) [5, 4, 3, 2, 1] 2
    (by decide)⟩

/-- C9: the density estimate of `Pixel::density` is `None` exactly on an
empty index, and otherwise equals `k/n` divided by the volume `4/3·π·r³`
of the ball whose radius `r` is the (root of the squared) distance of the
`k`-th nearest neighbour, with
`k = max (min MAX_NEAREST_N (n / MAX_FRACTION)) 1`, which agrees with the
spec's `clamp(min(K_MAX, n / FRACTION), 1, n)`; colors whose index is
empty are excluded from the per-slot aggregation (`Pixel::densities` keeps
only successful estimates). -/
theorem C9_density_spec (tree : List (ℝ × ℝ × ℝ)) (q : ℝ × ℝ × ℝ) :
    (density Real.sqrt Real.pi tree q =
      if tree.length = 0 then none
      else some (((densityN tree.length : ℝ) / (tree.length : ℝ)) /
        (4 / 3 * Real.pi *
          Real.sqrt (getE (sortAsc (tree.map fun p => sqDist q p))
            (densityN tree.length - 1)) ^ 3))) ∧
    (∀ n : ℕ, densityN n =
      if n = 0 then 1
      else min (max (min MAX_NEAREST_N (n / MAX_FRACTION)) 1) n) ∧
    (∀ (px : PixelI ℝ ℕ) (q' wb : ℝ × ℝ × ℝ) (c : ℕ) (d : ℝ),
      (c, d) ∈ px.densities Real.sqrt Real.pi q' wb →
      ∃ tree', (c, tree') ∈ px.kdtrees ∧ tree' ≠ [] ∧
        density Real.sqrt Real.pi tree' (white_balance q' wb) = some d) := by
  refine ⟨?_, ?_, ?_⟩
  · by_cases h0 : tree.length = 0
    · rw [if_pos h0]
      rw [List.length_eq_zero] at h0
      subst h0
      rfl
    · rw [if_neg h0]
      have hlen1 : 1 ≤ tree.length := by omega
      have hsl : (sortAsc (tree.map fun p => sqDist q p)).length = tree.length := by
        rw [sortAsc, List.length_insertionSort, List.length_map]
      have hnle : densityN tree.length ≤ tree.length := by
        rw [densityN, MAX_NEAREST_N, MAX_FRACTION]
        omega
      have hn1 : 1 ≤ densityN tree.length := by
        rw [densityN]
        omega
      have htl : ((sortAsc (tree.map fun p => sqDist q p)).take
          (densityN tree.length)).length = densityN tree.length := by
        rw [List.length_take, hsl]
        omega
      have htne : (sortAsc (tree.map fun p => sqDist q p)).take
          (densityN tree.length) ≠ [] := by
        intro hc
        rw [hc] at htl
        simp at htl
        omega
      rw [density, getLast?_of_ne_nil _ htne, htl,
        getE_take _ _ _ (by omega)]
      rw [div_eq_mul_inv, div_eq_mul_inv]
      ring_nf
  · intro n
    by_cases h0 : n = 0
    · subst h0
      rfl
    · rw [if_neg h0, densityN, MAX_NEAREST_N, MAX_FRACTION]
      omega
  · intro px q' wb c d hmem
    rw [PixelI.densities] at hmem
    obtain ⟨ck, hck, hval⟩ := List.mem_filterMap.mp hmem
    rw [Option.map_eq_some'] at hval
    obtain ⟨d', hd', heq⟩ := hval
    cases heq
    refine ⟨ck.2, by simpa using hck, ?_, hd'⟩
    intro hc
    rw [hc] at hd'
    cases hd'

/-- C10: `quickselect` terminates on every slice: `partition` preserves the
length and returns a pivot position strictly inside the slice, both
recursion branches (`take` before the pivot, `drop` after it) are strictly
shorter than the slice, the left scan never runs past the slice length,
and the right scan can never pass the pivot copy at index 0 (the value it
stops on is never below the pivot). -/
theorem C10_quickselect_terminates {α : Type _} [Inhabited α]
    [LinearOrder α] (rng : Rng) (l : List α) (h : 1 ≤ l.length) :
    (partition rng l).1.length = l.length ∧
    (partition rng l).2 < l.length ∧
    ((partition rng l).1.take (partition rng l).2).length < l.length ∧
    ((partition rng l).1.drop ((partition rng l).2 + 1)).length < l.length ∧
    (∀ i, i ≤ l.length → advI l i ≤ l.length) ∧
    (∀ j, retJ l j ≤ j ∧ ¬ getE l (retJ l j) < getE l 0) := by
  have hlen := partition_length rng l
  have hlt := partition_snd_lt rng l h
  refine ⟨hlen, hlt, ?_, ?_, fun i hi => advI_le_length l i hi,
    fun j => ⟨retJ_le l j, retJ_stop l j⟩⟩
  · rw [List.length_take, hlen]
    omega
  · rw [List.length_drop, hlen]
    omega

/-- C10 witness. -/
theorem C10_quickselect_witness :
    1 ≤ ([2, 1] : List ℕ).length ∧
    ((partition (fun _ => 0) ([2, 1] : List ℕ)).1.length =
        ([2, 1] : List ℕ).length ∧
      (partition (fun _ => 0) ([2, 1] : List ℕ)).2 < ([2, 1] : List ℕ).length ∧
      ((partition (fun _ => 0) ([2, 1] : List ℕ)).1.take
          (partition (fun _ => 0) ([2, 1] : List ℕ)).2).length <
        ([2, 1] : List ℕ).length ∧
      ((partition (fun _ => 0) ([2, 1] : List ℕ)).1.drop
          ((partition (fun _ => 0) ([2, 1] : List ℕ)).2 + 1)).length <
        ([2, 1] : List ℕ).length ∧
      (∀ i, i ≤ ([2, 1] : List ℕ).length →
        advI ([2, 1] : List ℕ) i ≤ ([2, 1] : List ℕ).length) ∧
      (∀ j, retJ ([2, 1] : List ℕ) j ≤ j ∧
        ¬ getE ([2, 1] : List ℕ) (retJ ([2, 1] : List ℕ) j) <
          getE ([2, 1] : List ℕ) 0)) :=
  ⟨by decide, C10_quickselect_terminates (fun _ => 0) [2, 1] (by decide)⟩

end Qvis
